import Mathlib

/-!
# libc3 scene objects (`src/c3object.c`)

A shallow embedding of the scene-object core of libc3.  Objects, geometries,
transforms and contexts live in a heap addressed by natural numbers; a C pointer
that may be `NULL` is an `Option Nat`.  Every operation is a function on the
heap.  Loops over an array become recursion over the list of its elements, and
the recursive walks over the tree (which need not terminate on a cyclic heap)
take a fuel argument and return `none` when the fuel runs out.

The headers are not part of the sources at hand.  Modelled from the spec: the macros
`C3_DRIVER` and `C3_DRIVER_INHERITED` of `c3driver_object.h` start the dispatch at the
first table of the object's driver list, respectively continue with the next table;
every object carries the list `{ &c3object_driver, NULL }` installed by `c3object_init`,
so `C3_DRIVER(o, f, ...)` calls the entry `_c3object_f` of the base driver and
`C3_DRIVER_INHERITED` finds no further table and does nothing.
-/

namespace LibC3

/-- Modelled from the spec: the `c3mat4` value type of `c3algebra.h`, an opaque 4x4 matrix
with the multiplication `c3mat4_mul`; `zero` is the matrix whose storage is all zero
bytes, which is what `memset` leaves in `world`. -/
class Mat4 (M : Type) where
  zero : M
  mul : M → M → M

/-- Store `v` at address `a` of a heap component. -/
def upd {α : Type} (f : Nat → α) (a : Nat) (v : α) : Nat → α :=
  fun x => if x = a then v else f x

/-- The fields of `c3object_t` used by `c3object.c` (the `driver` field is always the
base list installed by `c3object_init` and is not stored). -/
structure c3object (M : Type) where
  parent : Option Nat
  objects : List Nat
  geometry : List Nat
  transform : List Nat
  world : M
  dirty : Bool
  hidden : Nat
  context : Option Nat

/-- The fields of `c3geometry_t` read or written by `c3object.c`. -/
structure c3geometry where
  object : Option Nat
  hidden : Nat
  dirty : Bool

/-- The fields of `c3transform_t` read or written by `c3object.c`. -/
structure c3transform (M : Type) where
  object : Option Nat
  matrix : M

/-- The heap.  `current c` is the field `current` of the context at address `c`.
The last six components are ghost state: `live o` says that address `o` holds an
initialised object that has not been freed, `projected` lists the calls made to
`c3geometry_project` (geometry and matrix), `muls` counts the calls to `c3mat4_mul`,
`geoDisposed` / `xfDisposed` list the calls to `c3geometry_dispose` and
`c3transform_dispose`, each with the back-reference `object` that the geometry or
transform holds when the call is made, and `freed` lists the objects passed to `free`. -/
structure Scene (M : Type) where
  obj : Nat → c3object M
  geo : Nat → c3geometry
  xf : Nat → c3transform M
  current : Nat → Nat
  live : Nat → Bool
  projected : List (Nat × M)
  muls : Nat
  geoDisposed : List (Nat × Option Nat)
  xfDisposed : List (Nat × Option Nat)
  freed : List Nat

variable {M : Type}

/-- The object `r` after the assignment `r.parent = p`. -/
@[simps] def c3object.withParent (r : c3object M) (p : Option Nat) : c3object M :=
  { r with parent := p }

/-- The object `r` after its `objects` array has become `l`. -/
@[simps] def c3object.withObjects (r : c3object M) (l : List Nat) : c3object M :=
  { r with objects := l }

/-- The object `r` after its `geometry` array has become `l`. -/
@[simps] def c3object.withGeometry (r : c3object M) (l : List Nat) : c3object M :=
  { r with geometry := l }

/-- The object `r` after its `transform` array has become `l`. -/
@[simps] def c3object.withTransform (r : c3object M) (l : List Nat) : c3object M :=
  { r with transform := l }

/-- The object `r` after the assignment `r.world = w`. -/
@[simps] def c3object.withWorld (r : c3object M) (w : M) : c3object M :=
  { r with world := w }

/-- The object `r` after the assignment `r.dirty = b`. -/
@[simps] def c3object.withDirty (r : c3object M) (b : Bool) : c3object M :=
  { r with dirty := b }

/-- The object `r` after the assignment `r.context = c`. -/
@[simps] def c3object.withContext (r : c3object M) (c : Option Nat) : c3object M :=
  { r with context := c }

/-- The object left by `memset(o, 0, sizeof(*o))`. -/
@[simps] def c3object.zeroed [Mat4 M] : c3object M :=
  { parent := none, objects := [], geometry := [], transform := [], world := Mat4.zero,
    dirty := false, hidden := 0, context := none }

/-- The geometry `r` after the assignment `r.object = p`. -/
@[simps] def c3geometry.withObject (r : c3geometry) (p : Option Nat) : c3geometry :=
  { r with object := p }

/-- The geometry `r` after the assignment `r.dirty = b`. -/
@[simps] def c3geometry.withDirty (r : c3geometry) (b : Bool) : c3geometry :=
  { r with dirty := b }

/-- The transform `r` after the assignment `r.object = p`. -/
@[simps] def c3transform.withObject (r : c3transform M) (p : Option Nat) : c3transform M :=
  { r with object := p }

/-- Apply the field assignment `f` to the object stored at `o`. -/
def Scene.modObj (s : Scene M) (o : Nat) (f : c3object M → c3object M) : Scene M :=
  { s with obj := upd s.obj o (f (s.obj o)) }

/-- Apply the field assignment `f` to the geometry stored at `g`. -/
def Scene.modGeo (s : Scene M) (g : Nat) (f : c3geometry → c3geometry) : Scene M :=
  { s with geo := upd s.geo g (f (s.geo g)) }

/-- Apply the field assignment `f` to the transform stored at `t`. -/
def Scene.modXf (s : Scene M) (t : Nat) (f : c3transform M → c3transform M) : Scene M :=
  { s with xf := upd s.xf t (f (s.xf t)) }

/-- Modelled from the spec: `c3object_array_add` / `c3geometry_array_add` of the ordered
collection (`c_array.h`): append at the end. -/
def c_array_add (a : List Nat) (e : Nat) : List Nat := a ++ [e]

/-- Modelled from the spec: `c3object_array_delete` / `c3geometry_array_delete`:
order-preserving removal of `count` elements starting at `index`. -/
def c_array_delete (a : List Nat) (index count : Nat) : List Nat :=
  a.take index ++ a.drop (index + count)

/-- The search loop `for (oi = 0; oi < a.count; oi++) if (a.e[oi] == x) { ...; break; }`:
the first index holding `x`, if any. -/
def findIndex : List Nat → Nat → Option Nat
  | [], _ => none
  | e :: es, x => if e = x then some 0 else (findIndex es x).map (fun i => i + 1)

/-- A `for` loop over the elements of an array whose body may fail to return. -/
def iterM {σ : Type} (f : σ → Nat → Option σ) : List Nat → σ → Option σ
  | [], s => some s
  | c :: cs, s =>
    match f s c with
    | none => none
    | some s1 => iterM f cs s1

/-- Modelled from the spec: `c3geometry_project(g, m)` of the geometry collaborator; the
call is recorded. -/
def c3geometry_project (s : Scene M) (g : Nat) (m : M) : Scene M :=
  { s with projected := s.projected ++ [(g, m)] }

/-- Modelled from the spec: `c3geometry_dispose(g)` of the geometry collaborator; the call
is recorded, together with the value of `g->object` at the time of the call. -/
def c3geometry_dispose (s : Scene M) (g : Nat) : Scene M :=
  { s with geoDisposed := s.geoDisposed ++ [(g, (s.geo g).object)] }

/-- Modelled from the spec: `c3transform_dispose(t)` of the transform collaborator; the call
is recorded, together with the value of `t->object` at the time of the call. -/
def c3transform_dispose (s : Scene M) (t : Nat) : Scene M :=
  { s with xfDisposed := s.xfDisposed ++ [(t, (s.xf t).object)] }

/-- The loop of `c3object_set_dirty` over `o->geometry`: `o->geometry.e[oi]->dirty = 1`
(array elements are addresses, so the null test of the source always succeeds). -/
def markGeometry (s : Scene M) (gs : List Nat) : Scene M :=
  gs.foldl (fun s g => s.modGeo g (fun r => r.withDirty true)) s

/-- The loop `while (o) { o->dirty = true; o = o->parent; }` of `c3object_set_dirty`;
one unit of fuel per iteration. -/
def dirtyUp : Nat → Scene M → Option Nat → Option (Scene M)
  | _, s, none => some s
  | 0, _, some _ => none
  | n + 1, s, some o =>
    dirtyUp n (s.modObj o (fun r => r.withDirty true)) (s.obj o).parent

/-- The `else` branch of `c3object_set_dirty`: recurse into the children that are dirty,
then clear `o->dirty`; one unit of fuel per level of recursion. -/
def cleanDown : Nat → Scene M → Nat → Option (Scene M)
  | 0, _, _ => none
  | n + 1, s, o =>
    match iterM (fun s c => if (s.obj c).dirty then cleanDown n s c else some s)
        (s.obj o).objects s with
    | none => none
    | some s1 => some (s1.modObj o (fun r => r.withDirty false))

/-- The function `c3object_set_dirty(o, dirty)`. -/
def c3object_set_dirty (fuel : Nat) (s : Scene M) (o : Nat) (dirty : Bool) :
    Option (Scene M) :=
  if dirty then dirtyUp fuel (markGeometry s (s.obj o).geometry) (some o)
  else cleanDown fuel s o

/-- The detaching block shared by `c3object_add_object` and `_c3object_dispose`:
`if (x->parent) { for (...) if (x->parent->objects.e[oi] == x) { delete; set_dirty;
break; } x->parent = NULL; }`. -/
def detachObject (fuel : Nat) (s : Scene M) (x : Nat) : Option (Scene M) :=
  match (s.obj x).parent with
  | none => some s
  | some p =>
    match
      (match findIndex (s.obj p).objects x with
       | none => some s
       | some oi =>
         c3object_set_dirty fuel
           (s.modObj p (fun r => r.withObjects (c_array_delete r.objects oi 1))) p true) with
    | none => none
    | some s1 => some (s1.modObj x (fun r => r.withParent none))

/-- The function `c3object_add_object(o, sub)`; `o` may be `NULL`. -/
def c3object_add_object (fuel : Nat) (s : Scene M) (o : Option Nat) (sub : Nat) :
    Option (Scene M) :=
  if (s.obj sub).parent = o then some s
  else
    match detachObject fuel s sub with
    | none => none
    | some s1 =>
      let s2 := s1.modObj sub (fun r => r.withParent o)
      match o with
      | none => some s2
      | some o =>
        c3object_set_dirty fuel
          (s2.modObj o (fun r => r.withObjects (c_array_add r.objects sub))) o true

/-- The detaching block of `c3object_add_geometry`: `if (g->object) { for (...)
if (g->object->geometry.e[oi] == g) { delete; set_dirty; break; } g->object = NULL; }`. -/
def detachGeometry (fuel : Nat) (s : Scene M) (g : Nat) : Option (Scene M) :=
  match (s.geo g).object with
  | none => some s
  | some p =>
    match
      (match findIndex (s.obj p).geometry g with
       | none => some s
       | some oi =>
         c3object_set_dirty fuel
           (s.modObj p (fun r => r.withGeometry (c_array_delete r.geometry oi 1))) p true) with
    | none => none
    | some s1 => some (s1.modGeo g (fun r => r.withObject none))

/-- The function `c3object_add_geometry(o, g)`; `o` may be `NULL`. -/
def c3object_add_geometry (fuel : Nat) (s : Scene M) (o : Option Nat) (g : Nat) :
    Option (Scene M) :=
  if (s.geo g).object = o then some s
  else
    match detachGeometry fuel s g with
    | none => none
    | some s1 =>
      let s2 := s1.modGeo g (fun r => r.withObject o)
      match o with
      | none => some s2
      | some o =>
        c3object_set_dirty fuel
          (s2.modObj o (fun r => r.withGeometry (c_array_add r.geometry g))) o true

/-- The function `c3object_init(o, parent)`: `memset`, then the field assignments.  The ghost flag
`live` of `o` is raised. -/
def c3object_init [Mat4 M] (s : Scene M) (o : Nat) (parent : Option Nat) : Scene M :=
  let s1 : Scene M :=
    { s with
      obj := upd s.obj o (c3object.zeroed.withParent parent)
      live := upd s.live o true }
  match parent with
  | none => s1
  | some p =>
    let s2 := s1.modObj p (fun r => r.withObjects (c_array_add r.objects o))
    s2.modObj o (fun r => r.withContext (s2.obj p).context)

/-- The function `c3object_new(o)`.  `res` is what `malloc` returned (`none` for `NULL`); the source
passes it to `c3object_init` unchecked, and `memset` through a null pointer has no
defined result, which is the outer `none`.  When the call returns, the second component
is the pointer handed to the caller (`none` would be a returned `NULL`). -/
def c3object_new [Mat4 M] (s : Scene M) (res : Option Nat) (o : Option Nat) :
    Option (Scene M × Option Nat) :=
  match res with
  | none => none
  | some r => some (c3object_init s r o, some r)

/-- The function `_c3object_clear(o, d)`, the `clear` entry of the base driver.  `dispose` is the
function reached by the call `c3object_dispose(o->objects.e[oi])`.  The three loops run
over the arrays as they are on entry. -/
def _c3object_clear (dispose : Scene M → Nat → Option (Scene M)) (s : Scene M) (o : Nat) :
    Option (Scene M) :=
  let s1 := (s.obj o).transform.foldl
    (fun s t => c3transform_dispose (s.modXf t (fun r => r.withObject none)) t) s
  let s2 := (s.obj o).geometry.foldl
    (fun s g => c3geometry_dispose (s.modGeo g (fun r => r.withObject none)) g) s1
  match iterM (fun s c => dispose (s.modObj c (fun r => r.withParent none)) c)
      (s.obj o).objects s2 with
  | none => none
  | some s3 =>
    some (s3.modObj o (fun r => ((r.withObjects []).withGeometry []).withTransform []))

/-- The function `_c3object_dispose(o, d)`, the `dispose` entry of the base driver: detach from the
parent, then `free(o)`, which is recorded.  `C3_DRIVER_INHERITED` finds no further driver in
the base list. -/
def _c3object_dispose (fuel : Nat) (s : Scene M) (o : Nat) : Option (Scene M) :=
  match detachObject fuel s o with
  | none => none
  | some s1 => some { s1 with live := upd s1.live o false, freed := s1.freed ++ [o] }

/-- The function `c3object_dispose(o)`: `c3object_clear(o)` followed by the driver's `dispose`.
`C3_DRIVER` dispatches to the base driver.  One unit of fuel per level of recursion;
the walk of `c3object_set_dirty` inside shares the fuel. -/
def c3object_dispose : Nat → Scene M → Nat → Option (Scene M)
  | 0, _, _ => none
  | n + 1, s, o =>
    match _c3object_clear (c3object_dispose n) s o with
    | none => none
    | some s1 => _c3object_dispose (n + 1) s1 o

/-- The function `c3object_clear(o)`: `C3_DRIVER(o, clear)` with the base driver. -/
def c3object_clear (fuel : Nat) (s : Scene M) (o : Nat) : Option (Scene M) :=
  _c3object_clear (c3object_dispose fuel) s o

/-- The 16-bit `viewmask = (1 << o->context->current)`: the shift in `int`, truncated by the
assignment to `uint16_t`.  Exact for the views 0..15 of the context collaborator (and 0
up to view 30); from view 32 on the C shift is undefined and the value here, 0, stands
for nothing the code guarantees. -/
def viewmask (current : Nat) : Nat := (1 <<< current) % 65536

/-- The loop of `_c3object_get_geometry` over `o->geometry`. -/
def addVisible (s : Scene M) (mask : Nat) (gs : List Nat) (out : List Nat) : List Nat :=
  gs.foldl (fun out g => if (s.geo g).hidden &&& mask = 0 then c_array_add out g else out)
    out

/-- The function `c3object_get_geometry(o, out)`, dispatching to `_c3object_get_geometry` of the base
driver.  The heap and the contents of `out` are passed along and returned; `none` also
stands for the dereference of a null `o->context`. -/
def c3object_get_geometry :
    Nat → Scene M → Nat → List Nat → Option (Scene M × List Nat)
  | 0, _, _, _ => none
  | n + 1, s, o, out =>
    match (s.obj o).context with
    | none => none
    | some c =>
      if (s.obj o).hidden &&& viewmask (s.current c) ≠ 0 then some (s, out)
      else
        iterM (fun so c => c3object_get_geometry n so.1 c so.2) (s.obj o).objects
          (s, addVisible s (viewmask (s.current c)) (s.obj o).geometry out)

/-- The transform loop of `_c3object_project`: `p = c3mat4_mul(&t, &e[pi]->matrix)`. -/
def applyTransforms [Mat4 M] (s : Scene M) (m : M) (ts : List Nat) : M :=
  ts.foldl (fun p t => Mat4.mul p (s.xf t).matrix) m

/-- The function `c3object_project(o, m)`, dispatching to `_c3object_project` of the base driver.
The ghost counter `muls` advances by one per transform. -/
def c3object_project [Mat4 M] : Nat → Scene M → Nat → M → Option (Scene M)
  | 0, _, _, _ => none
  | n + 1, s, o, m =>
    if (s.obj o).dirty = false then some s
    else
      let p := applyTransforms s m (s.obj o).transform
      let s1 : Scene M :=
        { s.modObj o (fun r => r.withWorld p) with
          muls := s.muls + (s.obj o).transform.length }
      let s2 := (s.obj o).geometry.foldl (fun s g => c3geometry_project s g p) s1
      match iterM (fun s c => c3object_project n s c p) (s.obj o).objects s2 with
      | none => none
      | some s3 => some (s3.modObj o (fun r => r.withDirty false))

/-! ## Predicates on scenes -/

/-- The relation `Desc s o d`: `d` is `o` or is reached from `o` through `objects` arrays. -/
inductive Desc (s : Scene M) : Nat → Nat → Prop
  | refl (o : Nat) : Desc s o o
  | step {o c d : Nat} : c ∈ (s.obj o).objects → Desc s c d → Desc s o d

/-- The relation `Anc s a x`: `a` is reached from `x` by following `parent` one or more times. -/
inductive Anc (s : Scene M) : Nat → Nat → Prop
  | parent {a x : Nat} : (s.obj x).parent = some a → Anc s a x
  | step {a p x : Nat} : (s.obj x).parent = some p → Anc s a p → Anc s a x

/-- The parent chain starting at `o` reaches a null parent within `n` steps. -/
def reachesRoot (s : Scene M) : Nat → Option Nat → Bool
  | _, none => true
  | 0, some _ => false
  | n + 1, some o => reachesRoot s n (s.obj o).parent

/-- The first `n` objects of the parent chain starting at `o`. -/
def chain (s : Scene M) : Nat → Option Nat → List Nat
  | _, none => []
  | 0, some _ => []
  | n + 1, some o => o :: chain s n (s.obj o).parent

/-- Every path through `objects` arrays that starts at `o` has fewer than `n` objects. -/
def depthWithin (s : Scene M) : Nat → Nat → Bool
  | 0, _ => false
  | n + 1, o => (s.obj o).objects.all (fun c => depthWithin s n c)

/-- The scene with the `dirty` flag raised on the objects of `l`. -/
def markAll (s : Scene M) (l : List Nat) : Scene M :=
  { s with obj := fun x => if x ∈ l then (s.obj x).withDirty true else s.obj x }

/-- Parent/child symmetry over the live objects: (a) an element of `o.objects` is a live
object whose `parent` is `o`; (b) an object with a non-null `parent` occurs exactly once
in the `objects` of that (live) parent. -/
structure Forest (s : Scene M) : Prop where
  child : ∀ o c, s.live o = true → c ∈ (s.obj o).objects →
    s.live c = true ∧ (s.obj c).parent = some o
  parent : ∀ c p, s.live c = true → (s.obj c).parent = some p →
    s.live p = true ∧ (s.obj p).objects.count c = 1

/-- Geometry ownership symmetry: `g.object == p` exactly when `g` occurs (once) in
`p.geometry`. -/
structure GeoOwned (s : Scene M) : Prop where
  owner : ∀ p g, g ∈ (s.obj p).geometry → (s.geo g).object = some p
  member : ∀ g p, (s.geo g).object = some p → (s.obj p).geometry.count g = 1

/-- Upward-closed dirtiness: the parent of a dirty live object is dirty. -/
def UpClosed (s : Scene M) : Prop :=
  ∀ x p, s.live x = true → (s.obj x).parent = some p → (s.obj x).dirty = true →
    (s.obj p).dirty = true

/-! ## A concrete scene -/

/-- Modelled from the spec: a 4x4 matrix with integer entries, rows first. -/
abbrev Mat : Type := Fin 4 → Fin 4 → Int

/-- Modelled from the spec: the matrix product, standing for `c3mat4_mul`. -/
def Mat.mul (a b : Mat) : Mat :=
  fun i j => a i 0 * b 0 j + a i 1 * b 1 j + a i 2 * b 2 j + a i 3 * b 3 j

instance : Mat4 Mat where
  zero := fun _ _ => 0
  mul := Mat.mul

/-- Modelled from the spec: the translation by `(x, y, z)`. -/
def translate (x y z : Int) : Mat :=
  fun i j =>
    if i = j then 1
    else if j = 3 then (if i = 0 then x else if i = 1 then y else if i = 2 then z else 0)
    else 0

/-- The identity matrix. -/
def identity : Mat := translate 0 0 0

/-- The objects of `demo`: a root `R` at 0 with child `A` at 1 (one transform) with child
`B` at 2 (one transform, one geometry), all dirty, and a second, clean root at 3. -/
def demoObj : Nat → c3object Mat
  | 0 => ⟨none, [1], [], [], Mat4.zero, true, 0, some 0⟩
  | 1 => ⟨some 0, [2], [], [0], Mat4.zero, true, 0, some 0⟩
  | 2 => ⟨some 1, [], [0], [1], Mat4.zero, true, 0, some 0⟩
  | 3 => ⟨none, [], [], [], Mat4.zero, false, 0, some 0⟩
  | _ => c3object.zeroed

/-- The transforms of `demo`: translate(1,0,0) at 0 and translate(0,1,0) at 1. -/
def demoXf : Nat → c3transform Mat
  | 0 => ⟨some 1, translate 1 0 0⟩
  | 1 => ⟨some 2, translate 0 1 0⟩
  | _ => ⟨none, Mat4.zero⟩

/-- The geometries of `demo`: `G` at 0, owned by `B`. -/
def demoGeo : Nat → c3geometry
  | 0 => ⟨some 2, 0, false⟩
  | _ => ⟨none, 0, false⟩

/-- The scene `R -> A [translate(1,0,0)] -> B [translate(0,1,0)]` holding `G`, with a
separate root at 3; the one context has current view 0. -/
def demo : Scene Mat :=
  { obj := demoObj, geo := demoGeo, xf := demoXf, current := fun _ => 0,
    live := fun x => decide (x < 4), projected := [], muls := 0,
    geoDisposed := [], xfDisposed := [], freed := [] }

/-! ## The render list, as the claims describe it -/

/-- The list `collect(o)` for view `v`, following the words of the specification: empty if
bit `v` of `o.hidden` is set, and otherwise the geometries of `o.geometry` whose own hidden
mask has bit `v` clear, in order, followed by `collect(c)` for each child `c` of `o.objects`
in order.  The first argument bounds the depth of the descent. -/
def collect (s : Scene M) (v : Nat) : Nat → Nat → List Nat
  | 0, _ => []
  | n + 1, o =>
    if (s.obj o).hidden.testBit v then []
    else
      (s.obj o).geometry.filter (fun g => !(s.geo g).hidden.testBit v)
        ++ (s.obj o).objects.flatMap (fun c => collect s v n c)

/-- The relation `Vis s v o d`: `d` is reached from `o` through `objects` arrays along objects, `o` and
`d` included, none of which has bit `v` of its hidden mask set. -/
inductive Vis (s : Scene M) (v : Nat) : Nat → Nat → Prop
  | here {o : Nat} : (s.obj o).hidden.testBit v = false → Vis s v o o
  | step {o c d : Nat} : (s.obj o).hidden.testBit v = false → c ∈ (s.obj o).objects →
      Vis s v c d → Vis s v o d

/-- The objects of `demo2`: a root at 0 (geometry 0) with children 1 and 2; object 1 is
hidden in view 0 and has geometry 1 and a child 3 with geometry 2; object 2 has
geometries 3 and 4. -/
def demo2Obj : Nat → c3object Mat
  | 0 => ⟨none, [1, 2], [0], [], Mat4.zero, false, 0, some 0⟩
  | 1 => ⟨some 0, [3], [1], [], Mat4.zero, false, 1, some 0⟩
  | 2 => ⟨some 0, [], [3, 4], [], Mat4.zero, false, 0, some 0⟩
  | 3 => ⟨some 1, [], [2], [], Mat4.zero, false, 0, some 0⟩
  | _ => c3object.zeroed.withContext (some 0)

/-- The geometries of `demo2`; geometry 4 is hidden in view 0. -/
def demo2Geo : Nat → c3geometry
  | 0 => ⟨some 0, 0, false⟩
  | 1 => ⟨some 1, 0, false⟩
  | 2 => ⟨some 3, 0, false⟩
  | 3 => ⟨some 2, 0, false⟩
  | 4 => ⟨some 2, 1, false⟩
  | _ => ⟨none, 0, false⟩

/-- A scene with a hidden subtree; the one context has current view 0. -/
def demo2 : Scene Mat :=
  { obj := demo2Obj, geo := demo2Geo, xf := fun _ => ⟨none, Mat4.zero⟩, current := fun _ => 0,
    live := fun x => decide (x < 4), projected := [], muls := 0,
    geoDisposed := [], xfDisposed := [], freed := [] }

/-! ## Paths and accumulated transforms -/

/-- The relation `Path s o l d`: `l` lists the objects met going from `o` down to `d` through `objects`
arrays, `o` first and `d` last. -/
inductive Path (s : Scene M) : Nat → List Nat → Nat → Prop
  | nil (o : Nat) : Path s o [o] o
  | cons {o c d : Nat} {l : List Nat} : c ∈ (s.obj o).objects → Path s c l d →
      Path s o (o :: l) d

/-- The accumulated transform of the claims: `m` post-multiplied, left to right, by the
matrices of all transforms of the objects of `path`, each object's transforms in list
order. -/
def accumulate [Mat4 M] (s : Scene M) (m : M) (path : List Nat) : M :=
  path.foldl (fun p x => (s.obj x).transform.foldl (fun q t => Mat4.mul q (s.xf t).matrix) p) m

/-- The relation `SameShape s t`: the heaps `s` and `t` agree on everything except the `world` and
`dirty` fields of objects and the ghost records `projected` and `muls`. -/
structure SameShape (s t : Scene M) : Prop where
  parent : ∀ x, (t.obj x).parent = (s.obj x).parent
  objects : ∀ x, (t.obj x).objects = (s.obj x).objects
  geometry : ∀ x, (t.obj x).geometry = (s.obj x).geometry
  transform : ∀ x, (t.obj x).transform = (s.obj x).transform
  hidden : ∀ x, (t.obj x).hidden = (s.obj x).hidden
  context : ∀ x, (t.obj x).context = (s.obj x).context
  geo : t.geo = s.geo
  xf : t.xf = s.xf
  current : t.current = s.current
  live : t.live = s.live
  geoDisposed : t.geoDisposed = s.geoDisposed
  xfDisposed : t.xfDisposed = s.xfDisposed

/-- The relation `Touched s t P`: `t` has the shape of `s`; only objects that satisfy `P` and were dirty
in `s` have a different record in `t`; and `projected` has grown by calls for geometries of
such objects only. -/
structure Touched (s t : Scene M) (P : Nat → Prop) : Prop where
  shape : SameShape s t
  frame : ∀ x, ¬ (P x ∧ (s.obj x).dirty = true) → t.obj x = s.obj x
  log : ∃ new, t.projected = s.projected ++ new ∧
    ∀ e ∈ new, ∃ x, P x ∧ (s.obj x).dirty = true ∧ e.1 ∈ (s.obj x).geometry

/-- The heap of `_c3object_project` at the start of the loop over the children: `world`
is stored and the geometries of `o` have been projected. -/
def projectEnter [Mat4 M] (s : Scene M) (o : Nat) (m : M) : Scene M :=
  { s with
    obj := upd s.obj o ((s.obj o).withWorld (applyTransforms s m (s.obj o).transform))
    muls := s.muls + (s.obj o).transform.length
    projected := s.projected
      ++ (s.obj o).geometry.map (fun g => (g, applyTransforms s m (s.obj o).transform)) }

/-- The heap in which no address holds an object. -/
def blankScene : Scene Mat :=
  { obj := fun _ => c3object.zeroed, geo := fun _ => ⟨none, 0, false⟩,
    xf := fun _ => ⟨none, Mat4.zero⟩, current := fun _ => 0, live := fun _ => false,
    projected := [], muls := 0, geoDisposed := [], xfDisposed := [], freed := [] }

/-- The tree built by `c3object_init(0, NULL)` followed by `c3object_init(1, 0)`. -/
def built : Scene Mat := c3object_init (c3object_init blankScene 0 none) 1 (some 0)

/-- The objects of `demo3`: a dirty root at 0 whose child at 1 is clean, has the transform
translate(1,0,0) and already holds the matching world matrix. -/
def demo3Obj : Nat → c3object Mat
  | 0 => ⟨none, [1], [], [], Mat4.zero, true, 0, some 0⟩
  | 1 => ⟨some 0, [], [], [0], translate 1 0 0, false, 0, some 0⟩
  | _ => c3object.zeroed

/-- A scene with a clean, valid subtree below a dirty root. -/
def demo3 : Scene Mat :=
  { obj := demo3Obj, geo := fun _ => ⟨none, 0, false⟩, xf := demoXf, current := fun _ => 0,
    live := fun x => decide (x < 2), projected := [], muls := 0,
    geoDisposed := [], xfDisposed := [], freed := [] }

/-! ## Calls and sequences of calls -/

/-- A call of one of the operations of `c3object.c`, with its arguments. -/
inductive Op (M : Type) where
  | init (node : Nat) (parent : Option Nat)
  | add_object (o : Option Nat) (sub : Nat)
  | add_geometry (o : Option Nat) (g : Nat)
  | set_dirty (o : Nat) (dirty : Bool)
  | project (o : Nat) (m : M)
  | clear (o : Nat)
  | dispose (o : Nat)

/-- The state after the call, if it returns. -/
def Op.run [Mat4 M] (fuel : Nat) (s : Scene M) : Op M → Option (Scene M)
  | .init node parent => some (c3object_init s node parent)
  | .add_object o sub => c3object_add_object fuel s o sub
  | .add_geometry o g => c3object_add_geometry fuel s o g
  | .set_dirty o dirty => c3object_set_dirty fuel s o dirty
  | .project o m => c3object_project fuel s o m
  | .clear o => c3object_clear fuel s o
  | .dispose o => c3object_dispose fuel s o

/-- A pointer argument that may be null is null or points to a live object. -/
def liveOrNull (s : Scene M) : Option Nat → Bool
  | none => true
  | some p => s.live p

/-- The contract of the caller: every object passed to a call is live, and the node passed
to `c3object_init` is fresh, that is, its address holds no live object. -/
def Op.legal (s : Scene M) : Op M → Bool
  | .init node parent => !s.live node && liveOrNull s parent
  | .add_object o sub => s.live sub && liveOrNull s o
  | .add_geometry o _ => liveOrNull s o
  | .set_dirty o _ => s.live o
  | .project o _ => s.live o
  | .clear o => s.live o
  | .dispose o => s.live o

/-- Run a finite sequence of legal calls; `none` if a call is not legal or does not
return. -/
def runOps [Mat4 M] (fuel : Nat) : Scene M → List (Op M) → Option (Scene M)
  | s, [] => some s
  | s, op :: ops =>
    if op.legal s then
      match op.run fuel s with
      | none => none
      | some s1 => runOps fuel s1 ops
    else none

/-- Upward-closed dirtiness except possibly below the object `e`. -/
def UpClosedBut (s : Scene M) (e : Option Nat) : Prop :=
  ∀ x p, s.live x = true → (s.obj x).parent = some p → (s.obj x).dirty = true →
    (s.obj p).dirty = true ∨ e = some p

/-- The relation `Pruned s t`: from `s` to `t` no object has come to life, parents have only been
cleared, dirty flags have only been raised, and a newly dirty object has a dirty parent. -/
structure Pruned (s t : Scene M) : Prop where
  live_le : ∀ x, t.live x = true → s.live x = true
  par : ∀ x, (t.obj x).parent = (s.obj x).parent ∨ (t.obj x).parent = none
  dirty_mono : ∀ x, (s.obj x).dirty = true → (t.obj x).dirty = true
  closed : ∀ x p, (t.obj x).dirty = true → (t.obj x).parent = some p →
    (s.obj x).dirty = true ∨ (t.obj p).dirty = true

/-- The relation `Reaped s t roots`: the effect of disposing of the detached objects `roots` on the
liveness and on the records of objects: no object has come to life, an object that is
still live has the record it had, `objects` arrays have only lost elements, the objects of
`roots` are dead, the children of an object that died are dead, and an object that died or
whose parent was cleared lies below one of `roots`. -/
structure Reaped (s t : Scene M) (roots : List Nat) : Prop where
  live_le : ∀ x, t.live x = true → s.live x = true
  keep : ∀ x, t.live x = true → t.obj x = s.obj x
  sub : ∀ x c, c ∈ (t.obj x).objects → c ∈ (s.obj x).objects
  roots_dead : ∀ c ∈ roots, t.live c = false
  down : ∀ x, s.live x = true → t.live x = false → ∀ c ∈ (s.obj x).objects, t.live c = false
  up : ∀ x, s.live x = true → t.live x = false → ∃ c ∈ roots, Desc s c x
  pnull : ∀ x, (t.obj x).parent ≠ (s.obj x).parent → ∃ c ∈ roots, Desc s c x

/-- Upward-closed dirtiness as the claims word it: every ancestor of a dirty live object
is dirty. -/
def DirtyAncestors (s : Scene M) : Prop :=
  ∀ x a, s.live x = true → (s.obj x).dirty = true → Anc s a x → (s.obj a).dirty = true

/-- A sequence of calls on the blank heap: build the chain `0 -> 1 -> 2 -> 3`, move 2
(with its child 3) under 0, dispose of 1. -/
def demoOps : List (Op Mat) :=
  [Op.init 0 none, Op.init 1 (some 0), Op.init 2 (some 1), Op.init 3 (some 2),
    Op.add_object (some 0) 2, Op.dispose 1]

/-- The `geometry` array of the object `o`; empty for a null `o`. -/
def geometryOf (s : Scene M) : Option Nat → List Nat
  | none => []
  | some p => (s.obj p).geometry

/-- The heap in which `c3object_add_object(3, 3)` on `demo` calls `c3object_set_dirty(3, true)`:
the parentless object 3 has been given itself as parent and appended to its own
`objects`. -/
def selfLoop : Scene Mat :=
  (demo.modObj 3 (fun r => r.withParent (some 3))).modObj 3
    (fun r => r.withObjects (c_array_add r.objects 3))

/-- The relation `DirtyBelow s o d`: `d` is reached from `o` through `objects` arrays, by one step or
more, and every object on the way, `o` excluded and `d` included, is dirty. -/
inductive DirtyBelow (s : Scene M) : Nat → Nat → Prop
  | child {o c : Nat} : c ∈ (s.obj o).objects → (s.obj c).dirty = true → DirtyBelow s o c
  | step {o c d : Nat} : c ∈ (s.obj o).objects → (s.obj c).dirty = true →
      DirtyBelow s c d → DirtyBelow s o d

/-- The heap `s` with the `dirty` flag of every object `x` replaced by `f x`, and nothing
else changed. -/
def setDirtyFlags (s : Scene M) (f : Nat → Bool) : Scene M :=
  { s with obj := fun x => (s.obj x).withDirty (f x) }

/-- The relation `Cleaned s f R`: the flags `f` arise from the dirty flags of `s` by clearing: no flag
has been raised, the children of a cleared object are clean, and a cleared object
satisfies `R`. -/
structure Cleaned (s : Scene M) (f : Nat → Bool) (R : Nat → Prop) : Prop where
  mono : ∀ x, f x = true → (s.obj x).dirty = true
  closure : ∀ y z, (s.obj y).dirty = true → f y = false → z ∈ (s.obj y).objects → f z = false
  sound : ∀ x, (s.obj x).dirty = true → f x = false → R x

/-- Transform ownership symmetry: `t.object == p` exactly when `t` occurs (once) in
`p.transform`. -/
structure XfOwned (s : Scene M) : Prop where
  owner : ∀ p t, t ∈ (s.obj p).transform → (s.xf t).object = some p
  member : ∀ t p, (s.xf t).object = some p → (s.obj p).transform.count t = 1

/-- The relation `TreeBelow s n c`: the objects reached from `c` through `objects` arrays form a tree of
live objects: every one of them is live, the elements of its `objects` are distinct and
have it as parent, and every path from `c` has fewer than `n` objects. -/
structure TreeBelow (s : Scene M) (n : Nat) (c : Nat) : Prop where
  live : ∀ x, Desc s c x → s.live x = true
  par : ∀ y k, Desc s c y → k ∈ (s.obj y).objects → (s.obj k).parent = some y
  nodup : ∀ y, Desc s c y → (s.obj y).objects.Nodup
  depth : depthWithin s n c = true

/-- The relation `Swept s t roots`: the effect of disposing of the detached trees below `roots`: exactly
the objects of these trees have died, each has been passed to `free` exactly once and
has a null parent, every other object has the record it had, `c3geometry_dispose` and
`c3transform_dispose` have been called for geometries and transforms of objects of these
trees only, each time on a geometry or transform whose back-reference was null at the
call, and a back-reference that was null is null. -/
structure Swept (s t : Scene M) (roots : List Nat) : Prop where
  live : ∀ x, t.live x = true ↔ (s.live x = true ∧ ¬ ∃ c ∈ roots, Desc s c x)
  keep : ∀ x, (¬ ∃ c ∈ roots, Desc s c x) → t.obj x = s.obj x
  parents : ∀ x, (∃ c ∈ roots, Desc s c x) → (t.obj x).parent = none
  freed : ∃ new, t.freed = s.freed ++ new ∧ new.Nodup ∧
    ∀ x, x ∈ new ↔ ∃ c ∈ roots, Desc s c x
  geoLog : ∃ new, t.geoDisposed = s.geoDisposed ++ new ∧
    ∀ e ∈ new, e.2 = none ∧ ∃ c ∈ roots, ∃ x, Desc s c x ∧ e.1 ∈ (s.obj x).geometry
  xfLog : ∃ new, t.xfDisposed = s.xfDisposed ++ new ∧
    ∀ e ∈ new, e.2 = none ∧ ∃ c ∈ roots, ∃ x, Desc s c x ∧ e.1 ∈ (s.obj x).transform
  gnull : ∀ g, (s.geo g).object = none → (t.geo g).object = none
  xnull : ∀ g, (s.xf g).object = none → (t.xf g).object = none

/-- The relation `Cleared s u o`: the effect of `c3object_clear(o)` on a tree: exactly the proper
descendants of `o` have died, each has been passed to `free` exactly once and has a
null parent; `o` has its record with the three arrays emptied, every object outside
the tree has the record it had; `c3geometry_dispose` has been called for the
geometries of `o`, in order, and then for geometries of proper descendants only, each
time on a geometry whose back-reference was null at the call, and likewise
`c3transform_dispose`; the back-references of the geometries and transforms of `o` are
null, and a back-reference that was null is null. -/
structure Cleared (s u : Scene M) (o : Nat) : Prop where
  live : ∀ x, u.live x = true ↔ (s.live x = true ∧ ¬ (Desc s o x ∧ x ≠ o))
  self : u.obj o = (((s.obj o).withObjects []).withGeometry []).withTransform []
  keep : ∀ x, ¬ Desc s o x → u.obj x = s.obj x
  parents : ∀ x, Desc s o x → x ≠ o → (u.obj x).parent = none
  freed : ∃ new, u.freed = s.freed ++ new ∧ new.Nodup ∧
    ∀ x, x ∈ new ↔ (Desc s o x ∧ x ≠ o)
  geoLog : ∃ new,
    u.geoDisposed = s.geoDisposed ++ (s.obj o).geometry.map (fun g => (g, none)) ++ new ∧
    ∀ e ∈ new, e.2 = none ∧ ∃ x, Desc s o x ∧ x ≠ o ∧ e.1 ∈ (s.obj x).geometry
  xfLog : ∃ new,
    u.xfDisposed = s.xfDisposed ++ (s.obj o).transform.map (fun t => (t, none)) ++ new ∧
    ∀ e ∈ new, e.2 = none ∧ ∃ x, Desc s o x ∧ x ≠ o ∧ e.1 ∈ (s.obj x).transform
  gnull : ∀ g, (s.geo g).object = none ∨ g ∈ (s.obj o).geometry → (u.geo g).object = none
  xnull : ∀ g, (s.xf g).object = none ∨ g ∈ (s.obj o).transform → (u.xf g).object = none

/-! # Lemmas and theorems -/

/-! ## Heap updates -/

@[simp] theorem upd_same {α : Type} (f : Nat → α) (a : Nat) (v : α) : upd f a v a = v := by
  simp [upd]

@[simp] theorem upd_ne {α : Type} (f : Nat → α) {a x : Nat} (v : α) (h : x ≠ a) :
    upd f a v x = f x := by
  simp [upd, h]

theorem upd_apply {α : Type} (f : Nat → α) (a x : Nat) (v : α) :
    upd f a v x = if x = a then v else f x := rfl

theorem modObj_obj (s : Scene M) (o : Nat) (f : c3object M → c3object M) (x : Nat) :
    (s.modObj o f).obj x = if x = o then f (s.obj o) else s.obj x := rfl
@[simp] theorem modObj_obj_same (s : Scene M) (o : Nat) (f : c3object M → c3object M) :
    (s.modObj o f).obj o = f (s.obj o) := by simp [modObj_obj]
@[simp] theorem modObj_obj_ne (s : Scene M) {o x : Nat} (f : c3object M → c3object M)
    (h : x ≠ o) : (s.modObj o f).obj x = s.obj x := by simp [modObj_obj, h]
@[simp] theorem modObj_geo (s : Scene M) (o : Nat) (f : c3object M → c3object M) :
    (s.modObj o f).geo = s.geo := rfl
@[simp] theorem modObj_xf (s : Scene M) (o : Nat) (f : c3object M → c3object M) :
    (s.modObj o f).xf = s.xf := rfl
@[simp] theorem modObj_live (s : Scene M) (o : Nat) (f : c3object M → c3object M) :
    (s.modObj o f).live = s.live := rfl
@[simp] theorem modObj_current (s : Scene M) (o : Nat) (f : c3object M → c3object M) :
    (s.modObj o f).current = s.current := rfl
@[simp] theorem modObj_projected (s : Scene M) (o : Nat) (f : c3object M → c3object M) :
    (s.modObj o f).projected = s.projected := rfl
@[simp] theorem modObj_muls (s : Scene M) (o : Nat) (f : c3object M → c3object M) :
    (s.modObj o f).muls = s.muls := rfl
@[simp] theorem modObj_geoDisposed (s : Scene M) (o : Nat) (f : c3object M → c3object M) :
    (s.modObj o f).geoDisposed = s.geoDisposed := rfl
@[simp] theorem modObj_xfDisposed (s : Scene M) (o : Nat) (f : c3object M → c3object M) :
    (s.modObj o f).xfDisposed = s.xfDisposed := rfl

@[simp] theorem modObj_parent_frame (s : Scene M) (o x : Nat) (f : c3object M → c3object M)
    (h : (f (s.obj o)).parent = (s.obj o).parent) :
    ((s.modObj o f).obj x).parent = (s.obj x).parent := by
  by_cases hx : x = o
  · subst hx; simp [h]
  · simp [hx]
@[simp] theorem modObj_objects_frame (s : Scene M) (o x : Nat) (f : c3object M → c3object M)
    (h : (f (s.obj o)).objects = (s.obj o).objects) :
    ((s.modObj o f).obj x).objects = (s.obj x).objects := by
  by_cases hx : x = o
  · subst hx; simp [h]
  · simp [hx]
@[simp] theorem modObj_geometry_frame (s : Scene M) (o x : Nat) (f : c3object M → c3object M)
    (h : (f (s.obj o)).geometry = (s.obj o).geometry) :
    ((s.modObj o f).obj x).geometry = (s.obj x).geometry := by
  by_cases hx : x = o
  · subst hx; simp [h]
  · simp [hx]
@[simp] theorem modObj_transform_frame (s : Scene M) (o x : Nat) (f : c3object M → c3object M)
    (h : (f (s.obj o)).transform = (s.obj o).transform) :
    ((s.modObj o f).obj x).transform = (s.obj x).transform := by
  by_cases hx : x = o
  · subst hx; simp [h]
  · simp [hx]
@[simp] theorem modObj_world_frame (s : Scene M) (o x : Nat) (f : c3object M → c3object M)
    (h : (f (s.obj o)).world = (s.obj o).world) :
    ((s.modObj o f).obj x).world = (s.obj x).world := by
  by_cases hx : x = o
  · subst hx; simp [h]
  · simp [hx]
@[simp] theorem modObj_dirty_frame (s : Scene M) (o x : Nat) (f : c3object M → c3object M)
    (h : (f (s.obj o)).dirty = (s.obj o).dirty) :
    ((s.modObj o f).obj x).dirty = (s.obj x).dirty := by
  by_cases hx : x = o
  · subst hx; simp [h]
  · simp [hx]
@[simp] theorem modObj_hidden_frame (s : Scene M) (o x : Nat) (f : c3object M → c3object M)
    (h : (f (s.obj o)).hidden = (s.obj o).hidden) :
    ((s.modObj o f).obj x).hidden = (s.obj x).hidden := by
  by_cases hx : x = o
  · subst hx; simp [h]
  · simp [hx]
@[simp] theorem modObj_context_frame (s : Scene M) (o x : Nat) (f : c3object M → c3object M)
    (h : (f (s.obj o)).context = (s.obj o).context) :
    ((s.modObj o f).obj x).context = (s.obj x).context := by
  by_cases hx : x = o
  · subst hx; simp [h]
  · simp [hx]

theorem modGeo_geo (s : Scene M) (g : Nat) (f : c3geometry → c3geometry) (x : Nat) :
    (s.modGeo g f).geo x = if x = g then f (s.geo g) else s.geo x := rfl
@[simp] theorem modGeo_geo_same (s : Scene M) (g : Nat) (f : c3geometry → c3geometry) :
    (s.modGeo g f).geo g = f (s.geo g) := by simp [modGeo_geo]
@[simp] theorem modGeo_geo_ne (s : Scene M) {g x : Nat} (f : c3geometry → c3geometry)
    (h : x ≠ g) : (s.modGeo g f).geo x = s.geo x := by simp [modGeo_geo, h]
@[simp] theorem modGeo_obj (s : Scene M) (g : Nat) (f : c3geometry → c3geometry) :
    (s.modGeo g f).obj = s.obj := rfl
@[simp] theorem modGeo_xf (s : Scene M) (g : Nat) (f : c3geometry → c3geometry) :
    (s.modGeo g f).xf = s.xf := rfl
@[simp] theorem modGeo_live (s : Scene M) (g : Nat) (f : c3geometry → c3geometry) :
    (s.modGeo g f).live = s.live := rfl
@[simp] theorem modGeo_current (s : Scene M) (g : Nat) (f : c3geometry → c3geometry) :
    (s.modGeo g f).current = s.current := rfl
@[simp] theorem modGeo_projected (s : Scene M) (g : Nat) (f : c3geometry → c3geometry) :
    (s.modGeo g f).projected = s.projected := rfl
@[simp] theorem modGeo_muls (s : Scene M) (g : Nat) (f : c3geometry → c3geometry) :
    (s.modGeo g f).muls = s.muls := rfl

@[simp] theorem modGeo_object_frame (s : Scene M) (g x : Nat) (f : c3geometry → c3geometry)
    (h : (f (s.geo g)).object = (s.geo g).object) :
    ((s.modGeo g f).geo x).object = (s.geo x).object := by
  by_cases hx : x = g
  · subst hx; simp [h]
  · simp [hx]
@[simp] theorem modGeo_hidden_frame (s : Scene M) (g x : Nat) (f : c3geometry → c3geometry)
    (h : (f (s.geo g)).hidden = (s.geo g).hidden) :
    ((s.modGeo g f).geo x).hidden = (s.geo x).hidden := by
  by_cases hx : x = g
  · subst hx; simp [h]
  · simp [hx]
@[simp] theorem modGeo_dirty_frame (s : Scene M) (g x : Nat) (f : c3geometry → c3geometry)
    (h : (f (s.geo g)).dirty = (s.geo g).dirty) :
    ((s.modGeo g f).geo x).dirty = (s.geo x).dirty := by
  by_cases hx : x = g
  · subst hx; simp [h]
  · simp [hx]

/-! ## The search loop and array deletion -/

theorem findIndex_eq_none {a : List Nat} {x : Nat} : findIndex a x = none ↔ x ∉ a := by
  induction a with
  | nil => simp [findIndex]
  | cons e es ih =>
    by_cases h : e = x
    · simp [findIndex, h]
    · have h' : ¬ x = e := fun h1 => h h1.symm
      simp [findIndex, h, h', ih]

theorem delete_findIndex {a : List Nat} {x i : Nat} (h : findIndex a x = some i) :
    c_array_delete a i 1 = a.erase x := by
  induction a generalizing i with
  | nil => simp [findIndex] at h
  | cons e es ih =>
    by_cases he : e = x
    · simp [findIndex, he] at h
      subst h; subst he
      simp [c_array_delete]
    · simp only [findIndex, he, if_false, Option.map_eq_some'] at h
      obtain ⟨j, hj, rfl⟩ := h
      have := ih hj
      simp only [c_array_delete] at this ⊢
      have hb : (e == x) = false := by simpa using he
      simp [List.erase_cons, hb, this]

theorem findIndex_of_mem {a : List Nat} {x : Nat} (h : x ∈ a) : ∃ i, findIndex a x = some i := by
  cases hf : findIndex a x with
  | none => exact absurd h (findIndex_eq_none.mp hf)
  | some i => exact ⟨i, rfl⟩

/-! ## Parent chains -/

theorem reachesRoot_congr {s t : Scene M} (h : ∀ x, (t.obj x).parent = (s.obj x).parent)
    (n : Nat) (o : Option Nat) : reachesRoot t n o = reachesRoot s n o := by
  induction n generalizing o with
  | zero => cases o <;> rfl
  | succ n ih =>
    cases o with
    | none => rfl
    | some o => simp only [reachesRoot, h, ih]

theorem chain_congr {s t : Scene M} (h : ∀ x, (t.obj x).parent = (s.obj x).parent)
    (n : Nat) (o : Option Nat) : chain t n o = chain s n o := by
  induction n generalizing o with
  | zero => cases o <;> rfl
  | succ n ih =>
    cases o with
    | none => rfl
    | some o => simp only [chain, h, ih]

theorem reachesRoot_mono {s : Scene M} {n k : Nat} {o : Option Nat} (hnk : n ≤ k)
    (h : reachesRoot s n o = true) : reachesRoot s k o = true := by
  induction n generalizing k o with
  | zero =>
    cases o with
    | none => cases k <;> rfl
    | some o => simp [reachesRoot] at h
  | succ n ih =>
    cases o with
    | none => cases k <;> rfl
    | some o =>
      cases k with
      | zero => omega
      | succ k => exact ih (o := (s.obj o).parent) (by omega) h

theorem chain_mono {s : Scene M} {n k : Nat} {o : Option Nat} (hnk : n ≤ k)
    (h : reachesRoot s n o = true) : chain s k o = chain s n o := by
  induction n generalizing k o with
  | zero =>
    cases o with
    | none => cases k <;> rfl
    | some o => simp [reachesRoot] at h
  | succ n ih =>
    cases o with
    | none => cases k <;> rfl
    | some o =>
      cases k with
      | zero => omega
      | succ k => simp only [chain]; rw [ih (o := (s.obj o).parent) (by omega) h]

/-- On a chain that reaches the root, the chain lists `o` and its ancestors. -/
theorem mem_chain_iff {s : Scene M} {n : Nat} {o : Nat} (h : reachesRoot s n (some o) = true)
    (x : Nat) : x ∈ chain s n (some o) ↔ x = o ∨ Anc s x o := by
  induction n generalizing o with
  | zero => simp [reachesRoot] at h
  | succ n ih =>
    simp only [chain, List.mem_cons]
    cases hp : (s.obj o).parent with
    | none =>
      have : chain s n (none : Option Nat) = [] := by cases n <;> rfl
      rw [this]
      constructor
      · rintro (h1 | h1)
        · exact Or.inl h1
        · simp at h1
      · rintro (h1 | h1)
        · exact Or.inl h1
        · cases h1 with
          | parent h2 => rw [hp] at h2; cases h2
          | step h2 _ => rw [hp] at h2; cases h2
    | some p =>
      simp only [reachesRoot, hp] at h
      rw [ih h]
      constructor
      · rintro (h1 | h1 | h1)
        · exact Or.inl h1
        · exact Or.inr (h1 ▸ Anc.parent hp)
        · exact Or.inr (Anc.step hp h1)
      · rintro (h1 | h1)
        · exact Or.inl h1
        · cases h1 with
          | parent h2 => rw [hp] at h2; cases h2; exact Or.inr (Or.inl rfl)
          | step h2 h3 => rw [hp] at h2; cases h2; exact Or.inr (Or.inr h3)

/-! ## `c3object_set_dirty(o, true)` in closed form -/

theorem markAll_nil (s : Scene M) : markAll s [] = s := by
  simp [markAll]

@[simp] theorem markAll_obj (s : Scene M) (l : List Nat) (x : Nat) :
    (markAll s l).obj x = (s.obj x).withDirty (decide (x ∈ l) || (s.obj x).dirty) := by
  by_cases hm : x ∈ l <;> simp [markAll, hm, c3object.withDirty]

@[simp] theorem markAll_geo (s : Scene M) (l : List Nat) : (markAll s l).geo = s.geo := rfl
@[simp] theorem markAll_xf (s : Scene M) (l : List Nat) : (markAll s l).xf = s.xf := rfl
@[simp] theorem markAll_live (s : Scene M) (l : List Nat) : (markAll s l).live = s.live := rfl
@[simp] theorem markAll_current (s : Scene M) (l : List Nat) :
    (markAll s l).current = s.current := rfl
@[simp] theorem markAll_projected (s : Scene M) (l : List Nat) :
    (markAll s l).projected = s.projected := rfl
@[simp] theorem markAll_muls (s : Scene M) (l : List Nat) : (markAll s l).muls = s.muls := rfl

theorem dirtyUp_eq (n : Nat) (s : Scene M) (o : Option Nat) :
    dirtyUp n s o = if reachesRoot s n o = true then some (markAll s (chain s n o)) else none := by
  induction n generalizing s o with
  | zero =>
    cases o with
    | none => simp [dirtyUp, reachesRoot, chain, markAll_nil]
    | some o => simp [dirtyUp, reachesRoot]
  | succ n ih =>
    cases o with
    | none => simp [dirtyUp, reachesRoot, chain, markAll_nil]
    | some o =>
      have hpar : ∀ x, ((s.modObj o (fun r => r.withDirty true)).obj x).parent
          = (s.obj x).parent := by
        intro x
        by_cases hx : x = o
        · subst hx; simp
        · simp [hx]
      simp only [dirtyUp, reachesRoot, chain]
      rw [ih, reachesRoot_congr hpar, chain_congr hpar]
      by_cases hr : reachesRoot s n (s.obj o).parent = true
      · simp only [hr, if_true, Option.some.injEq]
        simp only [markAll, Scene.modObj]
        congr 1
        funext x
        by_cases hx : x = o
        · subst hx
          by_cases hm : x ∈ chain s n (s.obj x).parent <;> simp [hm, c3object.withDirty]
        · by_cases hm : x ∈ chain s n (s.obj o).parent <;> simp [hm, hx]
      · simp [hr]

theorem markGeometry_eq (s : Scene M) (gs : List Nat) :
    markGeometry s gs =
      { s with geo := fun g => if g ∈ gs then (s.geo g).withDirty true else s.geo g } := by
  induction gs generalizing s with
  | nil => simp [markGeometry]
  | cons g gs ih =>
    have h := ih (s.modGeo g (fun r => r.withDirty true))
    simp only [markGeometry, List.foldl] at h ⊢
    rw [h]
    simp only [Scene.modGeo]
    congr 1
    funext x
    by_cases hx : x = g
    · subst hx
      by_cases hm : x ∈ gs <;> simp [hm, c3geometry.withDirty]
    · by_cases hm : x ∈ gs <;> simp [hm, hx]

@[simp] theorem markGeometry_obj (s : Scene M) (gs : List Nat) :
    (markGeometry s gs).obj = s.obj := by rw [markGeometry_eq]
@[simp] theorem markGeometry_live (s : Scene M) (gs : List Nat) :
    (markGeometry s gs).live = s.live := by rw [markGeometry_eq]
@[simp] theorem markGeometry_xf (s : Scene M) (gs : List Nat) :
    (markGeometry s gs).xf = s.xf := by rw [markGeometry_eq]
@[simp] theorem markGeometry_current (s : Scene M) (gs : List Nat) :
    (markGeometry s gs).current = s.current := by rw [markGeometry_eq]
@[simp] theorem markGeometry_projected (s : Scene M) (gs : List Nat) :
    (markGeometry s gs).projected = s.projected := by rw [markGeometry_eq]
@[simp] theorem markGeometry_muls (s : Scene M) (gs : List Nat) :
    (markGeometry s gs).muls = s.muls := by rw [markGeometry_eq]

@[simp] theorem markGeometry_geo (s : Scene M) (gs : List Nat) (g : Nat) :
    (markGeometry s gs).geo g = (s.geo g).withDirty (decide (g ∈ gs) || (s.geo g).dirty) := by
  rw [markGeometry_eq]
  by_cases hm : g ∈ gs <;> simp [hm, c3geometry.withDirty]

theorem set_dirty_true_eq (n : Nat) (s : Scene M) (o : Nat) :
    c3object_set_dirty n s o true =
      if reachesRoot s n (some o) = true then
        some (markAll (markGeometry s (s.obj o).geometry) (chain s n (some o)))
      else none := by
  have hpar : ∀ x, ((markGeometry s (s.obj o).geometry).obj x).parent = (s.obj x).parent := by
    intro x; rw [markGeometry_obj]
  simp only [c3object_set_dirty, if_true, dirtyUp_eq]
  rw [reachesRoot_congr hpar, chain_congr hpar]

/-- C3: on an object `o` whose parent chain reaches a null parent, `c3object_set_dirty(o, true)`
returns, and right afterwards `o` is dirty, every ancestor of `o` is dirty and every geometry
in `o.geometry` has its dirty flag set. -/
theorem set_dirty_true_marks (s : Scene M) (o n fuel : Nat)
    (hacyc : reachesRoot s n (some o) = true) (hfuel : n ≤ fuel) :
    ∃ s', c3object_set_dirty fuel s o true = some s' ∧
      (s'.obj o).dirty = true ∧
      (∀ a, Anc s a o → (s'.obj a).dirty = true) ∧
      (∀ g ∈ (s.obj o).geometry, (s'.geo g).dirty = true) ∧
      (∀ x, (s'.obj x).parent = (s.obj x).parent ∧ (s'.obj x).geometry = (s.obj x).geometry) := by
  have hr := reachesRoot_mono hfuel hacyc
  refine ⟨_, by rw [set_dirty_true_eq, if_pos hr], ?_, ?_, ?_, ?_⟩
  · rw [markAll_obj]
    have : o ∈ chain s fuel (some o) := (mem_chain_iff hr o).mpr (Or.inl rfl)
    simp [this]
  · intro a ha
    rw [markAll_obj]
    have : a ∈ chain s fuel (some o) := (mem_chain_iff hr a).mpr (Or.inr ha)
    simp [this]
  · intro g hg
    rw [markAll_geo, markGeometry_geo]
    simp [hg]
  · intro x
    rw [markAll_obj]
    simp

theorem chain_none (s : Scene M) (n : Nat) : chain s n none = [] := by cases n <;> rfl
theorem reachesRoot_none (s : Scene M) (n : Nat) : reachesRoot s n none = true := by cases n <;> rfl

/-- Changing the parent of an object that is not on the chain does not change the chain. -/
theorem chain_congr_off {s t : Scene M} {y : Nat}
    (h : ∀ x, x ≠ y → (t.obj x).parent = (s.obj x).parent)
    (n : Nat) (o : Option Nat) (hy : y ∉ chain s n o) :
    chain t n o = chain s n o ∧ reachesRoot t n o = reachesRoot s n o := by
  induction n generalizing o with
  | zero => cases o <;> exact ⟨rfl, rfl⟩
  | succ n ih =>
    cases o with
    | none => exact ⟨rfl, rfl⟩
    | some o =>
      simp only [chain, List.mem_cons, not_or] at hy
      have ho : o ≠ y := fun h1 => hy.1 h1.symm
      simp only [chain, reachesRoot, h o ho]
      obtain ⟨h1, h2⟩ := ih (s.obj o).parent hy.2
      exact ⟨by rw [h1], h2⟩

theorem detachObject_eq (fuel : Nat) (s : Scene M) (x p : Nat)
    (hp : (s.obj x).parent = some p) (hm : x ∈ (s.obj p).objects) :
    detachObject fuel s x =
      if reachesRoot s fuel (some p) = true then
        some ((markAll (markGeometry
            (s.modObj p (fun r => r.withObjects (r.objects.erase x)))
            (s.obj p).geometry) (chain s fuel (some p))).modObj x (fun r => r.withParent none))
      else none := by
  obtain ⟨oi, hoi⟩ := findIndex_of_mem hm
  have hpar : ∀ y, ((s.modObj p (fun r => r.withObjects (c_array_delete r.objects oi 1))).obj y).parent
      = (s.obj y).parent := by
    intro y
    by_cases hy : y = p
    · subst hy; simp
    · simp [hy]
  have he : s.modObj p (fun r => r.withObjects (c_array_delete r.objects oi 1))
      = s.modObj p (fun r => r.withObjects (r.objects.erase x)) := by
    simp only [Scene.modObj, delete_findIndex hoi]
  simp only [detachObject, hp, hoi, set_dirty_true_eq,
    reachesRoot_congr hpar, chain_congr hpar]
  rw [he]
  by_cases hr : reachesRoot s fuel (some p) = true
  · simp [hr]
  · simp [hr]

/-- C2: in a forest, for a live object `sub` with parent `A` and a live object `B` other
than `A` and `sub` that is not below `sub` (parent chains of `A` and `B` reaching a null
parent), `c3object_add_object(B, sub)` returns, and afterwards `sub` does not occur in
`A.objects`, occurs exactly once in `B.objects`, as the last element, `sub.parent` is `B`,
and `A` and `B` are dirty. -/
theorem add_object_reparents (s : Scene M) (A B sub n fuel : Nat)
    (hF : Forest s) (hsub : s.live sub = true) (hB : s.live B = true)
    (hpar : (s.obj sub).parent = some A) (hAB : B ≠ A) (hBsub : B ≠ sub)
    (hdesc : ¬ Anc s sub B)
    (hA : reachesRoot s n (some A) = true) (hBr : reachesRoot s n (some B) = true)
    (hfuel : n ≤ fuel) :
    ∃ s', c3object_add_object fuel s (some B) sub = some s' ∧
      sub ∉ (s'.obj A).objects ∧
      (s'.obj B).objects.count sub = 1 ∧
      (s'.obj B).objects.getLast? = some sub ∧
      (s'.obj sub).parent = some B ∧
      (s'.obj A).dirty = true ∧ (s'.obj B).dirty = true := by
  have hne : ¬ (s.obj sub).parent = some B := by
    rw [hpar]; intro h; cases h; exact hAB rfl
  have hcnt : (s.obj A).objects.count sub = 1 := (hF.parent sub A hsub hpar).2
  have hmem : sub ∈ (s.obj A).objects := List.count_pos_iff.mp (by omega)
  have hnotB : sub ∉ (s.obj B).objects := by
    intro h
    have := (hF.child B sub hB h).2
    rw [hpar] at this; cases this; exact hAB rfl
  have hrA := reachesRoot_mono hfuel hA
  have hrB := reachesRoot_mono hfuel hBr
  have hoff : sub ∉ chain s fuel (some B) := by
    rw [mem_chain_iff hrB]
    rintro (h | h)
    · exact hBsub h.symm
    · exact hdesc h
  simp only [c3object_add_object, hne, if_false, detachObject_eq fuel s sub A hpar hmem, hrA,
    if_true, set_dirty_true_eq]
  generalize hs3 : Scene.modObj (Scene.modObj (Scene.modObj _ sub _) sub _) B _ = s3
  have hp3 : ∀ x, x ≠ sub → (s3.obj x).parent = (s.obj x).parent := by
    intro x hx
    subst hs3
    simp [hx]
  have hc := chain_congr_off hp3 fuel (some B) hoff
  rw [hc.2, hrB, hc.1]
  simp only [if_true]
  have hAin : A ∈ chain s fuel (some A) := (mem_chain_iff hrA A).mpr (Or.inl rfl)
  have hBin : B ∈ chain s fuel (some B) := (mem_chain_iff hrB B).mpr (Or.inl rfl)
  refine ⟨_, rfl, ?_, ?_, ?_, ?_, ?_, ?_⟩
  all_goals subst hs3
  · simp only [ne_eq, hAB.symm, not_false_eq_true, modObj_obj_ne, markAll_obj, markGeometry_obj,
      modObj_objects_frame, c3object.withDirty_objects, c3object.withParent_objects,
      modObj_obj_same, c3object.withObjects_objects]
    intro h
    have := List.count_erase_self sub (s.obj A).objects
    rw [hcnt] at this
    exact absurd (List.count_pos_iff.mpr h) (by omega)
  · simp [c_array_add, hAB, List.count_eq_zero_of_not_mem hnotB]
  · simp [c_array_add]
  · simp [hBsub.symm]
  · simp [hAin]
  · simp [hBin]

/-! ## The concrete scene is a forest -/

theorem demo_forest : Forest demo := by
  constructor
  · intro o c hl hc
    rcases o with _ | _ | _ | _ | o <;> simp [demo, demoObj] at hl hc ⊢
    · subst hc; exact ⟨by decide, rfl⟩
    · subst hc; exact ⟨by decide, rfl⟩
  · intro c p hl hp
    rcases c with _ | _ | _ | _ | c <;> simp [demo, demoObj] at hl hp ⊢
    · subst hp; exact ⟨by decide, by decide⟩
    · subst hp; exact ⟨by decide, by decide⟩

theorem demo_not_anc (a : Nat) : ¬ Anc demo a 3 := by
  intro h
  cases h with
  | parent h => simp [demo, demoObj] at h
  | step h _ => simp [demo, demoObj] at h

/-- Witness of `set_dirty_true_marks` on object 2 of `demo`. -/
theorem set_dirty_true_marks_witness :
    reachesRoot demo 3 (some 2) = true ∧ 3 ≤ 3 ∧
    ∃ s', c3object_set_dirty 3 demo 2 true = some s' ∧
      (s'.obj 2).dirty = true ∧
      (∀ a, Anc demo a 2 → (s'.obj a).dirty = true) ∧
      (∀ g ∈ (demo.obj 2).geometry, (s'.geo g).dirty = true) ∧
      (∀ x, (s'.obj x).parent = (demo.obj x).parent ∧
        (s'.obj x).geometry = (demo.obj x).geometry) :=
  ⟨rfl, le_refl 3, set_dirty_true_marks demo 2 3 3 rfl (le_refl 3)⟩

/-- Witness of `add_object_reparents`: moving object 2 of `demo` from 1 to the root 3. -/
theorem add_object_reparents_witness :
    ∃ s', c3object_add_object 3 demo (some 3) 2 = some s' ∧
      2 ∉ (s'.obj 1).objects ∧
      (s'.obj 3).objects.count 2 = 1 ∧
      (s'.obj 3).objects.getLast? = some 2 ∧
      (s'.obj 2).parent = some 3 ∧
      (s'.obj 1).dirty = true ∧ (s'.obj 3).dirty = true :=
  add_object_reparents demo 1 3 2 3 3 demo_forest rfl rfl rfl (by decide) (by decide)
    (demo_not_anc 2) rfl rfl (le_refl 3)

theorem detachGeometry_eq (fuel : Nat) (s : Scene M) (g p : Nat)
    (hp : (s.geo g).object = some p) (hm : g ∈ (s.obj p).geometry) :
    detachGeometry fuel s g =
      if reachesRoot s fuel (some p) = true then
        some ((markAll (markGeometry
            (s.modObj p (fun r => r.withGeometry (r.geometry.erase g)))
            ((s.obj p).geometry.erase g)) (chain s fuel (some p))).modGeo g
              (fun r => r.withObject none))
      else none := by
  obtain ⟨oi, hoi⟩ := findIndex_of_mem hm
  have hpar : ∀ y, ((s.modObj p (fun r => r.withGeometry (c_array_delete r.geometry oi 1))).obj
      y).parent = (s.obj y).parent := by
    intro y; simp
  have he : s.modObj p (fun r => r.withGeometry (c_array_delete r.geometry oi 1))
      = s.modObj p (fun r => r.withGeometry (r.geometry.erase g)) := by
    simp only [Scene.modObj, delete_findIndex hoi]
  simp only [detachGeometry, hp, hoi, set_dirty_true_eq,
    reachesRoot_congr hpar, chain_congr hpar]
  rw [he]
  by_cases hr : reachesRoot s fuel (some p) = true
  · simp [hr]
  · simp [hr]

theorem not_mem_erase_of_count_one {l : List Nat} {a : Nat} (h : l.count a = 1) :
    a ∉ l.erase a := by
  intro hm
  have := List.count_erase_self a l
  rw [h] at this
  exact absurd (List.count_pos_iff.mpr hm) (by omega)

theorem count_erase_ne {l : List Nat} {a b : Nat} (h : b ≠ a) :
    (l.erase a).count b = l.count b := by
  rw [List.count_erase_of_ne h]

theorem geoOwned_move {s s' : Scene M} {o g : Nat} (hG : GeoOwned s)
    (hne : (s.geo g).object ≠ some o)
    (hgeo : ∀ x, (s'.obj x).geometry =
      if x = o then (s.obj x).geometry ++ [g]
      else if (s.geo g).object = some x then (s.obj x).geometry.erase g
      else (s.obj x).geometry)
    (hobj : ∀ y, (s'.geo y).object = if y = g then some o else (s.geo y).object) :
    GeoOwned s' := by
  have hnoto : g ∉ (s.obj o).geometry := fun h => hne (hG.owner o g h)
  constructor
  · intro p y hy
    rw [hgeo] at hy
    rw [hobj]
    by_cases hp : p = o
    · subst hp
      simp only [if_true, List.mem_append, List.mem_singleton] at hy
      rcases hy with hy | hy
      · have hyg : y ≠ g := fun h => hnoto (h ▸ hy)
        simp [hyg, hG.owner p y hy]
      · simp [hy]
    · simp only [hp, if_false] at hy
      by_cases hyg : y = g
      · subst hyg
        by_cases hown : (s.geo y).object = some p
        · simp only [hown, if_true] at hy
          exact absurd hy (not_mem_erase_of_count_one (hG.member y p hown))
        · simp only [hown, if_false] at hy
          exact absurd (hG.owner p y hy) hown
      · simp only [hyg, if_false]
        apply hG.owner p y
        split at hy
        · exact List.mem_of_mem_erase hy
        · exact hy
  · intro y p hy
    rw [hobj] at hy
    rw [hgeo]
    by_cases hyg : y = g
    · subst hyg
      simp only [if_true, Option.some.injEq] at hy
      subst hy
      simp [List.count_eq_zero_of_not_mem hnoto]
    · simp only [hyg, if_false] at hy
      have hc := hG.member y p hy
      by_cases hp : p = o
      · simp [hp, hyg] at hc ⊢
        exact hc
      · simp only [hp, if_false]
        split
        · rw [List.count_erase_of_ne hyg]; exact hc
        · exact hc

/-- C10: under geometry ownership symmetry, `c3object_add_geometry(o, g)` changes nothing
when `g.object == o` already; otherwise it returns, and afterwards `g` does not occur in the
geometry of its former owner, occurs exactly once in `o.geometry`, as the last element,
`g.object` is `o`, the former owner (if any), `o` and all their ancestors are dirty, the dirty
flag of `g` is set, and geometry ownership symmetry holds again. -/
theorem add_geometry_moves (s : Scene M) (o g n fuel : Nat) (hG : GeoOwned s)
    (hro : reachesRoot s n (some o) = true)
    (hrp : ∀ p, (s.geo g).object = some p → reachesRoot s n (some p) = true)
    (hfuel : n ≤ fuel) :
    ((s.geo g).object = some o → c3object_add_geometry fuel s (some o) g = some s) ∧
    ((s.geo g).object ≠ some o →
      ∃ s', c3object_add_geometry fuel s (some o) g = some s' ∧
        (∀ p, (s.geo g).object = some p → g ∉ (s'.obj p).geometry ∧
          (s'.obj p).dirty = true ∧ ∀ a, Anc s a p → (s'.obj a).dirty = true) ∧
        (s'.obj o).geometry.count g = 1 ∧
        (s'.obj o).geometry.getLast? = some g ∧
        (s'.geo g).object = some o ∧
        (s'.obj o).dirty = true ∧ (∀ a, Anc s a o → (s'.obj a).dirty = true) ∧
        (s'.geo g).dirty = true ∧
        GeoOwned s') := by
  constructor
  · intro h
    simp [c3object_add_geometry, h]
  intro hne
  have hro' := reachesRoot_mono hfuel hro
  have hnoto : g ∉ (s.obj o).geometry := fun h => hne (hG.owner o g h)
  have hoin : o ∈ chain s fuel (some o) := (mem_chain_iff hro' o).mpr (Or.inl rfl)
  cases hobj : (s.geo g).object with
  | none =>
    simp only [c3object_add_geometry, hobj, detachGeometry, set_dirty_true_eq]
    generalize hs3 : Scene.modObj (Scene.modGeo _ g _) o _ = s3
    have hp3 : ∀ x, (s3.obj x).parent = (s.obj x).parent := by
      intro x; subst hs3; simp
    rw [reachesRoot_congr hp3, chain_congr hp3, hro']
    simp only [if_true]
    refine ⟨_, rfl, ?_, ?_, ?_, ?_, ?_, ?_, ?_, ?_⟩
    all_goals subst hs3
    · intro p hp; cases hp
    · simp [c_array_add, List.count_eq_zero_of_not_mem hnoto]
    · simp [c_array_add]
    · simp
    · simp [hoin]
    · intro a ha
      have : a ∈ chain s fuel (some o) := (mem_chain_iff hro' a).mpr (Or.inr ha)
      simp [this]
    · simp [c_array_add]
    · refine geoOwned_move hG hne ?_ ?_
      · intro x
        by_cases hx : x = o
        · subst hx; simp [c_array_add]
        · simp [hx, hobj]
      · intro y
        by_cases hy : y = g
        · subst hy; simp
        · simp [hy]
  | some p =>
    have hpo : p ≠ o := fun h => hne (by rw [hobj, h])
    have hmem : g ∈ (s.obj p).geometry :=
      List.count_pos_iff.mp (by rw [hG.member g p hobj]; omega)
    have hrp' := reachesRoot_mono hfuel (hrp p hobj)
    have hpin : p ∈ chain s fuel (some p) := (mem_chain_iff hrp' p).mpr (Or.inl rfl)
    simp only [c3object_add_geometry, hobj, detachGeometry_eq fuel s g p hobj hmem, hrp',
      if_true, set_dirty_true_eq]
    generalize hs3 : Scene.modObj (Scene.modGeo (Scene.modGeo _ g _) g _) o _ = s3
    have hp3 : ∀ x, (s3.obj x).parent = (s.obj x).parent := by
      intro x; subst hs3; simp
    rw [reachesRoot_congr hp3, chain_congr hp3, hro']
    have hpo' : ¬ some p = some o := fun h => hpo (Option.some.inj h)
    simp only [if_true, hpo', if_false]
    refine ⟨_, rfl, ?_, ?_, ?_, ?_, ?_, ?_, ?_, ?_⟩
    all_goals subst hs3
    · intro q hq
      cases hq
      refine ⟨?_, ?_, ?_⟩
      · simp [hpo]
        exact not_mem_erase_of_count_one (hG.member g p hobj)
      · simp [hpo, hpin]
      · intro a ha
        have : a ∈ chain s fuel (some p) := (mem_chain_iff hrp' a).mpr (Or.inr ha)
        by_cases hao : a = o
        · subst hao; simp [hoin]
        · simp [hao, this]
    · simp [c_array_add, hpo.symm, List.count_eq_zero_of_not_mem hnoto]
    · simp [c_array_add]
    · simp
    · simp [hoin]
    · intro a ha
      have : a ∈ chain s fuel (some o) := (mem_chain_iff hro' a).mpr (Or.inr ha)
      simp [this]
    · simp [c_array_add]
    · refine geoOwned_move hG hne ?_ ?_
      · intro x
        by_cases hx : x = o
        · subst hx; simp [c_array_add, hpo.symm]
        · by_cases hxp : x = p
          · subst hxp; simp [hx, hobj]
          · have : ¬ p = x := fun h => hxp h.symm
            simp [hx, hxp, hobj, this]
      · intro y
        by_cases hy : y = g
        · subst hy; simp
        · simp [hy]

theorem project_clean [Mat4 M] (fuel : Nat) (s : Scene M) (o : Nat) (m : M)
    (h : (s.obj o).dirty = false) : c3object_project (fuel + 1) s o m = some s := by
  simp [c3object_project, h]

theorem project_root_clean [Mat4 M] {fuel : Nat} {s s1 : Scene M} {o : Nat} {m : M}
    (h : c3object_project fuel s o m = some s1) : (s1.obj o).dirty = false := by
  cases fuel with
  | zero => simp [c3object_project] at h
  | succ n =>
    by_cases hd : (s.obj o).dirty = false
    · simp only [c3object_project, hd, if_true, Option.some.injEq] at h
      subst h; exact hd
    · rw [c3object_project, if_neg hd] at h
      simp only at h
      split at h
      · cases h
      · simp only [Option.some.injEq] at h
        subst h
        simp

/-- C7: after `c3object_project(root, m)` has returned the state `s1`, the dirty flag of
`root` is false, and a second `c3object_project(root, m)` returns `s1` itself: every world
matrix and dirty flag is as after the first call, no call of `c3geometry_project` is added to
`projected` and the multiplication counter `muls` has not moved. -/
theorem project_idempotent [Mat4 M] (s s1 : Scene M) (root : Nat) (m : M) (fuel1 fuel2 : Nat)
    (h : c3object_project fuel1 s root m = some s1) :
    (s1.obj root).dirty = false ∧
    ∃ s2, c3object_project (fuel2 + 1) s1 root m = some s2 ∧ s2 = s1 ∧
      s2.projected = s1.projected ∧ s2.muls = s1.muls :=
  ⟨project_root_clean h, s1, project_clean fuel2 s1 root m (project_root_clean h), rfl, rfl, rfl⟩

theorem demo_geoOwned : GeoOwned demo := by
  constructor
  · intro p g hg
    rcases p with _ | _ | _ | _ | p <;> simp [demo, demoObj] at hg ⊢
    subst hg; rfl
  · intro g p hg
    rcases g with _ | g <;> simp [demo, demoGeo] at hg ⊢
    subst hg; decide

/-- Witness of `add_geometry_moves`: geometry 0 of `demo` moves from object 2 to the root 3. -/
theorem add_geometry_moves_witness :
    ((demo.geo 0).object = some 3 → c3object_add_geometry 3 demo (some 3) 0 = some demo) ∧
    ((demo.geo 0).object ≠ some 3 →
      ∃ s', c3object_add_geometry 3 demo (some 3) 0 = some s' ∧
        (∀ p, (demo.geo 0).object = some p → 0 ∉ (s'.obj p).geometry ∧
          (s'.obj p).dirty = true ∧ ∀ a, Anc demo a p → (s'.obj a).dirty = true) ∧
        (s'.obj 3).geometry.count 0 = 1 ∧
        (s'.obj 3).geometry.getLast? = some 0 ∧
        (s'.geo 0).object = some 3 ∧
        (s'.obj 3).dirty = true ∧ (∀ a, Anc demo a 3 → (s'.obj a).dirty = true) ∧
        (s'.geo 0).dirty = true ∧
        GeoOwned s') :=
  add_geometry_moves demo 3 0 3 3 demo_geoOwned rfl
    (fun p hp => by
      have h2 : p = 2 := by simpa [demo, demoGeo] using hp.symm
      subst h2; rfl)
    (le_refl 3)

/-- Witness of `project_idempotent`: projecting `demo` from its root twice. -/
theorem project_idempotent_witness :
    ∃ s1, c3object_project 3 demo 0 identity = some s1 ∧
      (s1.obj 0).dirty = false ∧
      ∃ s2, c3object_project 1 s1 0 identity = some s2 ∧ s2 = s1 ∧
        s2.projected = s1.projected ∧ s2.muls = s1.muls :=
  ⟨_, rfl, project_idempotent demo _ 0 identity 3 0 rfl⟩

/-! ## Trees below an object -/

theorem Desc.trans_desc {s : Scene M} {a b c : Nat} (h1 : Desc s a b) (h2 : Desc s b c) :
    Desc s a c := by
  induction h1 with
  | refl => exact h2
  | step hc _ ih => exact Desc.step hc (ih h2)

theorem Desc.child {s : Scene M} {o c : Nat} (h : c ∈ (s.obj o).objects) : Desc s o c :=
  Desc.step h (Desc.refl c)

/-- A descent ends with its last edge. -/
theorem Desc.last {s : Scene M} {b x : Nat} (h : Desc s b x) :
    b = x ∨ ∃ y, Desc s b y ∧ x ∈ (s.obj y).objects := by
  induction h with
  | refl => exact Or.inl rfl
  | @step o c d hc _ ih =>
    right
    rcases ih with h1 | ⟨y, hy, hx⟩
    · subst h1; exact ⟨o, Desc.refl o, hc⟩
    · exact ⟨y, Desc.step hc hy, hx⟩

theorem depthWithin_child {s : Scene M} {n o c : Nat} (h : depthWithin s (n + 1) o = true)
    (hc : c ∈ (s.obj o).objects) : depthWithin s n c = true := by
  simp only [depthWithin, List.all_eq_true] at h
  exact h c hc

theorem depthWithin_succ {s : Scene M} {n o : Nat} (h : depthWithin s n o = true) :
    depthWithin s (n + 1) o = true := by
  induction n generalizing o with
  | zero => simp [depthWithin] at h
  | succ n ih =>
    simp only [depthWithin, List.all_eq_true] at h ⊢
    intro c hc
    have := ih (h c hc)
    simpa [depthWithin, List.all_eq_true] using this

theorem depthWithin_mono {s : Scene M} {n k o : Nat} (hnk : n ≤ k)
    (h : depthWithin s n o = true) : depthWithin s k o = true := by
  induction hnk with
  | refl => exact h
  | step _ ih => exact depthWithin_succ ih

theorem depthWithin_desc {s : Scene M} {n o d : Nat} (h : depthWithin s n o = true)
    (hd : Desc s o d) : depthWithin s n d = true := by
  induction hd generalizing n with
  | refl => exact h
  | step hc _ ih =>
    cases n with
    | zero => simp [depthWithin] at h
    | succ n => exact depthWithin_succ (ih (depthWithin_child h hc))

/-- Below an object of bounded depth no object is its own proper descendant. -/
theorem not_desc_of_child {s : Scene M} {n y c : Nat} (h : depthWithin s n y = true)
    (hc : c ∈ (s.obj y).objects) : ¬ Desc s c y := by
  induction n generalizing y c with
  | zero => simp [depthWithin] at h
  | succ n ih =>
    intro hd
    have h1 := depthWithin_child h hc
    have h2 := depthWithin_desc h1 hd
    exact ih h2 hc hd

theorem Forest.desc_live {s : Scene M} (hF : Forest s) {r y : Nat} (hr : s.live r = true)
    (h : Desc s r y) : s.live y = true := by
  induction h with
  | refl => exact hr
  | step hc _ ih => exact ih (hF.child _ _ hr hc).1

theorem Forest.parent_of_desc {s : Scene M} (hF : Forest s) {r y c : Nat}
    (hr : s.live r = true) (h : Desc s r y) (hc : c ∈ (s.obj y).objects) :
    (s.obj c).parent = some y :=
  (hF.child y c (hF.desc_live hr h) hc).2

/-- In a tree the ancestors of an object are linearly ordered. -/
theorem desc_comparable {s : Scene M} {r : Nat}
    (hpar : ∀ y c, Desc s r y → c ∈ (s.obj y).objects → (s.obj c).parent = some y)
    {a b d : Nat} (hra : Desc s r a) (hrb : Desc s r b) (ha : Desc s a d) (hb : Desc s b d) :
    Desc s a b ∨ Desc s b a := by
  induction ha with
  | refl => exact Or.inr hb
  | @step a a1 d hc _ ih =>
    rcases ih (hra.trans_desc (Desc.child hc)) hb with h1 | h1
    · exact Or.inl (Desc.step hc h1)
    · rcases h1.last with h2 | ⟨y, hy, hx⟩
      · subst h2; exact Or.inl (Desc.child hc)
      · have e1 := hpar a a1 hra hc
        have e2 := hpar y a1 (hrb.trans_desc hy) hx
        rw [e1] at e2
        cases e2
        exact Or.inr hy

/-- In a tree two different children of one object have disjoint subtrees. -/
theorem siblings_disjoint {s : Scene M} {r n : Nat}
    (hpar : ∀ y c, Desc s r y → c ∈ (s.obj y).objects → (s.obj c).parent = some y)
    (hdepth : depthWithin s n r = true)
    {o c1 c2 d : Nat} (hro : Desc s r o) (h1 : c1 ∈ (s.obj o).objects)
    (h2 : c2 ∈ (s.obj o).objects) (hd1 : Desc s c1 d) (hd2 : Desc s c2 d) : c1 = c2 := by
  have key : ∀ a b, a ∈ (s.obj o).objects → b ∈ (s.obj o).objects → Desc s a b → a = b := by
    intro a b ha hb hab
    rcases hab.last with h | ⟨y, hy, hx⟩
    · exact h
    · have e1 := hpar o b hro hb
      have e2 := hpar y b ((hro.trans_desc (Desc.child ha)).trans_desc hy) hx
      rw [e1] at e2
      cases e2
      exact absurd hy (not_desc_of_child (depthWithin_desc hdepth hro) ha)
  rcases desc_comparable hpar (hro.trans_desc (Desc.child h1)) (hro.trans_desc (Desc.child h2)) hd1 hd2
    with h | h
  · exact key c1 c2 h1 h2 h
  · exact (key c2 c1 h2 h1 h).symm

/-! ## `c3object_get_geometry` -/

theorem and_two_pow_ne_zero (h v : Nat) : h &&& 2 ^ v ≠ 0 ↔ h.testBit v = true := by
  constructor
  · intro hne
    by_contra hb
    apply hne
    apply Nat.eq_of_testBit_eq
    intro i
    rw [Nat.testBit_and, Nat.testBit_two_pow, Nat.zero_testBit]
    by_cases hi : v = i
    · subst hi; simp [hb]
    · simp [hi]
  · intro hb h0
    have : (h &&& 2 ^ v).testBit v = true := by
      rw [Nat.testBit_and, Nat.testBit_two_pow, hb]; simp
    rw [h0, Nat.zero_testBit] at this
    cases this

theorem viewmask_lt {v : Nat} (hv : v < 16) : viewmask v = 2 ^ v := by
  have h : 2 ^ v < 2 ^ 16 := Nat.pow_lt_pow_right (by decide) hv
  simp only [viewmask, Nat.shiftLeft_eq, one_mul]
  exact Nat.mod_eq_of_lt h

theorem hidden_viewmask {v : Nat} (hv : v < 16) (h : Nat) :
    h &&& viewmask v ≠ 0 ↔ h.testBit v = true := by
  rw [viewmask_lt hv]; exact and_two_pow_ne_zero h v

theorem addVisible_eq (s : Scene M) {v : Nat} (hv : v < 16) (gs out : List Nat) :
    addVisible s (viewmask v) gs out
      = out ++ gs.filter (fun g => !(s.geo g).hidden.testBit v) := by
  induction gs generalizing out with
  | nil => simp [addVisible]
  | cons g gs ih =>
    simp only [addVisible, List.foldl] at ih ⊢
    rw [ih]
    by_cases hb : (s.geo g).hidden.testBit v = true
    · have : ¬ (s.geo g).hidden &&& viewmask v = 0 := (hidden_viewmask hv _).mpr hb
      simp [this, hb, List.filter_cons]
    · have : (s.geo g).hidden &&& viewmask v = 0 := by
        by_contra h0
        exact hb ((hidden_viewmask hv _).mp h0)
      simp [this, hb, List.filter_cons, c_array_add]

theorem iterM_get_geometry (s : Scene M)
    (f : Scene M → Nat → List Nat → Option (Scene M × List Nat))
    (g : Nat → List Nat) (cs : List Nat) (out : List Nat)
    (h : ∀ c ∈ cs, ∀ out, f s c out = some (s, out ++ g c)) :
    iterM (fun so c => f so.1 c so.2) cs (s, out) = some (s, out ++ cs.flatMap g) := by
  induction cs generalizing out with
  | nil => simp [iterM]
  | cons c cs ih =>
    simp only [iterM, h c (List.mem_cons_self _ _)]
    rw [ih _ (fun c' hc' => h c' (List.mem_cons_of_mem _ hc'))]
    simp [List.flatMap_cons, List.append_assoc]

/-- The loop over the children does not read the heap component of the loop state other
than to pass it on. -/
theorem get_geometry_collect_aux (s : Scene M) (v : Nat) (hv : v < 16) :
    ∀ n fuel o out, n ≤ fuel → depthWithin s n o = true →
      (∀ d, Desc s o d → ∃ c, (s.obj d).context = some c ∧ s.current c = v) →
      c3object_get_geometry fuel s o out = some (s, out ++ collect s v n o) := by
  intro n
  induction n with
  | zero => intro fuel o out _ h; simp [depthWithin] at h
  | succ n ih =>
    intro fuel o out hfuel hdepth hctx
    cases fuel with
    | zero => omega
    | succ fuel =>
      obtain ⟨c, hc, hcur⟩ := hctx o (Desc.refl o)
      simp only [c3object_get_geometry, hc, hcur, collect]
      by_cases hh : (s.obj o).hidden.testBit v = true
      · have : (s.obj o).hidden &&& viewmask v ≠ 0 := (hidden_viewmask hv _).mpr hh
        simp [this, hh]
      · have h0 : ¬ ((s.obj o).hidden &&& viewmask v ≠ 0) :=
          fun h0 => hh ((hidden_viewmask hv _).mp h0)
        simp only [h0, if_false, hh]
        rw [addVisible_eq s hv]
        have hloop := iterM_get_geometry s (fun s c out => c3object_get_geometry fuel s c out)
          (fun c => collect s v n c) (s.obj o).objects
          (out ++ (s.obj o).geometry.filter (fun g => !(s.geo g).hidden.testBit v))
          (fun c hc out => ih fuel c out (by omega) (depthWithin_child hdepth hc)
            (fun d hd => hctx d (Desc.step hc hd)))
        rw [hloop]
        simp [List.append_assoc]

theorem mem_collect {s : Scene M} {v : Nat} {n o g : Nat} (h : g ∈ collect s v n o) :
    ∃ d, Vis s v o d ∧ g ∈ (s.obj d).geometry ∧ (s.geo g).hidden.testBit v = false := by
  induction n generalizing o with
  | zero => simp [collect] at h
  | succ n ih =>
    simp only [collect] at h
    by_cases hh : (s.obj o).hidden.testBit v = true
    · simp [hh] at h
    · have hh' : (s.obj o).hidden.testBit v = false := by simpa using hh
      simp only [hh', Bool.false_eq_true, if_false, List.mem_append, List.mem_filter,
        List.mem_flatMap] at h
      rcases h with ⟨h1, h2⟩ | ⟨c, hc, hg⟩
      · exact ⟨o, Vis.here hh', h1, by simpa using h2⟩
      · obtain ⟨d, hd, hgd⟩ := ih hg
        exact ⟨d, Vis.step hh' hc hd, hgd⟩

theorem Vis.desc_vis {s : Scene M} {v o d : Nat} (h : Vis s v o d) : Desc s o d := by
  induction h with
  | here _ => exact Desc.refl _
  | step _ hc _ ih => exact Desc.step hc ih

/-- In a tree, an object above the end of a visible path that lies below the start of the
path is on the path, hence not hidden. -/
theorem vis_not_hidden {s : Scene M} {v r n : Nat}
    (hpar : ∀ y c, Desc s r y → c ∈ (s.obj y).objects → (s.obj c).parent = some y)
    (hdepth : depthWithin s n r = true) {o d X : Nat} (hro : Desc s r o)
    (hvis : Vis s v o d) (hoX : Desc s o X) (hXd : Desc s X d) :
    (s.obj X).hidden.testBit v = false := by
  induction hvis with
  | @here o hh =>
    rcases hoX with _ | ⟨hc, hcX⟩
    · exact hh
    · exact absurd (hcX.trans_desc hXd) (not_desc_of_child (depthWithin_desc hdepth hro) hc)
  | @step o c d hh hc hcd ih =>
    rcases hoX with _ | ⟨hc', hcX⟩
    · exact hh
    · rename_i c'
      have : c' = c := siblings_disjoint hpar hdepth hro hc' hc (hcX.trans_desc hXd) hcd.desc_vis
      subst this
      exact ih (hro.trans_desc (Desc.child hc)) hcX hXd

theorem collect_mono {s : Scene M} {v n k o : Nat} (hnk : n ≤ k)
    (h : depthWithin s n o = true) : collect s v k o = collect s v n o := by
  induction n generalizing k o with
  | zero => simp [depthWithin] at h
  | succ n ih =>
    cases k with
    | zero => omega
    | succ k =>
      simp only [collect]
      have : (s.obj o).objects.flatMap (fun c => collect s v k c)
          = (s.obj o).objects.flatMap (fun c => collect s v n c) := by
        simp only [List.flatMap]
        congr 1
        apply List.map_congr_left
        intro c hc
        exact ih (by omega) (depthWithin_child h hc)
      rw [this]

/-- C9: for an object `o` of bounded depth whose descendants all have a context with current
view `v < 16`, `c3object_get_geometry(o, out)` returns the heap unchanged together with the
previous contents of `out` followed by `collect(o)`: nothing if bit `v` of `o.hidden` is set,
otherwise the geometries of `o.geometry` with bit `v` clear, in order, then `collect(c)` for
each child `c` in order.  The list `collect(o)` does not depend on the depth bound. -/
theorem get_geometry_appends (s : Scene M) (o v n fuel : Nat) (out : List Nat) (hv : v < 16)
    (hctx : ∀ d, Desc s o d → ∃ c, (s.obj d).context = some c ∧ s.current c = v)
    (hdepth : depthWithin s n o = true) (hfuel : n ≤ fuel) :
    c3object_get_geometry fuel s o out = some (s, out ++ collect s v n o) ∧
    ∀ k, n ≤ k → collect s v k o = collect s v n o :=
  ⟨get_geometry_collect_aux s v hv n fuel o out hfuel hdepth hctx,
    fun _ hk => collect_mono hk hdepth⟩

/-- C8: in a forest with geometry ownership symmetry, for a live `root` of bounded depth
whose descendants have contexts with current view `v < 16`, and an object `X` of the tree
below `root` with bit `v` of its hidden mask set, the list appended by
`c3object_get_geometry(root, out)` contains no geometry of `X` or of a descendant of `X`,
whatever the hidden masks of those descendants and geometries. -/
theorem get_geometry_hidden_subtree (s : Scene M) (root X v n fuel : Nat) (out : List Nat)
    (hv : v < 16) (hF : Forest s) (hG : GeoOwned s) (hlive : s.live root = true)
    (hctx : ∀ d, Desc s root d → ∃ c, (s.obj d).context = some c ∧ s.current c = v)
    (hdepth : depthWithin s n root = true) (hfuel : n ≤ fuel)
    (hX : Desc s root X) (hhid : (s.obj X).hidden.testBit v = true) :
    ∃ l, c3object_get_geometry fuel s root out = some (s, out ++ l) ∧
      ∀ d, Desc s X d → ∀ g ∈ (s.obj d).geometry, g ∉ l := by
  refine ⟨collect s v n root, get_geometry_collect_aux s v hv n fuel root out hfuel hdepth hctx,
    ?_⟩
  intro d hXd g hg hmem
  obtain ⟨d', hvis, hg', _⟩ := mem_collect hmem
  have e1 := hG.owner d g hg
  have e2 := hG.owner d' g hg'
  rw [e1] at e2
  cases e2
  have hpar : ∀ y c, Desc s root y → c ∈ (s.obj y).objects → (s.obj c).parent = some y :=
    fun y c hy hc => hF.parent_of_desc hlive hy hc
  have := vis_not_hidden hpar hdepth (Desc.refl root) hvis hX hXd
  rw [this] at hhid
  cases hhid

theorem demo2_forest : Forest demo2 := by
  constructor
  · intro o c hl hc
    rcases o with _ | _ | _ | _ | o <;> simp [demo2, demo2Obj] at hl hc ⊢
    · rcases hc with hc | hc <;> subst hc <;> exact ⟨by decide, rfl⟩
    · subst hc; exact ⟨by decide, rfl⟩
  · intro c p hl hp
    rcases c with _ | _ | _ | _ | c <;> simp [demo2, demo2Obj] at hl hp ⊢
    · subst hp; exact ⟨by decide, by decide⟩
    · subst hp; exact ⟨by decide, by decide⟩
    · subst hp; exact ⟨by decide, by decide⟩

theorem demo2_geoOwned : GeoOwned demo2 := by
  constructor
  · intro p g hg
    rcases p with _ | _ | _ | _ | p <;> simp [demo2, demo2Obj] at hg ⊢
    · subst hg; rfl
    · subst hg; rfl
    · rcases hg with hg | hg <;> subst hg <;> rfl
    · subst hg; rfl
  · intro g p hg
    rcases g with _ | _ | _ | _ | _ | g <;> simp [demo2, demo2Geo] at hg ⊢ <;>
      subst hg <;> decide

theorem demo2_context (d : Nat) : ∃ c, (demo2.obj d).context = some c ∧ demo2.current c = 0 := by
  rcases d with _ | _ | _ | _ | d <;> exact ⟨0, rfl, rfl⟩

/-- Witness of `get_geometry_appends` on `demo2`, whose render list in view 0 is `[0, 3]`. -/
theorem get_geometry_appends_witness :
    c3object_get_geometry 3 demo2 0 [7] = some (demo2, [7] ++ collect demo2 0 3 0) ∧
    (∀ k, 3 ≤ k → collect demo2 0 k 0 = collect demo2 0 3 0) ∧
    collect demo2 0 3 0 = [0, 3] :=
  ⟨(get_geometry_appends demo2 0 0 3 3 [7] (by decide) (fun d _ => demo2_context d) rfl
      (le_refl 3)).1,
   (get_geometry_appends demo2 0 0 3 3 [7] (by decide) (fun d _ => demo2_context d) rfl
      (le_refl 3)).2, by decide⟩

/-- Witness of `get_geometry_hidden_subtree`: object 1 of `demo2` is hidden in view 0. -/
theorem get_geometry_hidden_subtree_witness :
    ∃ l, c3object_get_geometry 3 demo2 0 [] = some (demo2, [] ++ l) ∧
      ∀ d, Desc demo2 1 d → ∀ g ∈ (demo2.obj d).geometry, g ∉ l :=
  get_geometry_hidden_subtree demo2 0 1 0 3 3 [] (by decide) demo2_forest demo2_geoOwned rfl
    (fun d _ => demo2_context d) rfl (le_refl 3) (Desc.child (by decide)) (by decide)

/-! ## Heaps of the same shape -/

theorem SameShape.refl_shape (s : Scene M) : SameShape s s :=
  ⟨fun _ => rfl, fun _ => rfl, fun _ => rfl, fun _ => rfl, fun _ => rfl, fun _ => rfl,
    rfl, rfl, rfl, rfl, rfl, rfl⟩

theorem SameShape.trans_shape {s t u : Scene M} (h1 : SameShape s t) (h2 : SameShape t u) :
    SameShape s u :=
  ⟨fun x => (h2.parent x).trans (h1.parent x), fun x => (h2.objects x).trans (h1.objects x),
    fun x => (h2.geometry x).trans (h1.geometry x),
    fun x => (h2.transform x).trans (h1.transform x),
    fun x => (h2.hidden x).trans (h1.hidden x), fun x => (h2.context x).trans (h1.context x),
    h2.geo.trans h1.geo, h2.xf.trans h1.xf, h2.current.trans h1.current,
    h2.live.trans h1.live, h2.geoDisposed.trans h1.geoDisposed,
    h2.xfDisposed.trans h1.xfDisposed⟩

theorem SameShape.symm {s t : Scene M} (h : SameShape s t) : SameShape t s :=
  ⟨fun x => (h.parent x).symm, fun x => (h.objects x).symm, fun x => (h.geometry x).symm,
    fun x => (h.transform x).symm, fun x => (h.hidden x).symm, fun x => (h.context x).symm,
    h.geo.symm, h.xf.symm, h.current.symm, h.live.symm, h.geoDisposed.symm,
    h.xfDisposed.symm⟩

theorem SameShape.desc_shape {s t : Scene M} (h : SameShape s t) {o d : Nat} (hd : Desc s o d) :
    Desc t o d := by
  induction hd with
  | refl => exact Desc.refl _
  | step hc _ ih => exact Desc.step (by rw [h.objects]; exact hc) ih

theorem SameShape.desc_iff {s t : Scene M} (h : SameShape s t) {o d : Nat} :
    Desc t o d ↔ Desc s o d :=
  ⟨h.symm.desc_shape, h.desc_shape⟩

theorem SameShape.path {s t : Scene M} (h : SameShape s t) {o d : Nat} {l : List Nat}
    (hp : Path s o l d) : Path t o l d := by
  induction hp with
  | nil => exact Path.nil _
  | cons hc _ ih => exact Path.cons (by rw [h.objects]; exact hc) ih

theorem SameShape.depthWithin {s t : Scene M} (h : SameShape s t) (n o : Nat) :
    depthWithin t n o = depthWithin s n o := by
  induction n generalizing o with
  | zero => rfl
  | succ n ih =>
    simp only [LibC3.depthWithin, h.objects]
    congr 1
    funext c
    exact ih c

theorem SameShape.applyTransforms [Mat4 M] {s t : Scene M} (h : SameShape s t) (m : M)
    (ts : List Nat) : applyTransforms t m ts = applyTransforms s m ts := by
  simp only [LibC3.applyTransforms, h.xf]

theorem SameShape.accumulate [Mat4 M] {s t : Scene M} (h : SameShape s t) (m : M)
    (l : List Nat) : accumulate t m l = accumulate s m l := by
  simp only [LibC3.accumulate, h.xf, h.transform]

theorem SameShape.geoOwned {s t : Scene M} (h : SameShape s t) (hG : GeoOwned s) :
    GeoOwned t :=
  ⟨fun p g hg => by rw [h.geo]; exact hG.owner p g (by rw [← h.geometry]; exact hg),
    fun g p hg => by rw [h.geometry]; exact hG.member g p (by rw [← h.geo]; exact hg)⟩

theorem SameShape.forest {s t : Scene M} (h : SameShape s t) (hF : Forest s) : Forest t :=
  ⟨fun o c hl hc => by
      rw [h.live] at hl ⊢; rw [h.objects] at hc; rw [h.parent]; exact hF.child o c hl hc,
    fun c p hl hp => by
      rw [h.live] at hl ⊢; rw [h.parent] at hp; rw [h.objects]; exact hF.parent c p hl hp⟩

/-! ## The footprint of `c3object_project` -/

theorem Touched.refl_touched (s : Scene M) (P : Nat → Prop) : Touched s s P :=
  ⟨SameShape.refl_shape s, fun _ _ => rfl, [], by simp, by simp⟩

theorem Touched.dirty_of_dirty {s t : Scene M} {P : Nat → Prop} (h : Touched s t P) {x : Nat}
    (hx : (t.obj x).dirty = true) : (s.obj x).dirty = true := by
  by_contra hs
  have := h.frame x (fun h1 => hs h1.2)
  rw [this] at hx
  exact hs hx

theorem Touched.mono {s t : Scene M} {P Q : Nat → Prop} (h : Touched s t P)
    (hPQ : ∀ x, P x → Q x) : Touched s t Q :=
  ⟨h.shape, fun x hx => h.frame x (fun h1 => hx ⟨hPQ x h1.1, h1.2⟩), by
    obtain ⟨new, h1, h2⟩ := h.log
    exact ⟨new, h1, fun e he => by
      obtain ⟨x, hx, hd, hg⟩ := h2 e he
      exact ⟨x, hPQ x hx, hd, hg⟩⟩⟩

theorem Touched.trans_touched {s t u : Scene M} {P Q : Nat → Prop} (h1 : Touched s t P)
    (h2 : Touched t u Q) : Touched s u (fun x => P x ∨ Q x) := by
  refine ⟨h1.shape.trans_shape h2.shape, ?_, ?_⟩
  · intro x hx
    have hP : ¬ (P x ∧ (s.obj x).dirty = true) := fun h => hx ⟨Or.inl h.1, h.2⟩
    have hQ : ¬ (Q x ∧ (t.obj x).dirty = true) :=
      fun h => hx ⟨Or.inr h.1, h1.dirty_of_dirty h.2⟩
    rw [h2.frame x hQ, h1.frame x hP]
  · obtain ⟨n1, e1, f1⟩ := h1.log
    obtain ⟨n2, e2, f2⟩ := h2.log
    refine ⟨n1 ++ n2, by rw [e2, e1, List.append_assoc], ?_⟩
    intro e he
    rcases List.mem_append.mp he with he | he
    · obtain ⟨x, hx, hd, hg⟩ := f1 e he
      exact ⟨x, Or.inl hx, hd, hg⟩
    · obtain ⟨x, hx, hd, hg⟩ := f2 e he
      exact ⟨x, Or.inr hx, h1.dirty_of_dirty hd, by rw [← h1.shape.geometry]; exact hg⟩

theorem iterM_append {σ : Type} (f : σ → Nat → Option σ) (l1 l2 : List Nat) (s : σ) :
    iterM f (l1 ++ l2) s = (iterM f l1 s).bind (iterM f l2) := by
  induction l1 generalizing s with
  | nil => simp [iterM]
  | cons c cs ih =>
    simp only [List.cons_append, iterM]
    cases f s c with
    | none => simp
    | some s1 => simp [ih]

/-- A loop whose body touches the subtree of the element it is run on touches the
subtrees of the elements of the array. -/
theorem iterM_touched {f : Scene M → Nat → Option (Scene M)}
    (hf : ∀ s c t, f s c = some t → Touched s t (Desc s c))
    (cs : List Nat) (s t : Scene M) (h : iterM f cs s = some t) :
    Touched s t (fun x => ∃ c ∈ cs, Desc s c x) := by
  induction cs generalizing s with
  | nil =>
    simp only [iterM, Option.some.injEq] at h
    subst h
    exact Touched.refl_touched _ _
  | cons c cs ih =>
    simp only [iterM] at h
    cases hc : f s c with
    | none => simp [hc] at h
    | some s1 =>
      simp only [hc] at h
      have h1 := hf s c s1 hc
      have h2 := ih s1 h
      refine (h1.trans_touched h2).mono ?_
      rintro x (hx | ⟨c', hc', hx⟩)
      · exact ⟨c, List.mem_cons_self _ _, hx⟩
      · exact ⟨c', List.mem_cons_of_mem _ hc', h1.shape.desc_iff.mp hx⟩

theorem foldl_geometry_project (s : Scene M) (gs : List Nat) (p : M) :
    gs.foldl (fun s g => c3geometry_project s g p) s
      = { s with projected := s.projected ++ gs.map (fun g => (g, p)) } := by
  induction gs generalizing s with
  | nil => simp
  | cons g gs ih =>
    simp only [List.foldl]
    rw [ih]
    simp [c3geometry_project]

theorem project_succ [Mat4 M] (n : Nat) (s : Scene M) (o : Nat) (m : M) :
    c3object_project (n + 1) s o m =
      if (s.obj o).dirty = false then some s
      else (iterM (fun u c => c3object_project n u c (applyTransforms s m (s.obj o).transform))
        (s.obj o).objects (projectEnter s o m)).map
          (fun s3 => s3.modObj o (fun r => r.withDirty false)) := by
  rw [c3object_project]
  split
  · rfl
  · simp only [foldl_geometry_project]
    have : ({ (({ s.modObj o (fun r => r.withWorld
          (applyTransforms s m (s.obj o).transform)) with
          muls := s.muls + (s.obj o).transform.length } : Scene M)) with
          projected := (s.modObj o (fun r => r.withWorld
            (applyTransforms s m (s.obj o).transform))).projected ++
            (s.obj o).geometry.map (fun g => (g, applyTransforms s m (s.obj o).transform)) }
            : Scene M) = projectEnter s o m := rfl
    rw [this]
    cases iterM (fun u c => c3object_project n u c (applyTransforms s m (s.obj o).transform))
        (s.obj o).objects (projectEnter s o m) <;> rfl

@[simp] theorem projectEnter_obj_ne [Mat4 M] (s : Scene M) {o x : Nat} (m : M) (h : x ≠ o) :
    (projectEnter s o m).obj x = s.obj x := by
  simp [projectEnter, h]

@[simp] theorem projectEnter_obj_same [Mat4 M] (s : Scene M) (o : Nat) (m : M) :
    (projectEnter s o m).obj o
      = (s.obj o).withWorld (applyTransforms s m (s.obj o).transform) := by
  simp [projectEnter]

theorem projectEnter_touched [Mat4 M] (s : Scene M) (o : Nat) (m : M)
    (hd : (s.obj o).dirty = true) : Touched s (projectEnter s o m) (fun x => x = o) := by
  have hobj : ∀ x, (projectEnter s o m).obj x
      = if x = o then (s.obj o).withWorld (applyTransforms s m (s.obj o).transform)
        else s.obj x := fun x => rfl
  refine ⟨⟨?_, ?_, ?_, ?_, ?_, ?_, rfl, rfl, rfl, rfl, rfl, rfl⟩, ?_, ?_⟩
  · intro x; rw [hobj]; split <;> simp [*]
  · intro x; rw [hobj]; split <;> simp [*]
  · intro x; rw [hobj]; split <;> simp [*]
  · intro x; rw [hobj]; split <;> simp [*]
  · intro x; rw [hobj]; split <;> simp [*]
  · intro x; rw [hobj]; split <;> simp [*]
  · intro x hx
    have : x ≠ o := fun hxo => hx ⟨hxo, hxo ▸ hd⟩
    simp [this]
  · refine ⟨_, rfl, ?_⟩
    intro e he
    simp only [List.mem_map] at he
    obtain ⟨g, hg, rfl⟩ := he
    exact ⟨o, rfl, hd, hg⟩

theorem clearDirty_touched (s : Scene M) (o : Nat) :
    Touched s (s.modObj o (fun r => r.withDirty false)) (fun x => x = o) := by
  refine ⟨⟨?_, ?_, ?_, ?_, ?_, ?_, rfl, rfl, rfl, rfl, rfl, rfl⟩, ?_, [], by simp, by simp⟩
  · intro x; simp
  · intro x; simp
  · intro x; simp
  · intro x; simp
  · intro x; simp
  · intro x; simp
  · intro x hx
    by_cases hxo : x = o
    · subst hxo
      have hcl : (s.obj x).dirty = false := by
        by_contra hne
        exact hx ⟨rfl, by simpa using hne⟩
      simp only [modObj_obj_same]
      rw [← hcl]
      rfl
    · simp [hxo]

theorem project_touched [Mat4 M] (fuel : Nat) :
    ∀ (s : Scene M) (o : Nat) (m : M) (t : Scene M),
      c3object_project fuel s o m = some t → Touched s t (Desc s o) := by
  induction fuel with
  | zero => intro s o m t h; simp [c3object_project] at h
  | succ n ih =>
    intro s o m t h
    rw [project_succ] at h
    by_cases hd : (s.obj o).dirty = false
    · simp only [hd, if_true, Option.some.injEq] at h
      subst h
      exact Touched.refl_touched _ _
    · rw [if_neg hd] at h
      have hd' : (s.obj o).dirty = true := by simpa using hd
      simp only [Option.map_eq_some'] at h
      obtain ⟨s3, h3, rfl⟩ := h
      have h12 := projectEnter_touched s o m hd'
      have h23 := iterM_touched (fun s c t hc => ih s c _ t hc) _ _ _ h3
      refine ((h12.trans_touched h23).trans_touched (clearDirty_touched s3 o)).mono ?_
      rintro x ((hx | ⟨c, hc, hx⟩) | hx)
      · exact hx ▸ Desc.refl _
      · exact Desc.step hc (h12.shape.desc_iff.mp hx)
      · exact hx ▸ Desc.refl _

theorem project_sameShape [Mat4 M] {fuel : Nat} {s t : Scene M} {o : Nat} {m : M}
    (h : c3object_project fuel s o m = some t) : SameShape s t :=
  (project_touched fuel s o m t h).shape

theorem iterM_sameShape {f : Scene M → Nat → Option (Scene M)}
    (hf : ∀ u c t, f u c = some t → SameShape u t) (cs : List Nat) (s t : Scene M)
    (h : iterM f cs s = some t) : SameShape s t := by
  induction cs generalizing s with
  | nil =>
    simp only [iterM, Option.some.injEq] at h
    subst h; exact SameShape.refl_shape _
  | cons c cs ih =>
    simp only [iterM] at h
    cases hc : f s c with
    | none => simp [hc] at h
    | some s1 =>
      simp only [hc] at h
      exact (hf s c s1 hc).trans_shape (ih s1 h)

theorem iterM_returns {f : Scene M → Nat → Option (Scene M)}
    (hf : ∀ u c t, f u c = some t → SameShape u t) (cs : List Nat) (s : Scene M)
    (h : ∀ c ∈ cs, ∀ u, SameShape s u → ∃ t, f u c = some t) :
    ∃ t, iterM f cs s = some t := by
  induction cs generalizing s with
  | nil => exact ⟨s, rfl⟩
  | cons c cs ih =>
    obtain ⟨s1, h1⟩ := h c (List.mem_cons_self _ _) s (SameShape.refl_shape s)
    obtain ⟨t, ht⟩ := ih s1 (fun c' hc' u hu =>
      h c' (List.mem_cons_of_mem _ hc') u ((hf s c s1 h1).trans_shape hu))
    exact ⟨t, by simp only [iterM, h1, ht]⟩

/-- On an object of bounded depth `c3object_project` returns. -/
theorem project_returns [Mat4 M] (n : Nat) :
    ∀ (fuel : Nat) (s : Scene M) (o : Nat) (m : M), n ≤ fuel → depthWithin s n o = true →
      ∃ t, c3object_project fuel s o m = some t := by
  induction n with
  | zero => intro fuel s o m _ h; simp [depthWithin] at h
  | succ n ih =>
    intro fuel s o m hfuel hdepth
    cases fuel with
    | zero => omega
    | succ fuel =>
      rw [project_succ]
      by_cases hd : (s.obj o).dirty = false
      · exact ⟨s, by simp [hd]⟩
      · rw [if_neg hd]
        have hd' : (s.obj o).dirty = true := by simpa using hd
        have hsh := (projectEnter_touched s o m hd').shape
        obtain ⟨s3, h3⟩ := iterM_returns
          (f := fun u c => c3object_project fuel u c (applyTransforms s m (s.obj o).transform))
          (fun u c t h => project_sameShape h) (s.obj o).objects (projectEnter s o m)
          (fun c hc u hu => ih fuel u c _ (by omega)
            (by rw [(hsh.trans_shape hu).depthWithin]; exact depthWithin_child hdepth hc))
        exact ⟨_, by rw [h3]; rfl⟩

theorem split_first {l : List Nat} {c : Nat} (h : c ∈ l) :
    ∃ pre post, l = pre ++ c :: post ∧ c ∉ pre := by
  induction l with
  | nil => simp at h
  | cons a l ih =>
    by_cases hac : a = c
    · exact ⟨[], l, by simp [hac], by simp⟩
    · have hcl : c ∈ l := by
        rcases List.mem_cons.mp h with h1 | h1
        · exact absurd h1.symm hac
        · exact h1
      obtain ⟨pre, post, e, hn⟩ := ih hcl
      refine ⟨a :: pre, post, by simp [e], ?_⟩
      simp only [List.mem_cons, not_or]
      exact ⟨fun h1 => hac h1.symm, hn⟩

theorem Path.desc_of_mem {s : Scene M} {o d : Nat} {l : List Nat} (h : Path s o l d) :
    ∀ x ∈ l, Desc s o x := by
  induction h with
  | nil o => intro x hx; simp at hx; subst hx; exact Desc.refl _
  | cons hc _ ih =>
    intro x hx
    rcases List.mem_cons.mp hx with h1 | h1
    · subst h1; exact Desc.refl _
    · exact Desc.step hc (ih x h1)

theorem Path.desc_last {s : Scene M} {o d : Nat} {l : List Nat} (h : Path s o l d) : Desc s o d := by
  induction h with
  | nil o => exact Desc.refl _
  | cons hc _ ih => exact Desc.step hc ih

theorem Path.last_mem {s : Scene M} {o d : Nat} {l : List Nat} (h : Path s o l d) : d ∈ l := by
  induction h with
  | nil o => simp
  | cons _ _ ih => exact List.mem_cons_of_mem _ ih

theorem Path.head_mem {s : Scene M} {o d : Nat} {l : List Nat} (h : Path s o l d) : o ∈ l := by
  cases h <;> simp

theorem accumulate_cons [Mat4 M] (s : Scene M) (m : M) (o : Nat) (l : List Nat) :
    accumulate s m (o :: l) = accumulate s (applyTransforms s m (s.obj o).transform) l := rfl

theorem accumulate_nil [Mat4 M] (s : Scene M) (m : M) : accumulate s m [] = m := rfl

theorem filter_map_pair (gs : List Nat) (p : M) (g : Nat) (h : gs.count g = 1) :
    (gs.map (fun x => (x, p))).filter (fun e => decide (e.1 = g)) = [(g, p)] := by
  induction gs with
  | nil => simp at h
  | cons a gs ih =>
    by_cases hag : a = g
    · subst hag
      have h0 : gs.count a = 0 := by simpa [List.count_cons] using h
      have hn : a ∉ gs := List.count_eq_zero.mp h0
      simp only [List.map_cons, List.filter_cons, decide_True, if_true, List.cons.injEq,
        true_and]
      rw [List.filter_eq_nil_iff]
      intro e he
      simp only [List.mem_map] at he
      obtain ⟨x, hx, rfl⟩ := he
      simp only [decide_eq_true_eq]
      intro hxa
      exact hn (hxa ▸ hx)
    · have h1 : gs.count g = 1 := by
        have hne : (a == g) = false := by simpa using hag
        simpa [List.count_cons, hne] using h
      simp only [List.map_cons, List.filter_cons, hag, decide_False, Bool.false_eq_true,
        if_false]
      exact ih h1

/-- The main lemma on projection: along a dirty path of a tree, the world matrix of the last
object is the accumulated transform and its geometries are projected once each. -/
theorem project_path [Mat4 M] (n : Nat) :
    ∀ (fuel : Nat) (s : Scene M) (o : Nat) (m : M) (l : List Nat) (d : Nat), n ≤ fuel →
      depthWithin s n o = true →
      (∀ y c, Desc s o y → c ∈ (s.obj y).objects → (s.obj c).parent = some y) →
      Path s o l d → (∀ x ∈ l, (s.obj x).dirty = true) →
      ∃ t, c3object_project fuel s o m = some t ∧
        (t.obj d).world = accumulate s m l ∧ (t.obj d).dirty = false ∧
        (GeoOwned s → ∃ new, t.projected = s.projected ++ new ∧
          ∀ g ∈ (s.obj d).geometry,
            new.filter (fun e => decide (e.1 = g)) = [(g, (t.obj d).world)]) := by
  induction n with
  | zero => intro fuel s o m l d _ h; simp [depthWithin] at h
  | succ n ih =>
    intro fuel s o m l d hfuel hdepth hpar hpath hdirty
    cases fuel with
    | zero => omega
    | succ fuel =>
      have hd' : (s.obj o).dirty = true := hdirty o hpath.head_mem
      have hd : ¬ (s.obj o).dirty = false := by simp [hd']
      rw [project_succ, if_neg hd]
      have h12 := projectEnter_touched s o m hd'
      have hsh := h12.shape
      -- no child of `o` has `o` below it
      have hacyc : ∀ c ∈ (s.obj o).objects, ¬ Desc s c o :=
        fun c hc => not_desc_of_child hdepth hc
      have hret : ∀ (cs : List Nat) (u : Scene M), (∀ c ∈ cs, c ∈ (s.obj o).objects) →
          SameShape s u → ∃ t, iterM (fun u c => c3object_project fuel u c
            (applyTransforms s m (s.obj o).transform)) cs u = some t := by
        intro cs u hcs hu
        exact iterM_returns (fun u c t h => project_sameShape h) cs u
          (fun c hc v hv => project_returns n fuel v c _ (by omega)
            (by rw [(hu.trans_shape hv).depthWithin]; exact depthWithin_child hdepth (hcs c hc)))
      have htouch : ∀ (cs : List Nat) (u t : Scene M),
          iterM (fun u c => c3object_project fuel u c
            (applyTransforms s m (s.obj o).transform)) cs u = some t →
          Touched u t (fun x => ∃ c ∈ cs, Desc u c x) :=
        fun cs u t h => iterM_touched (fun s c t hc => project_touched fuel s c _ t hc) cs u t h
      cases hpath with
      | nil =>
        obtain ⟨s3, h3⟩ := hret (s.obj o).objects (projectEnter s o m) (fun c hc => hc) hsh
        have h23 := htouch _ _ _ h3
        have hno : ¬ ((∃ c ∈ (s.obj o).objects, Desc (projectEnter s o m) c o) ∧
            ((projectEnter s o m).obj o).dirty = true) := by
          rintro ⟨⟨c, hc, hco⟩, _⟩
          exact hacyc c hc (hsh.desc_iff.mp hco)
        have ho3 : s3.obj o = (s.obj o).withWorld (applyTransforms s m (s.obj o).transform) := by
          rw [h23.frame o hno, projectEnter_obj_same]
        refine ⟨_, by rw [h3]; rfl, ?_, ?_, ?_⟩
        · simp [ho3, accumulate_cons, accumulate_nil]
        · simp
        · intro hG
          obtain ⟨new, e, hnew⟩ := h23.log
          refine ⟨(s.obj o).geometry.map
            (fun g => (g, applyTransforms s m (s.obj o).transform)) ++ new, ?_, ?_⟩
          · simp only [modObj_projected, e, projectEnter, List.append_assoc]
          · intro g hg
            have hown := hG.owner o g hg
            rw [List.filter_append, filter_map_pair _ _ _ (hG.member g o hown)]
            have : new.filter (fun e => decide (e.1 = g)) = [] := by
              rw [List.filter_eq_nil_iff]
              intro e he
              simp only [decide_eq_true_eq]
              intro heg
              obtain ⟨x, ⟨c, hc, hcx⟩, _, hgx⟩ := hnew e he
              rw [hsh.geometry] at hgx
              have := hG.owner x e.1 hgx
              rw [heg, hown] at this
              cases this
              exact hacyc c hc (hsh.desc_iff.mp hcx)
            rw [this]
            simp [ho3]
      | @cons _ c _ l' hc hpath' =>
        obtain ⟨pre, post, hsplit, hpre⟩ := split_first hc
        have hmem_pre : ∀ c' ∈ pre, c' ∈ (s.obj o).objects := fun c' h => by
          rw [hsplit]; exact List.mem_append_left _ h
        have hmem_post : ∀ c' ∈ post, c' ∈ (s.obj o).objects := fun c' h => by
          rw [hsplit]; exact List.mem_append_right _ (List.mem_cons_of_mem _ h)
        -- the part of the loop before `c`
        obtain ⟨sa, ha⟩ := hret pre (projectEnter s o m) hmem_pre hsh
        have hta := htouch _ _ _ ha
        have hsa : SameShape s sa := hsh.trans_shape hta.shape
        have hdo : ∀ x, Desc s c x → x ≠ o := fun x hx hxo => hacyc c hc (hxo ▸ hx)
        have hkeep : ∀ x, Desc s c x → sa.obj x = s.obj x := by
          intro x hx
          have hne : ¬ ((∃ c' ∈ pre, Desc (projectEnter s o m) c' x) ∧
              ((projectEnter s o m).obj x).dirty = true) := by
            rintro ⟨⟨c', hc', hcx⟩, _⟩
            have := siblings_disjoint hpar hdepth (Desc.refl o) (hmem_pre c' hc') hc
              (hsh.desc_iff.mp hcx) hx
            exact hpre (this ▸ hc')
          rw [hta.frame x hne, projectEnter_obj_ne _ _ (hdo x hx)]
        -- the call on `c`
        obtain ⟨tb, hb, hbw, hbd, hbnew⟩ := ih fuel sa c
          (applyTransforms s m (s.obj o).transform) l' _ (by omega)
          (by rw [hsa.depthWithin]; exact depthWithin_child hdepth hc)
          (fun y c' hy hc' => by
            rw [hsa.parent]
            rw [hsa.objects] at hc'
            exact hpar y c' (Desc.step hc (hsa.desc_iff.mp hy)) hc')
          (hsa.path hpath')
          (fun x hx => by rw [hkeep x (hpath'.desc_of_mem x hx)]; exact hdirty x (List.mem_cons_of_mem _ hx))
        have hsb : SameShape sa tb := project_sameShape hb
        -- the part of the loop after `c`
        obtain ⟨s3, h3⟩ := hret post tb hmem_post (hsa.trans_shape hsb)
        have ht3 := htouch _ _ _ h3
        have hd3 : s3.obj d = tb.obj d :=
          ht3.frame d (fun h => by rw [hbd] at h; exact Bool.false_ne_true h.2)
        have hloop : iterM (fun u c => c3object_project fuel u c
            (applyTransforms s m (s.obj o).transform)) (s.obj o).objects (projectEnter s o m)
            = some s3 := by
          rw [hsplit, iterM_append, ha]
          simp only [Option.some_bind, iterM, hb, h3]
        have hdne := hdo _ hpath'.desc_last
        refine ⟨_, by rw [hloop]; rfl, ?_, ?_, ?_⟩
        · simp only [ne_eq, hdne, not_false_eq_true, modObj_obj_ne, hd3, hbw,
            hsa.accumulate, accumulate_cons]
        · simp only [ne_eq, hdne, not_false_eq_true, modObj_obj_ne, hd3, hbd]
        · intro hG
          obtain ⟨newb, hbe, hbn⟩ := hbnew (hsa.geoOwned hG)
          obtain ⟨newa, ea, hna⟩ := hta.log
          obtain ⟨new3, e3, hn3⟩ := ht3.log
          refine ⟨(s.obj o).geometry.map
            (fun g => (g, applyTransforms s m (s.obj o).transform)) ++ newa ++ newb ++ new3,
            ?_, ?_⟩
          · simp only [modObj_projected, e3, hbe, ea, projectEnter, List.append_assoc]
          · intro g hg
            have hown := hG.owner _ g hg
            have hwd : (Scene.modObj s3 o (fun r => r.withDirty false)).obj d = tb.obj d := by
              rw [modObj_obj_ne _ _ hdne, hd3]
            have f1 : ((s.obj o).geometry.map
                (fun g => (g, applyTransforms s m (s.obj o).transform))).filter
                (fun e => decide (e.1 = g)) = [] := by
              rw [List.filter_eq_nil_iff]
              intro e he
              simp only [List.mem_map] at he
              obtain ⟨x, hx, rfl⟩ := he
              simp only [decide_eq_true_eq]
              intro hxg
              have := hG.owner o x hx
              rw [hxg, hown] at this
              cases this
              exact hdne rfl
            have f2 : newa.filter (fun e => decide (e.1 = g)) = [] := by
              rw [List.filter_eq_nil_iff]
              intro e he
              simp only [decide_eq_true_eq]
              intro heg
              obtain ⟨x, ⟨c', hc', hcx⟩, _, hgx⟩ := hna e he
              rw [hsh.geometry] at hgx
              have := hG.owner x e.1 hgx
              rw [heg, hown] at this
              cases this
              have := siblings_disjoint hpar hdepth (Desc.refl o) (hmem_pre c' hc') hc
                (hsh.desc_iff.mp hcx) hpath'.desc_last
              exact hpre (this ▸ hc')
            have f3 : new3.filter (fun e => decide (e.1 = g)) = [] := by
              rw [List.filter_eq_nil_iff]
              intro e he
              simp only [decide_eq_true_eq]
              intro heg
              obtain ⟨x, _, hxd, hgx⟩ := hn3 e he
              rw [(hsa.trans_shape hsb).geometry] at hgx
              have := hG.owner x e.1 hgx
              rw [heg, hown] at this
              cases this
              rw [hbd] at hxd
              cases hxd
            have f4 := hbn g (by rw [hsa.geometry]; exact hg)
            rw [List.filter_append, List.filter_append, List.filter_append, f1, f2, f3, f4, hwd]
            simp

/-- C5: in a forest with geometry ownership symmetry, for a live object `o` of bounded depth
and a path `l` from `o` down to `d` all of whose objects are dirty, `c3object_project(o, m)`
returns, and afterwards `d.world` is `m` post-multiplied, left to right, by the matrices of
the transforms of the objects of the path (each object's transforms in list order), `d.dirty`
is false, and among the calls of `c3geometry_project` made (the new part of `projected`)
there is for each geometry of `d.geometry` exactly one, and it carries `d.world`. -/
theorem project_accumulates [Mat4 M] (s : Scene M) (o d n fuel : Nat) (m : M) (l : List Nat)
    (hF : Forest s) (hG : GeoOwned s) (hlive : s.live o = true)
    (hdepth : depthWithin s n o = true) (hfuel : n ≤ fuel)
    (hpath : Path s o l d) (hdirty : ∀ x ∈ l, (s.obj x).dirty = true) :
    ∃ t, c3object_project fuel s o m = some t ∧
      (t.obj d).world = accumulate s m l ∧ (t.obj d).dirty = false ∧
      ∃ new, t.projected = s.projected ++ new ∧
        ∀ g ∈ (s.obj d).geometry,
          new.filter (fun e => decide (e.1 = g)) = [(g, (t.obj d).world)] := by
  obtain ⟨t, h1, h2, h3, h4⟩ := project_path n fuel s o m l d hfuel hdepth
    (fun y c hy hc => hF.parent_of_desc hlive hy hc) hpath hdirty
  exact ⟨t, h1, h2, h3, h4 hG⟩

theorem path_dirty {s : Scene M} (hF : Forest s) (hU : UpClosed s) {o d : Nat} {l : List Nat}
    (hlive : s.live o = true) (hpath : Path s o l d) (hd : (s.obj d).dirty = true) :
    ∀ x ∈ l, (s.obj x).dirty = true := by
  induction hpath with
  | nil o => intro x hx; simp at hx; subst hx; exact hd
  | @cons o c d l' hc hp ih =>
    have hcl := hF.child o c hlive hc
    have h1 := ih hcl.1 hd
    intro x hx
    rcases List.mem_cons.mp hx with h | h
    · subst h
      exact hU c x hcl.1 hcl.2 (h1 c hp.head_mem)
    · exact h1 x h

/-- C6, amended: in a forest with upward-closed dirtiness in which, before the call, every
clean object of the tree below a live `root` of bounded depth already holds the accumulated
transform for `m`, `c3object_project(root, m)` returns, and afterwards every object `d` of the
tree below `root` is clean and has `d.world` equal to the accumulated transform: `m`
post-multiplied in order by the transform matrices of every object on the path from `root`
to `d`. -/
theorem project_keeps_valid [Mat4 M] (s : Scene M) (root n fuel : Nat) (m : M)
    (hF : Forest s) (hU : UpClosed s) (hlive : s.live root = true)
    (hdepth : depthWithin s n root = true) (hfuel : n ≤ fuel)
    (hvalid : ∀ l d, Path s root l d → (s.obj d).dirty = false →
      (s.obj d).world = accumulate s m l) :
    ∃ t, c3object_project fuel s root m = some t ∧
      ∀ l d, Path t root l d →
        (t.obj d).dirty = false ∧ (t.obj d).world = accumulate t m l := by
  obtain ⟨t, ht⟩ := project_returns n fuel s root m hfuel hdepth
  have htouch := project_touched fuel s root m t ht
  refine ⟨t, ht, ?_⟩
  intro l d hp
  have hps : Path s root l d := htouch.shape.symm.path hp
  rw [htouch.shape.accumulate]
  by_cases hd : (s.obj d).dirty = true
  · obtain ⟨t', ht', hw, hdd, _⟩ := project_path n fuel s root m l d hfuel hdepth
      (fun y c hy hc => hF.parent_of_desc hlive hy hc) hps (path_dirty hF hU hlive hps hd)
    rw [ht] at ht'
    cases ht'
    exact ⟨hdd, hw⟩
  · have hd' : (s.obj d).dirty = false := by simpa using hd
    rw [htouch.frame d (fun h => hd h.2)]
    exact ⟨hd', hvalid l d hps hd'⟩

/-- The product of the scenario: translate(1,0,0) then translate(0,1,0) from the identity. -/
theorem translate_mul : accumulate demo identity [0, 1, 2] = translate 1 1 0 := by
  funext i j
  fin_cases i <;> fin_cases j <;> rfl

/-- Witness of `project_accumulates`: the scenario `R -> A -> B` holding `G` of the
specification, where `B.world` becomes translate(1,1,0). -/
theorem project_accumulates_witness :
    (∃ t, c3object_project 3 demo 0 identity = some t ∧
      (t.obj 2).world = accumulate demo identity [0, 1, 2] ∧ (t.obj 2).dirty = false ∧
      ∃ new, t.projected = demo.projected ++ new ∧
        ∀ g ∈ (demo.obj 2).geometry,
          new.filter (fun e => decide (e.1 = g)) = [(g, (t.obj 2).world)]) ∧
    accumulate demo identity [0, 1, 2] = translate 1 1 0 :=
  ⟨project_accumulates demo 0 2 3 3 identity [0, 1, 2] demo_forest demo_geoOwned rfl rfl
    (le_refl 3) (Path.cons (by decide) (Path.cons (by decide) (Path.nil 2)))
    (by decide), translate_mul⟩

theorem built_forest : Forest built := by
  constructor
  · intro o c hl hc
    rcases o with _ | _ | o <;>
      simp [built, c3object_init, blankScene, Scene.modObj, upd, c_array_add] at hl hc ⊢
    subst hc
    simp
  · intro c p hl hp
    rcases c with _ | _ | c <;>
      simp [built, c3object_init, blankScene, Scene.modObj, upd, c_array_add] at hl hp ⊢
    subst hp
    simp

theorem built_upClosed : UpClosed built := by
  intro x p _ _ hd
  rcases x with _ | _ | x <;>
    simp [built, c3object_init, blankScene, Scene.modObj, upd, c_array_add] at hd

/-- C6, as stated, fails: the tree built by `c3object_init(0, NULL)` and `c3object_init(1, 0)`
satisfies parent/child symmetry and upward-closed dirtiness, `c3object_project(0, identity)`
returns, and afterwards object 0 is clean while its world matrix (all zero) is not the
accumulated transform (the identity). -/
theorem project_clean_world_counterexample :
    Forest built ∧ UpClosed built ∧
    ∃ t, c3object_project 2 built 0 identity = some t ∧ Path t 0 [0] 0 ∧
      (t.obj 0).dirty = false ∧ (t.obj 0).world ≠ accumulate t identity [0] := by
  refine ⟨built_forest, built_upClosed, built, rfl, Path.nil 0, rfl, ?_⟩
  intro h
  have h00 := congrFun (congrFun h 0) 0
  revert h00
  decide

theorem demo3_forest : Forest demo3 := by
  constructor
  · intro o c hl hc
    rcases o with _ | _ | o <;> simp [demo3, demo3Obj] at hl hc ⊢
    subst hc; exact ⟨by decide, rfl⟩
  · intro c p hl hp
    rcases c with _ | _ | c <;> simp [demo3, demo3Obj] at hl hp ⊢
    subst hp; exact ⟨by decide, by decide⟩

theorem demo3_upClosed : UpClosed demo3 := by
  intro x p hl hp hd
  rcases x with _ | _ | x <;> simp [demo3, demo3Obj] at hl hp hd ⊢

theorem demo3_valid : ∀ l d, Path demo3 0 l d → (demo3.obj d).dirty = false →
    (demo3.obj d).world = accumulate demo3 identity l := by
  intro l d hp hd
  cases hp with
  | nil => simp [demo3, demo3Obj] at hd
  | cons hc hp' =>
    simp [demo3, demo3Obj] at hc
    subst hc
    cases hp' with
    | nil =>
      funext i j
      fin_cases i <;> fin_cases j <;> rfl
    | cons hc' _ => simp [demo3, demo3Obj] at hc'

/-- Witness of `project_keeps_valid` on `demo3`, whose clean child already holds its
accumulated transform. -/
theorem project_keeps_valid_witness :
    ∃ t, c3object_project 2 demo3 0 identity = some t ∧
      ∀ l d, Path t 0 l d →
        (t.obj d).dirty = false ∧ (t.obj d).world = accumulate t identity l :=
  project_keeps_valid demo3 0 2 2 identity demo3_forest demo3_upClosed rfl rfl (le_refl 2)
    demo3_valid

/-! ## Upward-closed dirtiness -/

theorem UpClosed.but (s : Scene M) (h : UpClosed s) (e : Option Nat) : UpClosedBut s e :=
  fun x p hl hp hd => Or.inl (h x p hl hp hd)

theorem Anc.snoc {s : Scene M} {a x p : Nat} (h : Anc s a x) (hp : (s.obj a).parent = some p) :
    Anc s p x := by
  induction h with
  | parent h1 => exact Anc.step h1 (Anc.parent hp)
  | step h1 _ ih => exact Anc.step h1 ih

theorem chain_closed {s : Scene M} {n o x p : Nat} (hr : reachesRoot s n (some o) = true)
    (hx : x ∈ chain s n (some o)) (hp : (s.obj x).parent = some p) :
    p ∈ chain s n (some o) := by
  rw [mem_chain_iff hr] at hx ⊢
  rcases hx with h | h
  · subst h; exact Or.inr (Anc.parent hp)
  · exact Or.inr (h.snoc hp)

/-- The upward walk restores upward-closed dirtiness below the object it starts from. -/
theorem set_dirty_true_upClosed {fuel : Nat} {s t : Scene M} {o : Nat} {e : Option Nat}
    (hU : UpClosedBut s e) (he : e = none ∨ e = some o)
    (h : c3object_set_dirty fuel s o true = some t) : UpClosed t := by
  rw [set_dirty_true_eq] at h
  by_cases hr : reachesRoot s fuel (some o) = true
  · rw [if_pos hr] at h
    simp only [Option.some.injEq] at h
    subst h
    intro x p hl hp hd
    simp only [markAll_live, markGeometry_live, markAll_obj, markGeometry_obj,
      c3object.withDirty_parent, c3object.withDirty_dirty, Bool.or_eq_true,
      decide_eq_true_eq] at hl hp hd ⊢
    rcases hd with hd | hd
    · exact Or.inl (chain_closed hr hd hp)
    · rcases hU x p hl hp hd with h1 | h1
      · exact Or.inr h1
      · rcases he with he | he
        · rw [he] at h1; cases h1
        · rw [he] at h1; cases h1
          exact Or.inl ((mem_chain_iff hr _).mpr (Or.inl rfl))
  · rw [if_neg hr] at h; cases h

theorem UpClosedBut.congr_but {s t : Scene M} {e : Option Nat} (hU : UpClosedBut s e)
    (hl : t.live = s.live) (hp : ∀ x, (t.obj x).parent = (s.obj x).parent)
    (hd : ∀ x, (t.obj x).dirty = (s.obj x).dirty) : UpClosedBut t e := by
  intro x p h1 h2 h3
  rw [hl] at h1; rw [hp] at h2; rw [hd] at h3 ⊢
  exact hU x p h1 h2 h3

theorem UpClosed.toBut {s : Scene M} (h : UpClosedBut s none) : UpClosed s := by
  intro x p hl hp hd
  rcases h x p hl hp hd with h1 | h1
  · exact h1
  · cases h1

/-- Changing the parent of `sub` to `o` leaves at most the pair `(sub, o)` open. -/
theorem UpClosedBut.setParent {s : Scene M} (hU : UpClosed s) (sub : Nat) (o : Option Nat) :
    UpClosedBut (s.modObj sub (fun r => r.withParent o)) o := by
  intro x p hl hp hd
  by_cases hx : x = sub
  · subst hx
    simp only [modObj_obj_same, c3object.withParent_parent] at hp
    exact Or.inr hp
  · simp only [modObj_live, ne_eq, hx, not_false_eq_true, modObj_obj_ne,
      modObj_dirty_frame, c3object.withParent_dirty] at hl hp hd ⊢
    exact Or.inl (hU x p hl hp hd)

theorem detachObject_upClosed {fuel : Nat} {s t : Scene M} {x : Nat} (hU : UpClosed s)
    (h : detachObject fuel s x = some t) : UpClosed t := by
  simp only [detachObject] at h
  cases hp : (s.obj x).parent with
  | none => simp only [hp, Option.some.injEq] at h; subst h; exact hU
  | some p =>
    simp only [hp] at h
    have step : ∀ u : Scene M, UpClosed u →
        UpClosed (u.modObj x (fun r => r.withParent none)) := by
      intro u hu
      exact UpClosed.toBut (UpClosedBut.setParent hu x none)
    cases hf : findIndex (s.obj p).objects x with
    | none =>
      simp only [hf, Option.some.injEq] at h
      subst h
      exact step s hU
    | some oi =>
      simp only [hf] at h
      cases hs : c3object_set_dirty fuel
          (s.modObj p (fun r => r.withObjects (c_array_delete r.objects oi 1))) p true with
      | none => simp [hs] at h
      | some s1 =>
        simp only [hs, Option.some.injEq] at h
        subst h
        refine step s1 (set_dirty_true_upClosed (e := none) ?_ (Or.inl rfl) hs)
        exact (hU.but s none).congr_but rfl (fun y => by simp) (fun y => by simp)

theorem add_object_upClosed {fuel : Nat} {s t : Scene M} {o : Option Nat} {sub : Nat}
    (hU : UpClosed s) (h : c3object_add_object fuel s o sub = some t) : UpClosed t := by
  simp only [c3object_add_object] at h
  by_cases hpo : (s.obj sub).parent = o
  · simp only [hpo, if_true, Option.some.injEq] at h; subst h; exact hU
  · simp only [hpo, if_false] at h
    cases hd : detachObject fuel s sub with
    | none => simp [hd] at h
    | some s1 =>
      simp only [hd] at h
      have h1 := detachObject_upClosed hU hd
      have h2 := UpClosedBut.setParent h1 sub o
      cases o with
      | none =>
        simp only [Option.some.injEq] at h
        subst h
        exact UpClosed.toBut h2
      | some o =>
        simp only at h
        refine set_dirty_true_upClosed (e := some o) ?_ (Or.inr rfl) h
        exact h2.congr_but rfl (fun y => by simp) (fun y => by simp)

theorem detachGeometry_upClosed {fuel : Nat} {s t : Scene M} {g : Nat} (hU : UpClosed s)
    (h : detachGeometry fuel s g = some t) : UpClosed t := by
  simp only [detachGeometry] at h
  cases hp : (s.geo g).object with
  | none => simp only [hp, Option.some.injEq] at h; subst h; exact hU
  | some p =>
    simp only [hp] at h
    cases hf : findIndex (s.obj p).geometry g with
    | none =>
      simp only [hf, Option.some.injEq] at h
      subst h
      exact UpClosed.toBut ((hU.but s none).congr_but rfl (fun y => rfl) (fun y => rfl))
    | some oi =>
      simp only [hf] at h
      cases hs : c3object_set_dirty fuel
          (s.modObj p (fun r => r.withGeometry (c_array_delete r.geometry oi 1))) p true with
      | none => simp [hs] at h
      | some s1 =>
        simp only [hs, Option.some.injEq] at h
        subst h
        have h1 : UpClosed s1 := by
          refine set_dirty_true_upClosed (e := none) ?_ (Or.inl rfl) hs
          exact (hU.but s none).congr_but rfl (fun y => by simp) (fun y => by simp)
        exact UpClosed.toBut ((h1.but s1 none).congr_but rfl (fun y => rfl) (fun y => rfl))

theorem add_geometry_upClosed {fuel : Nat} {s t : Scene M} {o : Option Nat} {g : Nat}
    (hU : UpClosed s) (h : c3object_add_geometry fuel s o g = some t) : UpClosed t := by
  simp only [c3object_add_geometry] at h
  by_cases hpo : (s.geo g).object = o
  · simp only [hpo, if_true, Option.some.injEq] at h; subst h; exact hU
  · simp only [hpo, if_false] at h
    cases hd : detachGeometry fuel s g with
    | none => simp [hd] at h
    | some s1 =>
      simp only [hd] at h
      have h1 := detachGeometry_upClosed hU hd
      cases o with
      | none =>
        simp only [Option.some.injEq] at h
        subst h
        exact UpClosed.toBut ((h1.but s1 none).congr_but rfl (fun y => rfl) (fun y => rfl))
      | some o =>
        simp only at h
        refine set_dirty_true_upClosed (e := none) ?_ (Or.inl rfl) h
        exact (h1.but s1 none).congr_but rfl (fun y => by simp) (fun y => by simp)

theorem init_upClosed [Mat4 M] {s : Scene M} {node : Nat} {parent : Option Nat}
    (hF : Forest s) (hU : UpClosed s) (hfresh : s.live node = false) :
    UpClosed (c3object_init s node parent) := by
  intro x p hl hp hd
  by_cases hx : x = node
  · subst hx
    cases parent with
    | none => simp [c3object_init] at hd
    | some q =>
      by_cases hq : x = q
      · subst hq; simp [c3object_init, Scene.modObj] at hd
      · simp [c3object_init, Scene.modObj, hq] at hd
  · have hl' : s.live x = true := by
      cases parent <;> simpa [c3object_init, hx] using hl
    have hobj : ∀ y, y ≠ node → ((c3object_init s node parent).obj y).parent = (s.obj y).parent
        ∧ ((c3object_init s node parent).obj y).dirty = (s.obj y).dirty := by
      intro y hy
      cases parent with
      | none => simp [c3object_init, hy]
      | some q =>
        by_cases hyq : y = q
        · subst hyq; simp [c3object_init, Scene.modObj, hy]
        · simp [c3object_init, Scene.modObj, hy, hyq]
    rw [(hobj x hx).1] at hp
    rw [(hobj x hx).2] at hd
    have hpn : p ≠ node := by
      intro hpn
      subst hpn
      have := (hF.parent x p hl' hp).1
      rw [hfresh] at this
      cases this
    rw [(hobj p hpn).2]
    exact hU x p hl' hp hd

theorem UpClosed.congr_upClosed {s t : Scene M} (hU : UpClosed s)
    (hl : t.live = s.live) (hp : ∀ x, (t.obj x).parent = (s.obj x).parent)
    (hd : ∀ x, (t.obj x).dirty = (s.obj x).dirty) : UpClosed t :=
  UpClosed.toBut ((hU.but s none).congr_but hl hp hd)

/-- Clearing the dirty flag of an object whose children are all clean. -/
theorem clearDirty_upClosed {s : Scene M} {o : Nat} (hF : Forest s) (hU : UpClosed s)
    (hc : ∀ c ∈ (s.obj o).objects, (s.obj c).dirty = false) :
    UpClosed (s.modObj o (fun r => r.withDirty false)) := by
  intro x p hl hp hd
  by_cases hx : x = o
  · subst hx; simp at hd
  · simp only [modObj_live, modObj_parent_frame, c3object.withDirty_parent, ne_eq, hx,
      not_false_eq_true, modObj_obj_ne] at hl hp hd
    by_cases hpo : p = o
    · subst hpo
      have hm : x ∈ (s.obj p).objects :=
        List.count_pos_iff.mp (by rw [(hF.parent x p hl hp).2]; omega)
      rw [hc x hm] at hd
      cases hd
    · simp only [ne_eq, hpo, not_false_eq_true, modObj_obj_ne]
      exact hU x p hl hp hd

/-- A loop over the children whose body cleans the subtree of the child it is run on keeps
upward-closed dirtiness and leaves every child clean. -/
theorem iterM_upClosed {f : Scene M → Nat → Option (Scene M)}
    (hT : ∀ s c t, f s c = some t → Touched s t (Desc s c))
    (hC : ∀ s c t, f s c = some t → (t.obj c).dirty = false)
    (hU : ∀ s c t, f s c = some t → Forest s → UpClosed s → UpClosed t)
    (cs : List Nat) (s t : Scene M) (h : iterM f cs s = some t) (hF : Forest s)
    (hUs : UpClosed s) :
    UpClosed t ∧ SameShape s t ∧ ∀ c ∈ cs, (t.obj c).dirty = false := by
  induction cs generalizing s with
  | nil =>
    simp only [iterM, Option.some.injEq] at h
    subst h
    exact ⟨hUs, SameShape.refl_shape _, by simp⟩
  | cons c cs ih =>
    simp only [iterM] at h
    cases hc : f s c with
    | none => simp [hc] at h
    | some s1 =>
      simp only [hc] at h
      have h1 := hT s c s1 hc
      obtain ⟨h2, h3, h4⟩ := ih s1 h (h1.shape.forest hF) (hU s c s1 hc hF hUs)
      refine ⟨h2, h1.shape.trans_shape h3, ?_⟩
      intro c' hc'
      rcases List.mem_cons.mp hc' with h5 | h5
      · subst h5
        have ht := iterM_touched hT cs s1 t h
        by_contra hne
        have := ht.dirty_of_dirty (by simpa using hne)
        rw [hC s c' s1 hc] at this
        cases this
      · exact h4 c' h5

theorem project_upClosed [Mat4 M] (fuel : Nat) :
    ∀ (s : Scene M) (o : Nat) (m : M) (t : Scene M), c3object_project fuel s o m = some t →
      Forest s → UpClosed s → UpClosed t := by
  induction fuel with
  | zero => intro s o m t h; simp [c3object_project] at h
  | succ n ih =>
    intro s o m t h hF hU
    rw [project_succ] at h
    by_cases hd : (s.obj o).dirty = false
    · simp only [hd, if_true, Option.some.injEq] at h
      subst h; exact hU
    · rw [if_neg hd] at h
      have hd' : (s.obj o).dirty = true := by simpa using hd
      simp only [Option.map_eq_some'] at h
      obtain ⟨s3, h3, rfl⟩ := h
      have h12 := projectEnter_touched s o m hd'
      have hU2 : UpClosed (projectEnter s o m) :=
        hU.congr_upClosed h12.shape.live h12.shape.parent (fun x => by
          by_cases hx : x = o
          · subst hx; simp
          · simp [hx])
      obtain ⟨hU3, hsh, hcl⟩ := iterM_upClosed
        (fun s c t hc => project_touched n s c _ t hc)
        (fun s c t hc => project_root_clean hc)
        (fun s c t hc => ih s c _ t hc) _ _ _ h3 (h12.shape.forest hF) hU2
      refine clearDirty_upClosed ((h12.shape.trans_shape hsh).forest hF) hU3 ?_
      intro c hc
      rw [(h12.shape.trans_shape hsh).objects] at hc
      exact hcl c hc

theorem cleanDown_touched (fuel : Nat) :
    ∀ (s : Scene M) (o : Nat) (t : Scene M), cleanDown fuel s o = some t →
      Touched s t (Desc s o) := by
  induction fuel with
  | zero => intro s o t h; simp [cleanDown] at h
  | succ n ih =>
    intro s o t h
    simp only [cleanDown] at h
    cases h3 : iterM (fun s c => if (s.obj c).dirty = true then cleanDown n s c else some s)
        (s.obj o).objects s with
    | none => simp [h3] at h
    | some s3 =>
      simp only [h3, Option.some.injEq] at h
      subst h
      have h23 := iterM_touched (f := fun s c =>
          if (s.obj c).dirty = true then cleanDown n s c else some s)
        (fun s c t hc => by
          by_cases hd : (s.obj c).dirty = true
          · simp only [hd, if_true] at hc; exact ih s c t hc
          · simp only [if_neg hd] at hc
            cases hc; exact Touched.refl_touched _ _) _ _ _ h3
      refine (h23.trans_touched (clearDirty_touched s3 o)).mono ?_
      rintro x (⟨c, hc, hx⟩ | hx)
      · exact Desc.step hc hx
      · exact hx ▸ Desc.refl _

theorem cleanDown_root_clean {fuel : Nat} {s t : Scene M} {o : Nat}
    (h : cleanDown fuel s o = some t) : (t.obj o).dirty = false := by
  cases fuel with
  | zero => simp [cleanDown] at h
  | succ n =>
    simp only [cleanDown] at h
    split at h
    · cases h
    · simp only [Option.some.injEq] at h
      subst h; simp

theorem cleanDown_upClosed (fuel : Nat) :
    ∀ (s : Scene M) (o : Nat) (t : Scene M), cleanDown fuel s o = some t →
      Forest s → UpClosed s → UpClosed t := by
  induction fuel with
  | zero => intro s o t h; simp [cleanDown] at h
  | succ n ih =>
    intro s o t h hF hU
    simp only [cleanDown] at h
    cases h3 : iterM (fun s c => if (s.obj c).dirty = true then cleanDown n s c else some s)
        (s.obj o).objects s with
    | none => simp [h3] at h
    | some s3 =>
      simp only [h3, Option.some.injEq] at h
      subst h
      obtain ⟨hU3, hsh, hcl⟩ := iterM_upClosed (f := fun s c =>
          if (s.obj c).dirty = true then cleanDown n s c else some s)
        (fun s c t hc => by
          by_cases hd : (s.obj c).dirty = true
          · simp only [hd, if_true] at hc; exact cleanDown_touched n s c t hc
          · simp only [if_neg hd] at hc
            cases hc; exact Touched.refl_touched _ _)
        (fun s c t hc => by
          by_cases hd : (s.obj c).dirty = true
          · simp only [hd, if_true] at hc; exact cleanDown_root_clean hc
          · simp only [if_neg hd] at hc
            cases hc; simpa using hd)
        (fun s c t hc hF hU => by
          by_cases hd : (s.obj c).dirty = true
          · simp only [hd, if_true] at hc; exact ih s c t hc hF hU
          · simp only [if_neg hd] at hc
            cases hc; exact hU) _ _ _ h3 hF hU
      refine clearDirty_upClosed (hsh.forest hF) hU3 ?_
      intro c hc
      rw [hsh.objects] at hc
      exact hcl c hc

/-! ## Dirtiness under `c3object_clear` and `c3object_dispose` -/

theorem Pruned.refl_pruned (s : Scene M) : Pruned s s :=
  ⟨fun _ h => h, fun _ => Or.inl rfl, fun _ h => h, fun _ _ h _ => Or.inl h⟩

theorem Pruned.trans_pruned {s t u : Scene M} (h1 : Pruned s t) (h2 : Pruned t u) : Pruned s u := by
  refine ⟨fun x h => h1.live_le x (h2.live_le x h), ?_, fun x h => h2.dirty_mono x (h1.dirty_mono x h), ?_⟩
  · intro x
    rcases h2.par x with h | h
    · rw [h]; exact h1.par x
    · exact Or.inr h
  · intro x p hd hp
    rcases h2.closed x p hd hp with h | h
    · have hp' : (t.obj x).parent = some p := by
        rcases h2.par x with h3 | h3
        · rw [← h3]; exact hp
        · rw [h3] at hp; cases hp
      rcases h1.closed x p h hp' with h4 | h4
      · exact Or.inl h4
      · exact Or.inr (h2.dirty_mono p h4)
    · exact Or.inr h

theorem Pruned.keeps_upClosed {s t : Scene M} (h : Pruned s t) (hU : UpClosed s) : UpClosed t := by
  intro x p hl hp hd
  have hp' : (s.obj x).parent = some p := by
    rcases h.par x with h3 | h3
    · rw [← h3]; exact hp
    · rw [h3] at hp; cases hp
  rcases h.closed x p hd hp with h1 | h1
  · exact h.dirty_mono p (hU x p (h.live_le x hl) hp' h1)
  · exact h1

theorem Pruned.of_eq {s t : Scene M} (hl : t.live = s.live)
    (hp : ∀ x, (t.obj x).parent = (s.obj x).parent)
    (hd : ∀ x, (t.obj x).dirty = (s.obj x).dirty) : Pruned s t :=
  ⟨fun x h => by rw [← hl]; exact h, fun x => Or.inl (hp x),
    fun x h => by rw [hd]; exact h, fun x p h _ => Or.inl (by rw [← hd]; exact h)⟩

theorem Pruned.clearParent (s : Scene M) (c : Nat) :
    Pruned s (s.modObj c (fun r => r.withParent none)) := by
  refine ⟨fun x h => h, ?_, fun x h => by simpa using h, fun x p h _ => Or.inl (by simpa using h)⟩
  intro x
  by_cases hx : x = c
  · subst hx; exact Or.inr (by simp)
  · exact Or.inl (by simp [hx])

theorem Pruned.free (s : Scene M) (o : Nat) :
    Pruned s { s with live := upd s.live o false, freed := s.freed ++ [o] } := by
  refine ⟨?_, fun x => Or.inl rfl, fun x h => h, fun x p h _ => Or.inl h⟩
  intro x h
  by_cases hx : x = o
  · subst hx; simp at h
  · simpa [hx] using h

theorem set_dirty_true_pruned {fuel : Nat} {s t : Scene M} {o : Nat}
    (h : c3object_set_dirty fuel s o true = some t) : Pruned s t := by
  rw [set_dirty_true_eq] at h
  by_cases hr : reachesRoot s fuel (some o) = true
  · rw [if_pos hr] at h
    simp only [Option.some.injEq] at h
    subst h
    refine ⟨fun x h => by simpa using h, fun x => Or.inl (by simp),
      fun x h => by simp [h], ?_⟩
    intro x p hd hp
    simp only [markAll_obj, markGeometry_obj, c3object.withDirty_parent,
      c3object.withDirty_dirty, Bool.or_eq_true, decide_eq_true_eq] at hd hp ⊢
    rcases hd with hd | hd
    · exact Or.inr (Or.inl (chain_closed hr hd hp))
    · exact Or.inl hd
  · rw [if_neg hr] at h; cases h

theorem detachObject_pruned {fuel : Nat} {s t : Scene M} {x : Nat}
    (h : detachObject fuel s x = some t) : Pruned s t := by
  simp only [detachObject] at h
  cases hp : (s.obj x).parent with
  | none => simp only [hp, Option.some.injEq] at h; subst h; exact Pruned.refl_pruned _
  | some p =>
    simp only [hp] at h
    cases hf : findIndex (s.obj p).objects x with
    | none =>
      simp only [hf, Option.some.injEq] at h
      subst h
      exact Pruned.clearParent s x
    | some oi =>
      simp only [hf] at h
      cases hs : c3object_set_dirty fuel
          (s.modObj p (fun r => r.withObjects (c_array_delete r.objects oi 1))) p true with
      | none => simp [hs] at h
      | some s1 =>
        simp only [hs, Option.some.injEq] at h
        subst h
        have h0 : Pruned s (s.modObj p (fun r => r.withObjects (c_array_delete r.objects oi 1))) :=
          Pruned.of_eq rfl (fun y => by simp) (fun y => by simp)
        exact (h0.trans_pruned (set_dirty_true_pruned hs)).trans_pruned (Pruned.clearParent s1 x)

theorem iterM_pruned {f : Scene M → Nat → Option (Scene M)}
    (hf : ∀ s c t, f s c = some t → Pruned s t) (cs : List Nat) (s t : Scene M)
    (h : iterM f cs s = some t) : Pruned s t := by
  induction cs generalizing s with
  | nil =>
    simp only [iterM, Option.some.injEq] at h
    subst h; exact Pruned.refl_pruned _
  | cons c cs ih =>
    simp only [iterM] at h
    cases hc : f s c with
    | none => simp [hc] at h
    | some s1 =>
      simp only [hc] at h
      exact (hf s c s1 hc).trans_pruned (ih s1 h)

theorem clearTransforms_obj (s : Scene M) (ts : List Nat) :
    (ts.foldl (fun s t => c3transform_dispose (s.modXf t (fun r => r.withObject none)) t) s).obj
      = s.obj ∧
    (ts.foldl (fun s t => c3transform_dispose (s.modXf t (fun r => r.withObject none)) t) s).live
      = s.live := by
  induction ts generalizing s with
  | nil => exact ⟨rfl, rfl⟩
  | cons t ts ih =>
    simp only [List.foldl]
    exact ih _

theorem clearGeometry_obj (s : Scene M) (gs : List Nat) :
    (gs.foldl (fun s g => c3geometry_dispose (s.modGeo g (fun r => r.withObject none)) g) s).obj
      = s.obj ∧
    (gs.foldl (fun s g => c3geometry_dispose (s.modGeo g (fun r => r.withObject none)) g) s).live
      = s.live := by
  induction gs generalizing s with
  | nil => exact ⟨rfl, rfl⟩
  | cons g gs ih =>
    simp only [List.foldl]
    exact ih _

theorem clear_pruned {disp : Scene M → Nat → Option (Scene M)}
    (hdisp : ∀ s c t, disp s c = some t → Pruned s t) {s t : Scene M} {o : Nat}
    (h : _c3object_clear disp s o = some t) : Pruned s t := by
  simp only [_c3object_clear] at h
  generalize hs2 : List.foldl (fun s g => c3geometry_dispose
    (s.modGeo g (fun r => r.withObject none)) g) _ (s.obj o).geometry = s2 at h
  have h02 : Pruned s s2 := by
    subst hs2
    refine Pruned.of_eq ?_ ?_ ?_
    · rw [(clearGeometry_obj _ _).2, (clearTransforms_obj _ _).2]
    · intro x; rw [(clearGeometry_obj _ _).1, (clearTransforms_obj _ _).1]
    · intro x; rw [(clearGeometry_obj _ _).1, (clearTransforms_obj _ _).1]
  cases h3 : iterM (fun s c => disp (s.modObj c (fun r => r.withParent none)) c)
      (s.obj o).objects s2 with
  | none => simp [h3] at h
  | some s3 =>
    simp only [h3, Option.some.injEq] at h
    subst h
    have h23 := iterM_pruned (f := fun s c => disp (s.modObj c (fun r => r.withParent none)) c)
      (fun s c t hc => (Pruned.clearParent s c).trans_pruned (hdisp _ c t hc)) _ _ _ h3
    exact (h02.trans_pruned h23).trans_pruned (Pruned.of_eq rfl (fun y => by simp) (fun y => by simp))

theorem dispose_pruned (fuel : Nat) :
    ∀ (s : Scene M) (o : Nat) (t : Scene M), c3object_dispose fuel s o = some t →
      Pruned s t := by
  induction fuel with
  | zero => intro s o t h; simp [c3object_dispose] at h
  | succ n ih =>
    intro s o t h
    simp only [c3object_dispose] at h
    cases hc : _c3object_clear (c3object_dispose n) s o with
    | none => simp [hc] at h
    | some s1 =>
      simp only [hc, _c3object_dispose] at h
      cases hd : detachObject (n + 1) s1 o with
      | none => simp [hd] at h
      | some s2 =>
        simp only [hd, Option.some.injEq] at h
        subst h
        exact ((clear_pruned ih hc).trans_pruned (detachObject_pruned hd)).trans_pruned (Pruned.free s2 o)

/-! ## Parent/child symmetry under the operations -/

theorem Forest.congr_forest {s t : Scene M} (hF : Forest s) (hl : t.live = s.live)
    (hp : ∀ x, (t.obj x).parent = (s.obj x).parent)
    (ho : ∀ x, (t.obj x).objects = (s.obj x).objects) : Forest t :=
  ⟨fun o c h1 h2 => by
      rw [hl] at h1 ⊢; rw [ho] at h2; rw [hp]; exact hF.child o c h1 h2,
    fun c p h1 h2 => by
      rw [hl] at h1 ⊢; rw [hp] at h2; rw [ho]; exact hF.parent c p h1 h2⟩

theorem set_dirty_true_shape {fuel : Nat} {s t : Scene M} {o : Nat}
    (h : c3object_set_dirty fuel s o true = some t) :
    t.live = s.live ∧ (∀ x, (t.obj x).parent = (s.obj x).parent) ∧
      (∀ x, (t.obj x).objects = (s.obj x).objects) ∧
      (∀ x, (t.obj x).geometry = (s.obj x).geometry) := by
  rw [set_dirty_true_eq] at h
  split at h
  · simp only [Option.some.injEq] at h
    subst h
    exact ⟨by simp, fun x => by simp, fun x => by simp, fun x => by simp⟩
  · cases h

/-- The effect of the detaching block on liveness, parents and `objects` arrays. -/
theorem detachObject_effect {fuel : Nat} {s t : Scene M} {x : Nat}
    (h : detachObject fuel s x = some t) :
    t.live = s.live ∧
    (∀ y, (t.obj y).parent = if y = x then none else (s.obj y).parent) ∧
    (∀ y, (t.obj y).objects =
      if (s.obj x).parent = some y then (s.obj y).objects.erase x else (s.obj y).objects) := by
  simp only [detachObject] at h
  cases hp : (s.obj x).parent with
  | none =>
    simp only [hp, Option.some.injEq] at h
    subst h
    refine ⟨rfl, fun y => ?_, fun y => by simp⟩
    by_cases hy : y = x
    · subst hy; simp [hp]
    · simp [hy]
  | some p =>
    simp only [hp] at h
    have hpar : ∀ (u : Scene M) (y : Nat),
        ((u.modObj x (fun r => r.withParent none)).obj y).parent
          = if y = x then none else (u.obj y).parent := by
      intro u y
      by_cases hy : y = x
      · subst hy; simp
      · simp [hy]
    cases hf : findIndex (s.obj p).objects x with
    | none =>
      simp only [hf, Option.some.injEq] at h
      subst h
      refine ⟨rfl, hpar s, fun y => ?_⟩
      by_cases hy : p = y
      · subst hy
        simp [List.erase_of_not_mem (findIndex_eq_none.mp hf)]
      · have : ¬ some p = some y := fun h => hy (Option.some.inj h)
        simp [this]
    | some oi =>
      simp only [hf] at h
      cases hs : c3object_set_dirty fuel
          (s.modObj p (fun r => r.withObjects (c_array_delete r.objects oi 1))) p true with
      | none => simp [hs] at h
      | some s1 =>
        simp only [hs, Option.some.injEq] at h
        subst h
        obtain ⟨h1, h2, h3, _⟩ := set_dirty_true_shape hs
        refine ⟨by simp [h1], fun y => ?_, fun y => ?_⟩
        · rw [hpar s1 y, h2]; simp
        · simp only [modObj_objects_frame, c3object.withParent_objects, h3]
          by_cases hy : y = p
          · subst hy
            simp [delete_findIndex hf]
          · have : ¬ some p = some y := fun h => hy (Option.some.inj h).symm
            simp [hy, this]

/-- The effect of `c3object_add_object` on liveness, parents and `objects` arrays. -/
theorem add_object_effect {fuel : Nat} {s t : Scene M} {o : Option Nat} {sub : Nat}
    (h : c3object_add_object fuel s o sub = some t) (hne : (s.obj sub).parent ≠ o) :
    t.live = s.live ∧
    (∀ y, (t.obj y).parent = if y = sub then o else (s.obj y).parent) ∧
    (∀ y, (t.obj y).objects =
      (if (s.obj sub).parent = some y then (s.obj y).objects.erase sub else (s.obj y).objects)
        ++ (if o = some y then [sub] else [])) := by
  simp only [c3object_add_object, hne, if_false] at h
  cases hd : detachObject fuel s sub with
  | none => simp [hd] at h
  | some s1 =>
    simp only [hd] at h
    obtain ⟨h1, h2, h3⟩ := detachObject_effect hd
    have hpar : ∀ y, ((s1.modObj sub (fun r => r.withParent o)).obj y).parent
        = if y = sub then o else (s.obj y).parent := by
      intro y
      by_cases hy : y = sub
      · subst hy; simp
      · simp [hy, h2]
    cases o with
    | none =>
      simp only [Option.some.injEq] at h
      subst h
      exact ⟨h1, hpar, fun y => by simp [h3]⟩
    | some o =>
      simp only at h
      obtain ⟨k1, k2, k3, _⟩ := set_dirty_true_shape h
      refine ⟨by rw [k1]; simpa using h1, fun y => by rw [k2]; simpa using hpar y, fun y => ?_⟩
      rw [k3]
      by_cases hy : y = o
      · subst hy; simp [h3, c_array_add]
      · have : ¬ o = y := fun h => hy h.symm
        simp [hy, h3, this]

theorem add_object_forest {fuel : Nat} {s t : Scene M} {o : Option Nat} {sub : Nat}
    (hF : Forest s) (hsub : s.live sub = true) (ho : liveOrNull s o = true)
    (h : c3object_add_object fuel s o sub = some t) : Forest t := by
  by_cases hne : (s.obj sub).parent = o
  · simp only [c3object_add_object, hne, if_true, Option.some.injEq] at h
    subst h; exact hF
  obtain ⟨h1, h2, h3⟩ := add_object_effect h hne
  have hmem : ∀ y c, c ∈ (if (s.obj sub).parent = some y then (s.obj y).objects.erase sub
      else (s.obj y).objects) → c ∈ (s.obj y).objects := by
    intro y c hc
    split at hc
    · exact List.mem_of_mem_erase hc
    · exact hc
  constructor
  · intro x c hl hc
    rw [h1] at hl ⊢
    rw [h3, List.mem_append] at hc
    rw [h2]
    rcases hc with hc | hc
    · have hcs := hmem x c hc
      obtain ⟨hcl, hcp⟩ := hF.child x c hl hcs
      refine ⟨hcl, ?_⟩
      by_cases hcsub : c = sub
      · subst hcsub
        rw [if_pos hcp] at hc
        exact absurd hc (not_mem_erase_of_count_one (hF.parent c x hsub hcp).2)
      · simp [hcsub, hcp]
    · split at hc
      · rename_i hox
        simp only [List.mem_singleton] at hc
        subst hc
        exact ⟨hsub, by simp [hox]⟩
      · simp at hc
  · intro c p hl hp
    rw [h1] at hl ⊢
    rw [h2] at hp
    rw [h3, List.count_append]
    by_cases hcsub : c = sub
    · subst hcsub
      simp only [if_true] at hp
      subst hp
      have hpl : s.live p = true := by simpa [liveOrNull] using ho
      refine ⟨hpl, ?_⟩
      have hnp : ¬ (s.obj c).parent = some p := hne
      have hnot : c ∉ (s.obj p).objects := fun hm => hnp (hF.child p c hpl hm).2
      simp [hnp, List.count_eq_zero_of_not_mem hnot]
    · simp only [hcsub, if_false] at hp
      obtain ⟨hpl, hcnt⟩ := hF.parent c p hl hp
      refine ⟨hpl, ?_⟩
      have e1 : List.count c (if (s.obj sub).parent = some p then (s.obj p).objects.erase sub
          else (s.obj p).objects) = 1 := by
        split
        · rw [List.count_erase_of_ne hcsub]; exact hcnt
        · exact hcnt
      have e2 : List.count c (if o = some p then [sub] else []) = 0 := by
        split
        · simp [hcsub]
        · simp
      rw [e1, e2]

theorem add_geometry_forest {fuel : Nat} {s t : Scene M} {o : Option Nat} {g : Nat}
    (hF : Forest s) (h : c3object_add_geometry fuel s o g = some t) : Forest t := by
  simp only [c3object_add_geometry] at h
  by_cases hpo : (s.geo g).object = o
  · simp only [hpo, if_true, Option.some.injEq] at h; subst h; exact hF
  · simp only [hpo, if_false] at h
    have hdet : ∀ s1, detachGeometry fuel s g = some s1 → Forest s1 := by
      intro s1 hd
      simp only [detachGeometry] at hd
      cases hp : (s.geo g).object with
      | none => simp only [hp, Option.some.injEq] at hd; subst hd; exact hF
      | some p =>
        simp only [hp] at hd
        cases hf : findIndex (s.obj p).geometry g with
        | none =>
          simp only [hf, Option.some.injEq] at hd
          subst hd
          exact hF.congr_forest rfl (fun _ => rfl) (fun _ => rfl)
        | some oi =>
          simp only [hf] at hd
          cases hs : c3object_set_dirty fuel
              (s.modObj p (fun r => r.withGeometry (c_array_delete r.geometry oi 1))) p true with
          | none => simp [hs] at hd
          | some s2 =>
            simp only [hs, Option.some.injEq] at hd
            subst hd
            obtain ⟨k1, k2, k3, _⟩ := set_dirty_true_shape hs
            exact hF.congr_forest (by simp [k1]) (fun x => by simp [k2]) (fun x => by simp [k3])
    cases hd : detachGeometry fuel s g with
    | none => simp [hd] at h
    | some s1 =>
      simp only [hd] at h
      have h1 := hdet s1 hd
      cases o with
      | none =>
        simp only [Option.some.injEq] at h
        subst h
        exact h1.congr_forest rfl (fun _ => rfl) (fun _ => rfl)
      | some o =>
        simp only at h
        obtain ⟨k1, k2, k3, _⟩ := set_dirty_true_shape h
        exact h1.congr_forest (by simp [k1]) (fun x => by simp [k2]) (fun x => by simp [k3])

theorem init_forest [Mat4 M] {s : Scene M} {node : Nat} {parent : Option Nat}
    (hF : Forest s) (hfresh : s.live node = false) (hp : liveOrNull s parent = true) :
    Forest (c3object_init s node parent) := by
  -- no live object refers to the fresh node
  have hnochild : ∀ x, s.live x = true → node ∉ (s.obj x).objects := by
    intro x hx hm
    have := (hF.child x node hx hm).1
    rw [hfresh] at this; cases this
  have hnopar : ∀ x, s.live x = true → (s.obj x).parent ≠ some node := by
    intro x hx hpx
    have := (hF.parent x node hx hpx).1
    rw [hfresh] at this; cases this
  have hlive : ∀ x, (c3object_init s node parent).live x = (decide (x = node) || s.live x) := by
    intro x
    by_cases hx : x = node <;> cases parent <;> simp [c3object_init, hx]
  have hparent : ∀ x, ((c3object_init s node parent).obj x).parent
      = if x = node then parent else (s.obj x).parent := by
    intro x
    cases parent with
    | none => by_cases hx : x = node <;> simp [c3object_init, hx]
    | some q =>
      by_cases hx : x = node
      · subst hx
        by_cases hq : x = q
        · subst hq; simp [c3object_init, Scene.modObj]
        · simp [c3object_init, Scene.modObj, hq]
      · by_cases hq : x = q
        · subst hq; simp [c3object_init, Scene.modObj, hx]
        · simp [c3object_init, Scene.modObj, hx, hq]
  have hpn : parent ≠ some node := by
    intro h
    subst h
    simp [liveOrNull, hfresh] at hp
  have hobjects : ∀ x, ((c3object_init s node parent).obj x).objects
      = if x = node then [] else
          (s.obj x).objects ++ (if parent = some x then [node] else []) := by
    intro x
    cases parent with
    | none => by_cases hx : x = node <;> simp [c3object_init, hx]
    | some q =>
      have hqn : q ≠ node := fun h => hpn (by rw [h])
      by_cases hx : x = node
      · subst hx
        have hxq : x ≠ q := fun h => hqn h.symm
        simp [c3object_init, Scene.modObj, hqn, hxq]
      · by_cases hq : x = q
        · subst hq; simp [c3object_init, Scene.modObj, hx, c_array_add]
        · have : ¬ q = x := fun h => hq h.symm
          simp [c3object_init, Scene.modObj, hx, hq, this]
  constructor
  · intro x c hl hc
    rw [hlive] at hl
    rw [hobjects] at hc
    rw [hlive, hparent]
    by_cases hx : x = node
    · simp [hx] at hc
    · simp only [hx, decide_False, Bool.false_or, if_false, List.mem_append] at hl hc
      rcases hc with hc | hc
      · obtain ⟨h1, h2⟩ := hF.child x c hl hc
        have hcn : c ≠ node := fun h => by rw [h, hfresh] at h1; cases h1
        simp [hcn, h1, h2]
      · split at hc
        · rename_i hpx
          simp only [List.mem_singleton] at hc
          subst hc
          simp [hpx]
        · simp at hc
  · intro c p hl hpc
    rw [hlive] at hl
    rw [hparent] at hpc
    rw [hlive, hobjects]
    by_cases hc : c = node
    · subst hc
      simp only [if_true] at hpc
      subst hpc
      have hpl : s.live p = true := by simpa [liveOrNull] using hp
      have hpne : p ≠ c := fun h => hpn (by rw [h])
      simp [hpne, hpl, List.count_eq_zero_of_not_mem (hnochild p hpl)]
    · simp only [hc, decide_False, Bool.false_or, if_false] at hl hpc
      obtain ⟨h1, h2⟩ := hF.parent c p hl hpc
      have hpne : p ≠ node := fun h => by rw [h, hfresh] at h1; cases h1
      have hcne : ¬ node = c := fun h => hc h.symm
      simp only [hpne, decide_False, Bool.false_or, h1, if_false, List.count_append, h2,
        true_and]
      split
      · rw [List.count_eq_zero_of_not_mem (fun h => hc (List.mem_singleton.mp h))]
      · rfl

/-! ## What `c3object_dispose` kills -/

theorem Desc.of_sub {s t : Scene M}
    (h : ∀ x c, c ∈ (t.obj x).objects → c ∈ (s.obj x).objects) {a b : Nat}
    (hd : Desc t a b) : Desc s a b := by
  induction hd with
  | refl => exact Desc.refl _
  | step hc _ ih => exact Desc.step (h _ _ hc) ih

theorem Reaped.refl_reaped (s : Scene M) : Reaped s s [] :=
  ⟨fun _ h => h, fun _ _ => rfl, fun _ _ h => h, (by simp),
    fun x h1 h2 => (by rw [h1] at h2; cases h2),
    fun x h1 h2 => (by rw [h1] at h2; cases h2),
    fun x h => absurd rfl h⟩

theorem Reaped.congr_left {s s' t : Scene M} {roots : List Nat} (h : Reaped s' t roots)
    (ho : s'.obj = s.obj) (hl : s'.live = s.live) : Reaped s t roots := by
  have hd : ∀ a b, Desc s' a b → Desc s a b :=
    fun a b hab => Desc.of_sub (fun x c hc => by rw [← ho]; exact hc) hab
  refine ⟨fun x hx => by rw [← hl]; exact h.live_le x hx,
    fun x hx => by rw [← ho]; exact h.keep x hx,
    fun x c hc => by rw [← ho]; exact h.sub x c hc,
    h.roots_dead,
    fun x h1 h2 c hc => h.down x (by rw [hl]; exact h1) h2 c (by rw [ho]; exact hc),
    fun x h1 h2 => ?_, fun x hx => ?_⟩
  · obtain ⟨c, hc, hcx⟩ := h.up x (by rw [hl]; exact h1) h2
    exact ⟨c, hc, hd _ _ hcx⟩
  · obtain ⟨c, hc, hcx⟩ := h.pnull x (by rw [ho]; exact hx)
    exact ⟨c, hc, hd _ _ hcx⟩

/-- Clearing the parent of `c` and then disposing of it. -/
theorem Reaped.detached {s t : Scene M} {c : Nat}
    (h : Reaped (s.modObj c (fun r => r.withParent none)) t [c]) : Reaped s t [c] := by
  have hobjs : ∀ x, ((s.modObj c (fun r => r.withParent none)).obj x).objects
      = (s.obj x).objects := fun x => by simp
  have hd : ∀ a b, Desc (s.modObj c (fun r => r.withParent none)) a b → Desc s a b :=
    fun a b hab => Desc.of_sub (fun x c' hc' => by rw [← hobjs]; exact hc') hab
  have hcdead : t.live c = false := h.roots_dead c (by simp)
  refine ⟨fun x hx => h.live_le x hx, fun x hx => ?_,
    fun x c' hc' => by rw [← hobjs]; exact h.sub x c' hc', h.roots_dead,
    fun x h1 h2 c' hc' => h.down x h1 h2 c' (by rw [hobjs]; exact hc'),
    fun x h1 h2 => ?_, fun x hx => ?_⟩
  · have hxc : x ≠ c := fun hxc => by rw [hxc, hcdead] at hx; cases hx
    rw [h.keep x hx, modObj_obj_ne _ _ hxc]
  · obtain ⟨c', hc', hcx⟩ := h.up x h1 h2
    exact ⟨c', hc', hd _ _ hcx⟩
  · by_cases hxc : x = c
    · exact ⟨c, by simp, hxc ▸ Desc.refl _⟩
    · have : (t.obj x).parent ≠ ((s.modObj c (fun r => r.withParent none)).obj x).parent := by
        rw [modObj_obj_ne _ _ hxc]; exact hx
      obtain ⟨c', hc', hcx⟩ := h.pnull x this
      exact ⟨c', hc', hd _ _ hcx⟩

theorem Reaped.cons {s t1 t : Scene M} {c : Nat} {cs : List Nat}
    (h1 : Reaped s t1 [c]) (h2 : Reaped t1 t cs) : Reaped s t (c :: cs) := by
  have hd : ∀ a b, Desc t1 a b → Desc s a b := fun a b hab => Desc.of_sub h1.sub hab
  have hdead : ∀ x, t1.live x = false → t.live x = false := by
    intro x hx
    by_contra hne
    have := h2.live_le x (by simpa using hne)
    rw [hx] at this; cases this
  refine ⟨fun x hx => h1.live_le x (h2.live_le x hx),
    fun x hx => by rw [h2.keep x hx, h1.keep x (h2.live_le x hx)],
    fun x c' hc' => h1.sub x c' (h2.sub x c' hc'), ?_, ?_, ?_, ?_⟩
  · intro c' hc'
    rcases List.mem_cons.mp hc' with h | h
    · subst h; exact hdead _ (h1.roots_dead _ (by simp))
    · exact h2.roots_dead c' h
  · intro x hs ht c' hc'
    by_cases hx1 : t1.live x = true
    · exact h2.down x hx1 ht c' (by rw [h1.keep x hx1]; exact hc')
    · exact hdead _ (h1.down x hs (by simpa using hx1) c' hc')
  · intro x hs ht
    by_cases hx1 : t1.live x = true
    · obtain ⟨c', hc', hcx⟩ := h2.up x hx1 ht
      exact ⟨c', List.mem_cons_of_mem _ hc', hd _ _ hcx⟩
    · obtain ⟨c', hc', hcx⟩ := h1.up x hs (by simpa using hx1)
      simp only [List.mem_singleton] at hc'
      subst hc'
      exact ⟨c', List.mem_cons_self _ _, hcx⟩
  · intro x hx
    by_cases hx1 : (t1.obj x).parent = (s.obj x).parent
    · obtain ⟨c', hc', hcx⟩ := h2.pnull x (by rw [hx1]; exact hx)
      exact ⟨c', List.mem_cons_of_mem _ hc', hd _ _ hcx⟩
    · obtain ⟨c', hc', hcx⟩ := h1.pnull x hx1
      simp only [List.mem_singleton] at hc'
      subst hc'
      exact ⟨c', List.mem_cons_self _ _, hcx⟩

theorem iterM_reaped {disp : Scene M → Nat → Option (Scene M)}
    (hdisp : ∀ s c t, disp s c = some t → (s.obj c).parent = none → Reaped s t [c])
    (cs : List Nat) (s t : Scene M)
    (h : iterM (fun s c => disp (s.modObj c (fun r => r.withParent none)) c) cs s = some t) :
    Reaped s t cs := by
  induction cs generalizing s with
  | nil =>
    simp only [iterM, Option.some.injEq] at h
    subst h; exact Reaped.refl_reaped _
  | cons c cs ih =>
    simp only [iterM] at h
    cases hc : disp (s.modObj c (fun r => r.withParent none)) c with
    | none => simp [hc] at h
    | some s1 =>
      simp only [hc] at h
      exact (Reaped.detached (hdisp _ c s1 hc (by simp))).cons (ih s1 h)

/-- The loop of `_c3object_clear` over the children, and the state it leaves. -/
theorem clear_reaped {disp : Scene M → Nat → Option (Scene M)}
    (hdisp : ∀ s c t, disp s c = some t → (s.obj c).parent = none → Reaped s t [c])
    {s u : Scene M} {o : Nat} (h : _c3object_clear disp s o = some u) :
    ∃ t3, Reaped s t3 (s.obj o).objects ∧ u.live = t3.live ∧
      (∀ x, (u.obj x).parent = (t3.obj x).parent) ∧
      (∀ x, x ≠ o → u.obj x = t3.obj x) ∧ (u.obj o).objects = [] := by
  simp only [_c3object_clear] at h
  generalize hs2 : List.foldl (fun s g => c3geometry_dispose
    (s.modGeo g (fun r => r.withObject none)) g) _ (s.obj o).geometry = s2 at h
  have ho2 : s2.obj = s.obj := by
    subst hs2; rw [(clearGeometry_obj _ _).1, (clearTransforms_obj _ _).1]
  have hl2 : s2.live = s.live := by
    subst hs2; rw [(clearGeometry_obj _ _).2, (clearTransforms_obj _ _).2]
  cases h3 : iterM (fun s c => disp (s.modObj c (fun r => r.withParent none)) c)
      (s.obj o).objects s2 with
  | none => simp [h3] at h
  | some t3 =>
    simp only [h3, Option.some.injEq] at h
    subst h
    exact ⟨t3, (iterM_reaped hdisp _ _ _ h3).congr_left ho2 hl2, rfl, fun x => by simp,
      fun x hx => by simp [hx], (by simp)⟩

/-- Disposing of an object without parent. -/
theorem dispose_reaped (fuel : Nat) :
    ∀ (s : Scene M) (o : Nat) (t : Scene M), c3object_dispose fuel s o = some t →
      (s.obj o).parent = none → Reaped s t [o] := by
  induction fuel with
  | zero => intro s o t h; simp [c3object_dispose] at h
  | succ n ih =>
    intro s o t h hpo
    simp only [c3object_dispose] at h
    cases hc : _c3object_clear (c3object_dispose n) s o with
    | none => simp [hc] at h
    | some u =>
      simp only [hc, _c3object_dispose] at h
      obtain ⟨t3, hR, hul, hup, huo, _⟩ := clear_reaped ih hc
      have hpu : (u.obj o).parent = none := by
        rcases (clear_pruned (dispose_pruned n) hc).par o with h1 | h1
        · rw [h1]; exact hpo
        · exact h1
      simp only [detachObject, hpu, Option.some.injEq] at h
      subst h
      have hlive : ∀ x, (upd u.live o false) x = true → x ≠ o ∧ t3.live x = true := by
        intro x hx
        by_cases hxo : x = o
        · subst hxo; simp at hx
        · rw [upd_ne _ _ hxo, hul] at hx; exact ⟨hxo, hx⟩
      refine ⟨fun x hx => hR.live_le x (hlive x hx).2, fun x hx => ?_, fun x c hc' => ?_,
        (by simp), ?_, ?_, ?_⟩
      · obtain ⟨hxo, hx3⟩ := hlive x hx
        show u.obj x = s.obj x
        rw [huo x hxo, hR.keep x hx3]
      · by_cases hxo : x = o
        · subst hxo
          have : (u.obj x).objects = [] := by assumption
          change c ∈ (u.obj x).objects at hc'
          rw [this] at hc'; cases hc'
        · change c ∈ (u.obj x).objects at hc'
          rw [huo x hxo] at hc'
          exact hR.sub x c hc'
      · intro x hs ht c hc'
        have hdead3 : ∀ y, t3.live y = false → upd u.live o false y = false := by
          intro y hy
          by_cases hyo : y = o
          · subst hyo; simp
          · rw [upd_ne _ _ hyo, hul]; exact hy
        by_cases hx3 : t3.live x = true
        · have hxo : x = o := by
            by_contra hxo
            change upd u.live o false x = false at ht
            rw [upd_ne _ _ hxo, hul, hx3] at ht
            cases ht
          subst hxo
          exact hdead3 c (hR.roots_dead c hc')
        · exact hdead3 c (hR.down x hs (by simpa using hx3) c hc')
      · intro x hs ht
        by_cases hx3 : t3.live x = true
        · have hxo : x = o := by
            by_contra hxo
            change upd u.live o false x = false at ht
            rw [upd_ne _ _ hxo, hul, hx3] at ht
            cases ht
          exact ⟨o, by simp, hxo ▸ Desc.refl _⟩
        · obtain ⟨c, hc', hcx⟩ := hR.up x hs (by simpa using hx3)
          exact ⟨o, by simp, Desc.step hc' hcx⟩
      · intro x hx
        change (u.obj x).parent ≠ (s.obj x).parent at hx
        rw [hup] at hx
        obtain ⟨c, hc', hcx⟩ := hR.pnull x hx
        exact ⟨o, by simp, Desc.step hc' hcx⟩

/-- Below an object that died every object is dead. -/
theorem Reaped.region_dead {s t : Scene M} {roots : List Nat} (h : Reaped s t roots)
    (hF : Forest s) {y d : Nat} (hy : s.live y = true) (hdead : t.live y = false)
    (hd : Desc s y d) : t.live d = false := by
  induction hd with
  | refl => exact hdead
  | step hc _ ih => exact ih (hF.child _ _ hy hc).1 (h.down _ hy hdead _ hc)

theorem clear_forest {fuel : Nat} {s u : Scene M} {o : Nat} (hF : Forest s)
    (hlive : s.live o = true) (h : c3object_clear fuel s o = some u) : Forest u := by
  obtain ⟨t3, hR, hul, hup, huo, hempty⟩ := clear_reaped (dispose_reaped fuel) h
  have hregion : ∀ c ∈ (s.obj o).objects, ∀ d, Desc s c d → t3.live d = false :=
    fun c hc d hd => hR.region_dead hF (hF.child o c hlive hc).1 (hR.roots_dead c hc) hd
  constructor
  · intro x c hx hc
    rw [hul] at hx ⊢
    have hxo : x ≠ o := by
      intro hxo; subst hxo; rw [hempty] at hc; cases hc
    rw [huo x hxo, hR.keep x hx] at hc
    obtain ⟨hcl, hcp⟩ := hF.child x c (hR.live_le x hx) hc
    have hc3 : t3.live c = true := by
      by_contra hne
      obtain ⟨c0, hc0, hd⟩ := hR.up c hcl (by simpa using hne)
      rcases hd.last with h1 | ⟨y, hy, hcy⟩
      · subst h1
        have := (hF.child o c0 hlive hc0).2
        rw [hcp] at this
        exact hxo (Option.some.inj this)
      · have hyl : s.live y = true := hF.desc_live hlive (Desc.step hc0 hy)
        have := (hF.child y c hyl hcy).2
        rw [hcp] at this
        cases this
        have := hregion c0 hc0 x hy
        rw [hx] at this; cases this
    refine ⟨hc3, ?_⟩
    rw [hup, hR.keep c hc3]; exact hcp
  · intro c p hc hp
    rw [hul] at hc ⊢
    rw [hup, hR.keep c hc] at hp
    obtain ⟨hpl, hcnt⟩ := hF.parent c p (hR.live_le c hc) hp
    have hmem : c ∈ (s.obj p).objects := List.count_pos_iff.mp (by omega)
    have hp3 : t3.live p = true := by
      by_contra hne
      have := hR.down p hpl (by simpa using hne) c hmem
      rw [hc] at this; cases this
    refine ⟨hp3, ?_⟩
    have hpo : p ≠ o := by
      intro hpo; subst hpo
      have := hR.roots_dead c hmem
      rw [hc] at this; cases this
    rw [huo p hpo, hR.keep p hp3]; exact hcnt

theorem dispose_forest {fuel : Nat} {s t : Scene M} {o : Nat} (hF : Forest s)
    (hlive : s.live o = true) (h : c3object_dispose fuel s o = some t) : Forest t := by
  cases fuel with
  | zero => simp [c3object_dispose] at h
  | succ n =>
    simp only [c3object_dispose] at h
    cases hc : _c3object_clear (c3object_dispose n) s o with
    | none => simp [hc] at h
    | some u =>
      simp only [hc, _c3object_dispose] at h
      cases hd : detachObject (n + 1) u o with
      | none => simp [hd] at h
      | some u2 =>
        simp only [hd, Option.some.injEq] at h
        obtain ⟨t3, hR, hul, hup, huo, hempty⟩ := clear_reaped (dispose_reaped n) hc
        obtain ⟨e1, e2, e3⟩ := detachObject_effect hd
        -- liveness after the call
        have hl : ∀ x, t.live x = true ↔ x ≠ o ∧ t3.live x = true := by
          intro x
          subst h
          by_cases hxo : x = o
          · subst hxo; simp
          · simp [hxo, e1, hul]
        have hdeadt : ∀ x, t3.live x = false → t.live x = false := by
          intro x hx
          by_contra hne
          have := ((hl x).mp (by simpa using hne)).2
          rw [hx] at this; cases this
        have hobj : t.obj = u2.obj := by subst h; rfl
        -- the children of an object that died are dead
        have hdown : ∀ x, s.live x = true → t.live x = false →
            ∀ c ∈ (s.obj x).objects, t.live c = false := by
          intro x hs ht c hcx
          by_cases hx3 : t3.live x = true
          · have hxo : x = o := by
              by_contra hxo
              have := (hl x).mpr ⟨hxo, hx3⟩
              rw [ht] at this; cases this
            subst hxo
            exact hdeadt c (hR.roots_dead c hcx)
          · exact hdeadt c (hR.down x hs (by simpa using hx3) c hcx)
        have hodead : t.live o = false := by
          by_contra hne
          exact ((hl o).mp (by simpa using hne)).1 rfl
        -- every object below `o` is dead
        have hregion : ∀ y d, s.live y = true → t.live y = false → Desc s y d →
            t.live d = false := by
          intro y d hy hdead hd'
          induction hd' with
          | refl => exact hdead
          | step hc' _ ih => exact ih (hF.child _ _ hy hc').1 (hdown _ hy hdead _ hc')
        -- an object that died lies below `o`
        have hup' : ∀ x, s.live x = true → t.live x = false → Desc s o x := by
          intro x hs ht
          by_cases hx3 : t3.live x = true
          · have hxo : x = o := by
              by_contra hxo
              have := (hl x).mpr ⟨hxo, hx3⟩
              rw [ht] at this; cases this
            exact hxo ▸ Desc.refl _
          · obtain ⟨c, hc', hcx⟩ := hR.up x hs (by simpa using hx3)
            exact Desc.step hc' hcx
        -- the records of the survivors
        have hsurv : ∀ x, t.live x = true → (t.obj x).parent = (s.obj x).parent ∧
            (t.obj x).objects = if (u.obj o).parent = some x then (s.obj x).objects.erase o
              else (s.obj x).objects := by
          intro x hx
          obtain ⟨hxo, hx3⟩ := (hl x).mp hx
          rw [hobj, e2, e3, if_neg hxo, huo x hxo, hR.keep x hx3]
          exact ⟨rfl, rfl⟩
        have hsub : ∀ x c, t.live x = true → c ∈ (t.obj x).objects → c ∈ (s.obj x).objects := by
          intro x c hx hcx
          rw [(hsurv x hx).2] at hcx
          split at hcx
          · exact List.mem_of_mem_erase hcx
          · exact hcx
        -- `o` has left the array of its parent
        have hgone : ∀ x, t.live x = true → o ∉ (t.obj x).objects := by
          intro x hx hox
          have hxs : s.live x = true := hR.live_le x ((hl x).mp hx).2
          have hpo : (s.obj o).parent = some x := (hF.child x o hxs (hsub x o hx hox)).2
          have hkeep : (t3.obj o).parent = (s.obj o).parent := by
            by_contra hne
            obtain ⟨c, hc', hco⟩ := hR.pnull o hne
            rcases hco.last with h1 | ⟨y, hy, hoy⟩
            · rw [h1] at hc'
              have := (hF.child o o hlive hc').2
              rw [hpo] at this
              exact ((hl x).mp hx).1 (Option.some.inj this)
            · have hyl : s.live y = true := hF.desc_live hlive (Desc.step hc' hy)
              have := (hF.child y o hyl hoy).2
              rw [hpo] at this
              cases this
              have := hregion o x hlive hodead (Desc.step hc' hy)
              rw [hx] at this; cases this
          rw [(hsurv x hx).2, hup, hkeep, if_pos hpo] at hox
          exact not_mem_erase_of_count_one (hF.parent o x hlive hpo).2 hox
        constructor
        · intro x c hx hcx
          have hxs : s.live x = true := hR.live_le x ((hl x).mp hx).2
          have hcs := hsub x c hx hcx
          obtain ⟨hcl, hcp⟩ := hF.child x c hxs hcs
          have hct : t.live c = true := by
            by_contra hne
            have hdesc := hup' c hcl (by simpa using hne)
            rcases hdesc.last with h1 | ⟨y, hy, hcy⟩
            · rw [← h1] at hcx; exact hgone x hx hcx
            · have hyl : s.live y = true := hF.desc_live hlive hy
              have := (hF.child y c hyl hcy).2
              rw [hcp] at this
              cases this
              have := hregion o x hlive hodead hy
              rw [hx] at this; cases this
          exact ⟨hct, by rw [(hsurv c hct).1]; exact hcp⟩
        · intro c p hct hp
          rw [(hsurv c hct).1] at hp
          have hcs : s.live c = true := hR.live_le c ((hl c).mp hct).2
          obtain ⟨hpl, hcnt⟩ := hF.parent c p hcs hp
          have hmem : c ∈ (s.obj p).objects := List.count_pos_iff.mp (by omega)
          have hpt : t.live p = true := by
            by_contra hne
            have := hdown p hpl (by simpa using hne) c hmem
            rw [hct] at this; cases this
          refine ⟨hpt, ?_⟩
          rw [(hsurv p hpt).2]
          split
          · rw [List.count_erase_of_ne ((hl c).mp hct).1]; exact hcnt
          · exact hcnt

theorem DirtyAncestors.to_upClosed {s : Scene M} (h : DirtyAncestors s) : UpClosed s :=
  fun x p hl hp hd => h x p hl hd (Anc.parent hp)

theorem UpClosed.dirtyAncestors {s : Scene M} (hF : Forest s) (hU : UpClosed s) :
    DirtyAncestors s := by
  intro x a hl hd ha
  induction ha with
  | parent hp => exact hU _ _ hl hp hd
  | step hp _ ih => exact ih (hF.parent _ _ hl hp).1 (hU _ _ hl hp hd)

/-- Every legal call that returns keeps parent/child symmetry. -/
theorem Op.run_forest [Mat4 M] {fuel : Nat} {s t : Scene M} {op : Op M} (hF : Forest s)
    (hlegal : op.legal s = true) (hrun : op.run fuel s = some t) : Forest t := by
  cases op with
  | init node parent =>
    simp only [Op.run, Option.some.injEq] at hrun
    subst hrun
    simp only [Op.legal, Bool.and_eq_true, Bool.not_eq_true'] at hlegal
    exact init_forest hF hlegal.1 hlegal.2
  | add_object o sub =>
    simp only [Op.legal, Bool.and_eq_true] at hlegal
    exact add_object_forest hF hlegal.1 hlegal.2 hrun
  | add_geometry o g => exact add_geometry_forest hF hrun
  | set_dirty o dirty =>
    cases dirty with
    | true =>
      obtain ⟨k1, k2, k3, _⟩ := set_dirty_true_shape hrun
      exact hF.congr_forest k1 k2 k3
    | false =>
      simp only [Op.run, c3object_set_dirty] at hrun
      exact (cleanDown_touched fuel s o t (by simpa using hrun)).shape.forest hF
  | project o m => exact (project_sameShape hrun).forest hF
  | clear o => exact clear_forest hF hlegal hrun
  | dispose o => exact dispose_forest hF hlegal hrun

/-- C1: parent/child symmetry is an invariant.  Starting from a forest, that is a state in
which (a) every element of the `objects` of a live object `o` is a live object with parent
`o` and (b) every live object with a non-null parent occurs exactly once in the `objects` of
that parent, after any finite sequence of legal calls that return (`c3object_init` on a
fresh node, `c3object_add_object` and `c3object_dispose`, and also the other operations of
`c3object.c`), (a) and (b) hold again for every object that is live, that is, has not been
disposed. -/
theorem forest_invariant [Mat4 M] (fuel : Nat) (ops : List (Op M)) (s t : Scene M)
    (hF : Forest s) (hrun : runOps fuel s ops = some t) : Forest t := by
  induction ops generalizing s with
  | nil =>
    simp only [runOps, Option.some.injEq] at hrun
    subst hrun; exact hF
  | cons op ops ih =>
    simp only [runOps] at hrun
    by_cases hl : op.legal s = true
    · rw [if_pos hl] at hrun
      cases h1 : op.run fuel s with
      | none => simp [h1] at hrun
      | some s1 =>
        simp only [h1] at hrun
        exact ih s1 (Op.run_forest hF hl h1) hrun
    · rw [if_neg hl] at hrun; cases hrun

/-- The one-step form of upward-closed dirtiness is kept by every legal call. -/
theorem Op.run_upClosed [Mat4 M] {fuel : Nat} {s t : Scene M} {op : Op M}
    (hF : Forest s) (hU : UpClosed s) (hlegal : op.legal s = true)
    (hrun : op.run fuel s = some t) : UpClosed t := by
  cases op with
  | init node parent =>
    simp only [Op.run, Option.some.injEq] at hrun
    subst hrun
    simp only [Op.legal, Bool.and_eq_true, Bool.not_eq_true'] at hlegal
    exact init_upClosed hF hU hlegal.1
  | add_object o sub => exact add_object_upClosed hU hrun
  | add_geometry o g => exact add_geometry_upClosed hU hrun
  | set_dirty o dirty =>
    cases dirty with
    | true => exact set_dirty_true_upClosed (hU.but s none) (Or.inl rfl) hrun
    | false =>
      simp only [Op.run, c3object_set_dirty] at hrun
      exact cleanDown_upClosed fuel s o t (by simpa using hrun) hF hU
  | project o m => exact project_upClosed fuel s o m t hrun hF hU
  | clear o => exact (clear_pruned (dispose_pruned fuel) hrun).keeps_upClosed hU
  | dispose o => exact (dispose_pruned fuel s o t hrun).keeps_upClosed hU

/-- C4: upward-closed dirtiness is preserved by every operation.  If in a forest every dirty
live object has only dirty ancestors, then the same holds in the state after each legal call
that returns: `c3object_init` (fresh node), `c3object_add_object`, `c3object_add_geometry`,
`c3object_set_dirty(o, true)`, `c3object_set_dirty(o, false)`, `c3object_project`,
`c3object_clear` and `c3object_dispose`. -/
theorem dirtyAncestors_preserved [Mat4 M] (fuel : Nat) (s t : Scene M) (op : Op M)
    (hF : Forest s) (hD : DirtyAncestors s) (hlegal : op.legal s = true)
    (hrun : op.run fuel s = some t) : DirtyAncestors t :=
  (Op.run_upClosed hF hD.to_upClosed hlegal hrun).dirtyAncestors (Op.run_forest hF hlegal hrun)

theorem blank_forest : Forest blankScene :=
  ⟨fun o c hl _ => by simp [blankScene] at hl, fun c p hl _ => by simp [blankScene] at hl⟩

theorem demo_upClosed : UpClosed demo := by
  intro x p hl hp hd
  rcases x with _ | _ | _ | _ | x <;> simp [demo, demoObj] at hl hp hd ⊢
  · subst hp; rfl
  · subst hp; rfl

/-- Witness of `forest_invariant`: the sequence `demoOps` returns, in a forest where object 0
has the single child 2 and object 1 is dead. -/
theorem forest_invariant_witness :
    ∃ t, runOps 4 blankScene demoOps = some t ∧ Forest t ∧
      (t.obj 0).objects = [2] ∧ t.live 1 = false := by
  cases h : runOps 4 blankScene demoOps with
  | none =>
    have h1 : (runOps 4 blankScene demoOps).isSome = true := rfl
    rw [h] at h1; cases h1
  | some t =>
    have h2 : (runOps 4 blankScene demoOps).map (fun t => ((t.obj 0).objects, t.live 1))
        = some ([2], false) := rfl
    rw [h] at h2
    simp only [Option.map_some', Option.some.injEq, Prod.mk.injEq] at h2
    exact ⟨t, rfl, forest_invariant 4 demoOps blankScene t blank_forest h, h2.1, h2.2⟩

/-- Witness of `dirtyAncestors_preserved`: moving the dirty object 2 of `demo` under the
clean root 3 leaves 3 dirty. -/
theorem dirtyAncestors_preserved_witness :
    ∃ t, (Op.add_object (some 3) 2 : Op Mat).run 3 demo = some t ∧ DirtyAncestors t ∧
      (t.obj 3).dirty = true := by
  cases h : (Op.add_object (some 3) 2 : Op Mat).run 3 demo with
  | none =>
    have h1 : ((Op.add_object (some 3) 2 : Op Mat).run 3 demo).isSome = true := rfl
    rw [h] at h1; cases h1
  | some t =>
    have h2 : ((Op.add_object (some 3) 2 : Op Mat).run 3 demo).map (fun t => (t.obj 3).dirty)
        = some true := rfl
    rw [h] at h2
    simp only [Option.map_some', Option.some.injEq] at h2
    exact ⟨t, rfl, dirtyAncestors_preserved 3 demo t (Op.add_object (some 3) 2) demo_forest
      (demo_upClosed.dirtyAncestors demo_forest) rfl h, h2⟩

/-! ## Attaching: `c3object_init`, the no-op of `c3object_add_object`, contexts, allocation -/

/-- C13. `c3object_init(node, P)` on a fresh `node` with `P` null or live: `node.parent == P`,
`node.dirty` is false, `node.hidden` is 0, the three collections of `node` are empty; if
`P` is non-null, `P.objects` is its previous value with `node` appended and `node.context`
is `P.context`; `node` is live afterwards, every other object keeps its record apart from
the `objects` of `P` (so no dirty flag of a pre-existing object changes), and no geometry
changes. -/
theorem init_attaches_without_dirtying [Mat4 M] (s : Scene M) (node : Nat) (P : Option Nat)
    (hfresh : s.live node = false) (hP : liveOrNull s P = true) :
    ((c3object_init s node P).obj node).parent = P ∧
    ((c3object_init s node P).obj node).dirty = false ∧
    ((c3object_init s node P).obj node).hidden = 0 ∧
    ((c3object_init s node P).obj node).objects = [] ∧
    ((c3object_init s node P).obj node).geometry = [] ∧
    ((c3object_init s node P).obj node).transform = [] ∧
    (c3object_init s node P).live node = true ∧
    (∀ p, P = some p →
      ((c3object_init s node P).obj p).objects = (s.obj p).objects ++ [node] ∧
      ((c3object_init s node P).obj p).dirty = (s.obj p).dirty ∧
      ((c3object_init s node P).obj p).context = (s.obj p).context ∧
      ((c3object_init s node P).obj node).context = (s.obj p).context) ∧
    (∀ x, x ≠ node → ((c3object_init s node P).obj x).dirty = (s.obj x).dirty) ∧
    (∀ x, x ≠ node → P ≠ some x → (c3object_init s node P).obj x = s.obj x) ∧
    (c3object_init s node P).geo = s.geo := by
  cases P with
  | none =>
    refine ⟨?_, ?_, ?_, ?_, ?_, ?_, ?_, ?_, ?_, ?_, ?_⟩
    all_goals simp [c3object_init, upd]
    · intro x hx
      simp [hx]
    · intro x hx
      simp [hx]
  | some p =>
    have hne : p ≠ node := by
      rintro rfl
      simp [liveOrNull] at hP
      rw [hP] at hfresh
      cases hfresh
    have hne2 : node ≠ p := fun h => hne h.symm
    refine ⟨?_, ?_, ?_, ?_, ?_, ?_, ?_, ?_, ?_, ?_, ?_⟩
    all_goals simp [c3object_init, Scene.modObj, upd, hne, hne2, c_array_add]
    · intro x hx
      by_cases hxp : x = p
      · subst hxp
        simp [hx]
      · simp [hx, hxp]
    · intro x hx hxp
      have : ¬ x = p := fun h => hxp h.symm
      simp [hx, this]

theorem init_attaches_without_dirtying_witness :
    ((c3object_init demo 4 (some 2)).obj 4).parent = some 2 ∧
    ((c3object_init demo 4 (some 2)).obj 4).dirty = false ∧
    ((c3object_init demo 4 (some 2)).obj 4).hidden = 0 ∧
    ((c3object_init demo 4 (some 2)).obj 4).objects = [] ∧
    ((c3object_init demo 4 (some 2)).obj 4).geometry = [] ∧
    ((c3object_init demo 4 (some 2)).obj 4).transform = [] ∧
    (c3object_init demo 4 (some 2)).live 4 = true ∧
    (∀ p, some 2 = some p →
      ((c3object_init demo 4 (some 2)).obj p).objects = (demo.obj p).objects ++ [4] ∧
      ((c3object_init demo 4 (some 2)).obj p).dirty = (demo.obj p).dirty ∧
      ((c3object_init demo 4 (some 2)).obj p).context = (demo.obj p).context ∧
      ((c3object_init demo 4 (some 2)).obj 4).context = (demo.obj p).context) ∧
    (∀ x, x ≠ 4 → ((c3object_init demo 4 (some 2)).obj x).dirty = (demo.obj x).dirty) ∧
    (∀ x, x ≠ 4 → some 2 ≠ some x → (c3object_init demo 4 (some 2)).obj x = demo.obj x) ∧
    (c3object_init demo 4 (some 2)).geo = demo.geo :=
  init_attaches_without_dirtying demo 4 (some 2) (by decide) (by decide)

/-- C14. When `sub.parent == o` already (also for `o == NULL` and a parentless `sub`),
`c3object_add_object(o, sub)` returns at once and leaves the whole heap as it was. -/
theorem add_object_existing_child_noop (fuel : Nat) (s : Scene M) (o : Option Nat) (sub : Nat)
    (h : (s.obj sub).parent = o) : c3object_add_object fuel s o sub = some s := by
  simp [c3object_add_object, h]

theorem add_object_existing_child_noop_witness :
    c3object_add_object 0 demo (some 1) 2 = some demo :=
  add_object_existing_child_noop 0 demo (some 1) 2 rfl

/-- C16. Evaluation of both attaching paths.  `c3object_init(sub, o)` always leaves
`sub.context == o.context`.  `c3object_add_object(o, sub)` does not: attaching the
standalone object 4 (built by `c3object_init(4, NULL)`, so with a null context) under
object 2 of `demo`, whose context is the context 0, leaves the context of 4 null, and
`c3object_get_geometry` on the root of that tree then dereferences the null context. -/
theorem add_object_keeps_old_context :
    (∀ (s : Scene Mat) (sub o : Nat),
      ((c3object_init s sub (some o)).obj sub).context
        = ((c3object_init s sub (some o)).obj o).context) ∧
    ∃ t, c3object_add_object 4 (c3object_init demo 4 none) (some 2) 4 = some t ∧
      (t.obj 4).parent = some 2 ∧ (t.obj 2).objects = [4] ∧
      (t.obj 4).context = none ∧ (t.obj 2).context = some 0 ∧
      (c3object_get_geometry 5 demo 0 []).isSome = true ∧
      c3object_get_geometry 5 t 0 [] = none := by
  refine ⟨?_, ?_⟩
  · intro s sub o
    by_cases h : sub = o
    · subst h
      rfl
    · have h2 : ¬ o = sub := fun e => h e.symm
      simp [c3object_init, Scene.modObj, upd, h, h2]
  · refine ⟨_, rfl, ?_, ?_, ?_, ?_, ?_, ?_⟩ <;> rfl

/-- C17, as the claim words it, fails: with `malloc` returning null, `c3object_new` does not
return a null pointer (or anything else) to its caller. -/
theorem new_null_counterexample :
    ¬ ∃ t, c3object_new demo none (some 0) = some (t, none) ∧
      (t.obj 0).objects = (demo.obj 0).objects := by
  rintro ⟨t, h, -⟩
  simp [c3object_new] at h

/-- C17, amended.  When `malloc` returns null, `c3object_new(P)` hands the null pointer to
`c3object_init`, whose `memset` through it has no defined result: the call does not
return, neither with a failure value nor with an object.  When `malloc` returns the
address `r`, the call returns `r` after `c3object_init(r, P)`. -/
theorem new_unchecked_allocation [Mat4 M] (s : Scene M) (P : Option Nat) :
    c3object_new s none P = none ∧
    ∀ r, c3object_new s (some r) P = some (c3object_init s r P, some r) :=
  ⟨rfl, fun _ => rfl⟩

/-! ## What `c3object_add_object` marks -/

theorem Anc.trans_anc {s : Scene M} {a b c : Nat} (h1 : Anc s a b) (h2 : Anc s b c) :
    Anc s a c := by
  induction h2 with
  | parent hp => exact Anc.step hp h1
  | step hp _ ih => exact Anc.step hp ih

/-- An object whose parent chain reaches a null parent is not its own ancestor. -/
theorem not_anc_self {s : Scene M} {n x : Nat} (h : reachesRoot s n (some x) = true) :
    ¬ Anc s x x := by
  induction n generalizing x with
  | zero => simp [reachesRoot] at h
  | succ n ih =>
    intro ha
    cases ha with
    | parent hp =>
      simp only [reachesRoot, hp] at h
      exact ih h (Anc.parent hp)
    | step hp ha =>
      simp only [reachesRoot, hp] at h
      exact ih h (Anc.snoc ha hp)

theorem Forest.anc_of_desc {s : Scene M} (hF : Forest s) {r y : Nat} (hr : s.live r = true)
    (h : Desc s r y) : r = y ∨ Anc s r y := by
  induction h with
  | refl => exact Or.inl rfl
  | @step o c d hc _ ih =>
    obtain ⟨hl, hp⟩ := hF.child o c hr hc
    rcases ih hl with h1 | h1
    · subst h1; exact Or.inr (Anc.parent hp)
    · exact Or.inr (Anc.snoc h1 hp)

/-- What `c3object_set_dirty(o, true)` changes: the dirty flags on the parent chain of `o` and
of the geometries of `o`. -/
theorem set_dirty_true_dirt {fuel : Nat} {s t : Scene M} {o : Nat}
    (h : c3object_set_dirty fuel s o true = some t) :
    reachesRoot s fuel (some o) = true ∧
    (∀ y, (t.obj y).dirty = ((s.obj y).dirty || decide (y ∈ chain s fuel (some o)))) ∧
    (∀ y, (t.obj y).world = (s.obj y).world) ∧
    (∀ g, (t.geo g).dirty = ((s.geo g).dirty || decide (g ∈ (s.obj o).geometry))) := by
  rw [set_dirty_true_eq] at h
  split at h
  · rename_i hr
    simp only [Option.some.injEq] at h
    subst h
    refine ⟨hr, fun y => ?_, fun y => by simp, fun g => ?_⟩
    · simp [Bool.or_comm]
    · simp [Bool.or_comm]
  · cases h

/-- What the detaching block marks, when `x` is found in the array of its parent. -/
theorem detachObject_dirt {fuel : Nat} {s t : Scene M} {x : Nat}
    (h : detachObject fuel s x = some t)
    (hmem : ∀ p, (s.obj x).parent = some p → x ∈ (s.obj p).objects) :
    reachesRoot s fuel (s.obj x).parent = true ∧
    (∀ y, (t.obj y).dirty = ((s.obj y).dirty || decide (y ∈ chain s fuel (s.obj x).parent))) ∧
    (∀ y, (t.obj y).world = (s.obj y).world) ∧
    (∀ y, (t.obj y).geometry = (s.obj y).geometry) ∧
    (∀ g, (t.geo g).dirty
      = ((s.geo g).dirty || decide (g ∈ geometryOf s (s.obj x).parent))) := by
  cases hp : (s.obj x).parent with
  | none =>
    simp only [detachObject, hp, Option.some.injEq] at h
    subst h
    simp [reachesRoot_none, chain_none, geometryOf]
  | some p =>
    rw [detachObject_eq fuel s x p hp (hmem p hp)] at h
    split at h
    · rename_i hr
      simp only [Option.some.injEq] at h
      subst h
      refine ⟨hr, fun y => ?_, fun y => ?_, fun y => ?_, fun g => ?_⟩
      · by_cases hy : y = x
        · subst hy
          by_cases hyp : y = p
          · subst hyp; simp [Bool.or_comm]
          · simp [hyp, Bool.or_comm]
        · by_cases hyp : y = p
          · subst hyp; simp [hy, Bool.or_comm]
          · simp [hy, hyp, Bool.or_comm]
      · by_cases hy : y = x
        · subst hy
          by_cases hyp : y = p
          · subst hyp; simp
          · simp [hyp]
        · by_cases hyp : y = p
          · subst hyp; simp [hy]
          · simp [hy, hyp]
      · by_cases hy : y = x
        · subst hy
          by_cases hyp : y = p
          · subst hyp; simp
          · simp [hyp]
        · by_cases hyp : y = p
          · subst hyp; simp [hy]
          · simp [hy, hyp]
      · simp [geometryOf, Bool.or_comm]
    · cases h

theorem detachObject_returns {fuel : Nat} {s : Scene M} {x : Nat}
    (hr : reachesRoot s fuel (s.obj x).parent = true) :
    ∃ t, detachObject fuel s x = some t := by
  cases hp : (s.obj x).parent with
  | none => exact ⟨s, by simp [detachObject, hp]⟩
  | some p =>
    rw [hp] at hr
    cases hf : findIndex (s.obj p).objects x with
    | none =>
      simp only [detachObject, hp, hf]
      exact ⟨_, rfl⟩
    | some oi =>
      have hpar : ∀ y, ((s.modObj p
          (fun r => r.withObjects (c_array_delete r.objects oi 1))).obj y).parent
          = (s.obj y).parent := by
        intro y
        by_cases hy : y = p
        · subst hy; simp
        · simp [hy]
      simp only [detachObject, hp, hf, set_dirty_true_eq, reachesRoot_congr hpar, hr, if_true]
      exact ⟨_, rfl⟩

/-- With enough fuel for the two parent chains, and `sub` not on the chain of `o`,
`c3object_add_object(o, sub)` returns. -/
theorem add_object_returns {fuel : Nat} {s : Scene M} {o : Option Nat} {sub : Nat}
    (hrA : reachesRoot s fuel (s.obj sub).parent = true)
    (hro : reachesRoot s fuel o = true) (hoff : sub ∉ chain s fuel o) :
    ∃ t, c3object_add_object fuel s o sub = some t := by
  by_cases hne : (s.obj sub).parent = o
  · exact ⟨s, by simp [c3object_add_object, hne]⟩
  obtain ⟨s1, hd⟩ := detachObject_returns hrA
  obtain ⟨-, h2, -⟩ := detachObject_effect hd
  simp only [c3object_add_object, hne, if_false, hd]
  cases o with
  | none => exact ⟨_, rfl⟩
  | some B =>
    simp only [set_dirty_true_eq]
    generalize hs3 : Scene.modObj (Scene.modObj s1 sub _) B _ = s3
    have hp3 : ∀ x, x ≠ sub → (s3.obj x).parent = (s.obj x).parent := by
      intro x hx
      subst hs3
      simp [hx, h2]
    have hc := chain_congr_off hp3 fuel (some B) hoff
    rw [hc.2, hro]
    exact ⟨_, rfl⟩

/-- What `c3object_add_object(o, sub)` marks when it moves `sub`: the dirty flags on the parent
chains of the old parent and of `o`, and of the geometries of these two objects. -/
theorem add_object_dirt {fuel : Nat} {s t : Scene M} {o : Option Nat} {sub : Nat}
    (h : c3object_add_object fuel s o sub = some t) (hne : (s.obj sub).parent ≠ o)
    (hmem : ∀ p, (s.obj sub).parent = some p → sub ∈ (s.obj p).objects)
    (hoff : sub ∉ chain s fuel o) :
    (∀ y, (t.obj y).dirty = ((s.obj y).dirty
      || decide (y ∈ chain s fuel (s.obj sub).parent) || decide (y ∈ chain s fuel o))) ∧
    (∀ y, (t.obj y).world = (s.obj y).world) ∧
    (∀ g, (t.geo g).dirty = ((s.geo g).dirty
      || decide (g ∈ geometryOf s (s.obj sub).parent) || decide (g ∈ geometryOf s o))) := by
  simp only [c3object_add_object, hne, if_false] at h
  cases hd : detachObject fuel s sub with
  | none => simp [hd] at h
  | some s1 =>
    simp only [hd] at h
    obtain ⟨-, h2, -⟩ := detachObject_effect hd
    obtain ⟨-, d1, d2, d3, d4⟩ := detachObject_dirt hd hmem
    cases o with
    | none =>
      simp only [Option.some.injEq] at h
      subst h
      refine ⟨fun y => ?_, fun y => ?_, fun g => ?_⟩
      · simp [chain_none, d1]
      · simp [d2]
      · simp [geometryOf, d4]
    | some B =>
      simp only at h
      generalize hs3 : Scene.modObj (Scene.modObj s1 sub _) B _ = s3 at h
      have hp3 : ∀ x, x ≠ sub → (s3.obj x).parent = (s.obj x).parent := by
        intro x hx
        subst hs3
        simp [hx, h2]
      have hc := chain_congr_off hp3 fuel (some B) hoff
      obtain ⟨-, e1, e2, e3⟩ := set_dirty_true_dirt h
      refine ⟨fun y => ?_, fun y => ?_, fun g => ?_⟩
      · rw [e1, hc.1]
        subst hs3
        simp [d1]
      · rw [e2]
        subst hs3
        simp [d2]
      · rw [e3]
        subst hs3
        simp [d3, d4, geometryOf]

/-- Ancestors in a heap whose parent pointers are parent pointers of `s` are ancestors in `s`. -/
theorem Anc.sub_anc {s t : Scene M}
    (h : ∀ x p, (t.obj x).parent = some p → (s.obj x).parent = some p) {a x : Nat}
    (ha : Anc t a x) : Anc s a x := by
  induction ha with
  | parent hp => exact Anc.parent (h _ _ hp)
  | step hp _ ih => exact Anc.step (h _ _ hp) ih

/-- C15. In a forest, for a live object `sub` with parent `A` whose parent chain reaches a null
parent, `c3object_add_object(NULL, sub)` returns, and afterwards `sub.parent` is null,
`sub` occurs in the `objects` of no live object, `A.objects` is its previous value with
the one occurrence of `sub` erased (the other children keep their order), and `A` and
every ancestor of `A` (before or after the call) are dirty. -/
theorem add_object_null_detaches (s : Scene M) (A sub n fuel : Nat)
    (hF : Forest s) (hsub : s.live sub = true) (hpar : (s.obj sub).parent = some A)
    (hA : reachesRoot s n (some A) = true) (hfuel : n ≤ fuel) :
    ∃ s', c3object_add_object fuel s none sub = some s' ∧
      (s'.obj sub).parent = none ∧
      (∀ x, s'.live x = true → sub ∉ (s'.obj x).objects) ∧
      (s.obj A).objects.count sub = 1 ∧
      (s'.obj A).objects = (s.obj A).objects.erase sub ∧
      (s'.obj A).dirty = true ∧
      (∀ a, Anc s a A ∨ Anc s' a A → (s'.obj a).dirty = true) := by
  have hne : (s.obj sub).parent ≠ none := by rw [hpar]; exact fun h => by cases h
  have hcnt : (s.obj A).objects.count sub = 1 := (hF.parent sub A hsub hpar).2
  have hmem : ∀ p, (s.obj sub).parent = some p → sub ∈ (s.obj p).objects := by
    intro p hp
    exact List.count_pos_iff.mp (by rw [(hF.parent sub p hsub hp).2]; exact Nat.one_pos)
  have hrA : reachesRoot s fuel (s.obj sub).parent = true := by
    rw [hpar]; exact reachesRoot_mono hfuel hA
  have hoff : sub ∉ chain s fuel none := by simp [chain_none]
  obtain ⟨t, ht⟩ := add_object_returns hrA (reachesRoot_none s fuel) hoff
  obtain ⟨e1, e2, e3⟩ := add_object_effect ht hne
  obtain ⟨d1, -, -⟩ := add_object_dirt ht hne hmem hoff
  rw [hpar] at hrA
  have hsubp : ∀ x p, (t.obj x).parent = some p → (s.obj x).parent = some p := by
    intro x p hx
    rw [e2] at hx
    split at hx
    · cases hx
    · exact hx
  have hdirty : ∀ a, a ∈ chain s fuel (some A) → (t.obj a).dirty = true := by
    intro a ha
    rw [d1, hpar]
    simp [ha]
  refine ⟨t, ht, ?_, ?_, hcnt, ?_, ?_, ?_⟩
  · rw [e2]; simp
  · intro x hl hx
    rw [e1] at hl
    rw [e3] at hx
    simp only [if_false, List.append_nil, reduceCtorEq] at hx
    split at hx
    · rename_i hxA
      rw [hpar] at hxA
      cases hxA
      exact not_mem_erase_of_count_one hcnt hx
    · rename_i hxA
      exact hxA (hF.child x sub hl hx).2
  · rw [e3]; simp [hpar]
  · exact hdirty A ((mem_chain_iff hrA A).mpr (Or.inl rfl))
  · rintro a (ha | ha)
    · exact hdirty a ((mem_chain_iff hrA a).mpr (Or.inr ha))
    · exact hdirty a ((mem_chain_iff hrA a).mpr (Or.inr (Anc.sub_anc hsubp ha)))

theorem add_object_null_detaches_witness :
    ∃ s', c3object_add_object 2 demo none 2 = some s' ∧
      (s'.obj 2).parent = none ∧
      (∀ x, s'.live x = true → 2 ∉ (s'.obj x).objects) ∧
      (demo.obj 1).objects.count 2 = 1 ∧
      (s'.obj 1).objects = (demo.obj 1).objects.erase 2 ∧
      (s'.obj 1).dirty = true ∧
      (∀ a, Anc demo a 1 ∨ Anc s' a 1 → (s'.obj a).dirty = true) :=
  add_object_null_detaches demo 1 2 2 2 demo_forest rfl rfl rfl (le_refl 2)

/-! ## Reparenting and parent cycles -/

/-- Giving `sub` the parent `o` keeps every parent chain finite when `sub` is not on the chain
of `o`. -/
theorem reachesRoot_reparent {s t : Scene M} {sub o k : Nat}
    (hp : ∀ y, (t.obj y).parent = if y = sub then some o else (s.obj y).parent)
    (hro : reachesRoot s k (some o) = true) (hoff : sub ∉ chain s k (some o))
    (n : Nat) (x : Option Nat) (h : reachesRoot s n x = true) :
    reachesRoot t (n + k + 1) x = true := by
  have hto : reachesRoot t k (some o) = true := by
    have hp3 : ∀ y, y ≠ sub → (t.obj y).parent = (s.obj y).parent := by
      intro y hy
      rw [hp, if_neg hy]
    rw [(chain_congr_off hp3 k (some o) hoff).2]
    exact hro
  induction n generalizing x with
  | zero =>
    cases x with
    | none => rfl
    | some y => simp [reachesRoot] at h
  | succ m ih =>
    cases x with
    | none => rfl
    | some y =>
      simp only [reachesRoot] at h
      have e : m + 1 + k + 1 = (m + k + 1) + 1 := by omega
      rw [e]
      simp only [reachesRoot, hp]
      by_cases hy : y = sub
      · rw [if_pos hy]
        exact reachesRoot_mono (by omega) hto
      · rw [if_neg hy]
        exact ih _ h

theorem demo_acyclic (x : Nat) : ∃ n, reachesRoot demo n (some x) = true := by
  rcases x with _ | _ | _ | _ | x
  · exact ⟨1, rfl⟩
  · exact ⟨2, rfl⟩
  · exact ⟨3, rfl⟩
  · exact ⟨1, rfl⟩
  · exact ⟨1, rfl⟩

theorem selfLoop_cycle (n : Nat) : reachesRoot selfLoop n (some 3) = false := by
  induction n with
  | zero => rfl
  | succ n ih =>
    have : (selfLoop.obj 3).parent = some 3 := rfl
    simp only [reachesRoot, this, ih]

/-- C19. In a forest in which every parent chain reaches a null parent, for a live `sub` and
an `o` with `sub != o` and `sub` not an ancestor of `o`, `c3object_add_object(o, sub)`
returns for all sufficiently large fuel, and in the resulting heap every parent chain
again reaches a null parent.  Without the condition this fails on the acyclic forest
`demo`: `c3object_add_object(3, 3)` reaches `c3object_set_dirty(3, true)` in the heap
`selfLoop`, where 3 is its own parent, the parent chain of 3 never reaches a null
parent, and the call returns for no amount of fuel; and `c3object_add_object(2, 1)`,
with 1 the parent of 2, returns for no amount of fuel either. -/
theorem add_object_acyclic :
    (∀ (s : Scene M) (o sub : Nat), Forest s → s.live sub = true →
      (∀ x, ∃ n, reachesRoot s n (some x) = true) → sub ≠ o → ¬ Anc s sub o →
      ∃ N, ∀ fuel, N ≤ fuel → ∃ s', c3object_add_object fuel s (some o) sub = some s' ∧
        ∀ x, ∃ n, reachesRoot s' n (some x) = true) ∧
    (Forest demo ∧ (∀ x, ∃ n, reachesRoot demo n (some x) = true) ∧
      (∀ fuel, c3object_add_object fuel demo (some 3) 3
        = c3object_set_dirty fuel selfLoop 3 true) ∧
      (selfLoop.obj 3).parent = some 3 ∧
      (∀ n, reachesRoot selfLoop n (some 3) = false) ∧
      (∀ fuel, c3object_add_object fuel demo (some 3) 3 = none) ∧
      Anc demo 1 2 ∧
      (∀ fuel, c3object_add_object fuel demo (some 2) 1 = none)) := by
  refine ⟨?_, demo_forest, demo_acyclic, fun _ => rfl, rfl, selfLoop_cycle, ?_,
    Anc.parent rfl, ?_⟩
  · intro s o sub hF hsub hacyc hne hanc
    obtain ⟨no, hno⟩ := hacyc o
    obtain ⟨ns, hns⟩ := hacyc sub
    refine ⟨max no ns, fun fuel hfuel => ?_⟩
    have hro : reachesRoot s fuel (some o) = true := reachesRoot_mono (by omega) hno
    have hrs : reachesRoot s fuel (some sub) = true := reachesRoot_mono (by omega) hns
    have hrA : reachesRoot s fuel (s.obj sub).parent = true := by
      cases fuel with
      | zero => simp [reachesRoot] at hrs
      | succ f => exact reachesRoot_mono (Nat.le_succ f) hrs
    have hoff : sub ∉ chain s fuel (some o) := by
      rw [mem_chain_iff hro]
      rintro (h | h)
      · exact hne h
      · exact hanc h
    obtain ⟨t, ht⟩ := add_object_returns hrA hro hoff
    refine ⟨t, ht, ?_⟩
    by_cases hpo : (s.obj sub).parent = some o
    · simp only [c3object_add_object, hpo, if_true, Option.some.injEq] at ht
      subst ht
      exact hacyc
    · obtain ⟨-, e2, -⟩ := add_object_effect ht hpo
      intro x
      obtain ⟨n, hn⟩ := hacyc x
      exact ⟨n + fuel + 1, reachesRoot_reparent e2 hro hoff n (some x) hn⟩
  · intro fuel
    show c3object_set_dirty fuel selfLoop 3 true = none
    rw [set_dirty_true_eq, selfLoop_cycle]
    rfl
  · intro fuel
    have hne : ¬ (demo.obj 1).parent = some 2 := by decide
    simp only [c3object_add_object, hne, if_false]
    cases hd : detachObject fuel demo 1 with
    | none => rfl
    | some s1 =>
      obtain ⟨-, h2, -⟩ := detachObject_effect hd
      simp only [set_dirty_true_eq]
      generalize hs3 : Scene.modObj (Scene.modObj s1 1 _) 2 _ = s3
      have p2 : (s3.obj 2).parent = some 1 := by
        subst hs3
        simp [h2]
        rfl
      have p1 : (s3.obj 1).parent = some 2 := by
        subst hs3
        simp
      have hcyc : ∀ n, reachesRoot s3 n (some 2) = false ∧ reachesRoot s3 n (some 1) = false := by
        intro n
        induction n with
        | zero => exact ⟨rfl, rfl⟩
        | succ n ih => simp only [reachesRoot, p1, p2, ih, and_self]
      rw [(hcyc fuel).1]
      rfl

theorem add_object_acyclic_witness :
    ∃ N, ∀ fuel, N ≤ fuel → ∃ s', c3object_add_object fuel demo (some 3) 2 = some s' ∧
      ∀ x, ∃ n, reachesRoot s' n (some x) = true :=
  (@add_object_acyclic Mat).1 demo 3 2 demo_forest rfl demo_acyclic (by decide)
    (demo_not_anc 2)

/-- C20. In a forest with owned geometries, for a live `sub` and an `o` with `sub != o` and
`sub` not an ancestor of `o` (the parent chains of both reaching a null parent),
`c3object_add_object(o, sub)` returns and leaves `sub.dirty`, every `world` matrix, the
dirty flag of every descendant of `sub` and the dirty flag of every geometry owned by `sub`
or a descendant as they were.  An object whose dirty flag changed is the old parent, `o`
or an ancestor of one of them, and a geometry whose dirty flag changed is in the
`geometry` of the old parent or of `o`; when `sub` is actually moved these are all
dirty afterwards. -/
theorem add_object_spares_subtree (s : Scene M) (o sub n fuel : Nat)
    (hF : Forest s) (hG : GeoOwned s) (hsub : s.live sub = true)
    (hne : sub ≠ o) (hanc : ¬ Anc s sub o)
    (hrs : reachesRoot s n (some sub) = true) (hro : reachesRoot s n (some o) = true)
    (hfuel : n ≤ fuel) :
    ∃ s', c3object_add_object fuel s (some o) sub = some s' ∧
      (s'.obj sub).dirty = (s.obj sub).dirty ∧
      (∀ x, (s'.obj x).world = (s.obj x).world) ∧
      (∀ d, Desc s sub d → (s'.obj d).dirty = (s.obj d).dirty) ∧
      (∀ d g, Desc s sub d → (s.geo g).object = some d ∨ g ∈ (s.obj d).geometry →
        (s'.geo g).dirty = (s.geo g).dirty) ∧
      (∀ x, (s'.obj x).dirty ≠ (s.obj x).dirty →
        x = o ∨ Anc s x o ∨ (s.obj sub).parent = some x ∨
          ∃ A, (s.obj sub).parent = some A ∧ Anc s x A) ∧
      (∀ g, (s'.geo g).dirty ≠ (s.geo g).dirty →
        g ∈ (s.obj o).geometry ∨ ∃ A, (s.obj sub).parent = some A ∧ g ∈ (s.obj A).geometry) ∧
      ((s.obj sub).parent ≠ some o →
        (∀ x, x = o ∨ Anc s x o ∨ (s.obj sub).parent = some x ∨
          (∃ A, (s.obj sub).parent = some A ∧ Anc s x A) → (s'.obj x).dirty = true) ∧
        (∀ g, g ∈ (s.obj o).geometry ∨
          (∃ A, (s.obj sub).parent = some A ∧ g ∈ (s.obj A).geometry) →
            (s'.geo g).dirty = true)) := by
  have hro1 : reachesRoot s fuel (some o) = true := reachesRoot_mono hfuel hro
  have hrs1 : reachesRoot s fuel (some sub) = true := reachesRoot_mono hfuel hrs
  have hrA : reachesRoot s fuel (s.obj sub).parent = true := by
    cases fuel with
    | zero => simp [reachesRoot] at hrs1
    | succ f => exact reachesRoot_mono (Nat.le_succ f) hrs1
  have hself : ¬ Anc s sub sub := not_anc_self hrs
  have hoff : sub ∉ chain s fuel (some o) := by
    rw [mem_chain_iff hro1]
    rintro (h | h)
    · exact hne h
    · exact hanc h
  have hmem : ∀ p, (s.obj sub).parent = some p → sub ∈ (s.obj p).objects := by
    intro p hp
    exact List.count_pos_iff.mp (by rw [(hF.parent sub p hsub hp).2]; exact Nat.one_pos)
  -- membership in the two chains, in terms of ancestors
  have hchA : ∀ x, x ∈ chain s fuel (s.obj sub).parent ↔
      ((s.obj sub).parent = some x ∨ ∃ A, (s.obj sub).parent = some A ∧ Anc s x A) := by
    intro x
    cases hp : (s.obj sub).parent with
    | none => simp [chain_none]
    | some A =>
      rw [hp] at hrA
      rw [mem_chain_iff hrA]
      constructor
      · rintro (h | h)
        · exact Or.inl (by rw [h])
        · exact Or.inr ⟨A, rfl, h⟩
      · rintro (h | ⟨B, hB, h⟩)
        · cases h; exact Or.inl rfl
        · cases hB; exact Or.inr h
  have hcho : ∀ x, x ∈ chain s fuel (some o) ↔ (x = o ∨ Anc s x o) := mem_chain_iff hro1
  -- the subtree of `sub` is off both chains
  have hbelow : ∀ d, Desc s sub d → d ∉ chain s fuel (s.obj sub).parent ∧
      d ∉ chain s fuel (some o) := by
    intro d hd
    have hd1 := hF.anc_of_desc hsub hd
    constructor
    · rw [hchA]
      rintro (h | ⟨A, hA, h⟩)
      · rcases hd1 with h1 | h1
        · subst h1; exact hself (Anc.parent h)
        · exact hself (Anc.trans_anc h1 (Anc.parent h))
      · rcases hd1 with h1 | h1
        · subst h1; exact hself (Anc.trans_anc h (Anc.parent hA))
        · exact hself (Anc.trans_anc (Anc.trans_anc h1 h) (Anc.parent hA))
    · rw [hcho]
      rintro (h | h)
      · rcases hd1 with h1 | h1
        · exact hne (h1.trans h)
        · subst h; exact hanc h1
      · rcases hd1 with h1 | h1
        · subst h1; exact hanc h
        · exact hanc (Anc.trans_anc h1 h)
  have hgA : ∀ g, g ∈ geometryOf s (s.obj sub).parent ↔
      ∃ A, (s.obj sub).parent = some A ∧ g ∈ (s.obj A).geometry := by
    intro g
    cases hp : (s.obj sub).parent with
    | none => simp [geometryOf]
    | some A => simp [geometryOf]
  obtain ⟨t, ht⟩ := add_object_returns hrA hro1 hoff
  -- the flags after the call
  have key : (∀ y, (t.obj y).world = (s.obj y).world) ∧
      (∀ y, (t.obj y).dirty ≠ (s.obj y).dirty →
        y ∈ chain s fuel (s.obj sub).parent ∨ y ∈ chain s fuel (some o)) ∧
      (∀ g, (t.geo g).dirty ≠ (s.geo g).dirty →
        g ∈ geometryOf s (s.obj sub).parent ∨ g ∈ (s.obj o).geometry) ∧
      ((s.obj sub).parent ≠ some o →
        (∀ y, y ∈ chain s fuel (s.obj sub).parent ∨ y ∈ chain s fuel (some o) →
          (t.obj y).dirty = true) ∧
        (∀ g, g ∈ geometryOf s (s.obj sub).parent ∨ g ∈ (s.obj o).geometry →
          (t.geo g).dirty = true)) := by
    by_cases hpo : (s.obj sub).parent = some o
    · simp only [c3object_add_object, hpo, if_true, Option.some.injEq] at ht
      subst ht
      exact ⟨fun _ => rfl, fun y h => absurd rfl h, fun g h => absurd rfl h,
        fun h => absurd hpo h⟩
    · obtain ⟨d1, d2, d3⟩ := add_object_dirt ht hpo hmem hoff
      refine ⟨d2, fun y h => ?_, fun g h => ?_, fun _ => ⟨fun y h => ?_, fun g h => ?_⟩⟩
      · by_contra hc
        simp only [not_or] at hc
        apply h
        rw [d1]
        simp [hc.1, hc.2]
      · by_contra hc
        simp only [not_or] at hc
        apply h
        rw [d3]
        have : g ∉ geometryOf s (some o) := hc.2
        simp [hc.1, this]
      · rw [d1]
        rcases h with h | h <;> simp [h]
      · rw [d3]
        rcases h with h | h
        · simp [h]
        · have : g ∈ geometryOf s (some o) := h
          simp [this]
  obtain ⟨k1, k2, k3, k4⟩ := key
  have hsame : ∀ d, Desc s sub d → (t.obj d).dirty = (s.obj d).dirty := by
    intro d hd
    by_contra hc
    rcases k2 d hc with h | h
    · exact (hbelow d hd).1 h
    · exact (hbelow d hd).2 h
  refine ⟨t, ht, hsame sub (Desc.refl sub), k1, hsame, ?_, ?_, ?_, ?_⟩
  · intro d g hd hg
    have hown : (s.geo g).object = some d := by
      rcases hg with h | h
      · exact h
      · exact hG.owner d g h
    have hb := hbelow d hd
    by_contra hc
    rcases k3 g hc with h | h
    · rw [hgA] at h
      obtain ⟨A, hA, hgm⟩ := h
      have := hG.owner A g hgm
      rw [hown] at this
      cases this
      apply hb.1
      rw [hchA]
      exact Or.inl hA
    · have := hG.owner o g h
      rw [hown] at this
      cases this
      apply hb.2
      rw [hcho]
      exact Or.inl rfl
  · intro x hx
    rcases k2 x hx with h | h
    · rw [hchA] at h
      exact Or.inr (Or.inr h)
    · rw [hcho] at h
      rcases h with h | h
      · exact Or.inl h
      · exact Or.inr (Or.inl h)
  · intro g hg
    rcases k3 g hg with h | h
    · rw [hgA] at h
      exact Or.inr h
    · exact Or.inl h
  · intro hpo
    obtain ⟨m1, m2⟩ := k4 hpo
    refine ⟨fun x hx => ?_, fun g hg => ?_⟩
    · apply m1
      rcases hx with h | h | h
      · exact Or.inr ((hcho x).mpr (Or.inl h))
      · exact Or.inr ((hcho x).mpr (Or.inr h))
      · exact Or.inl ((hchA x).mpr h)
    · apply m2
      rcases hg with h | h
      · exact Or.inr h
      · exact Or.inl ((hgA g).mpr h)

theorem add_object_spares_subtree_witness :
    ∃ s', c3object_add_object 3 demo (some 3) 1 = some s' ∧
      (s'.obj 1).dirty = (demo.obj 1).dirty ∧
      (∀ x, (s'.obj x).world = (demo.obj x).world) ∧
      (∀ d, Desc demo 1 d → (s'.obj d).dirty = (demo.obj d).dirty) ∧
      (∀ d g, Desc demo 1 d → (demo.geo g).object = some d ∨ g ∈ (demo.obj d).geometry →
        (s'.geo g).dirty = (demo.geo g).dirty) ∧
      (∀ x, (s'.obj x).dirty ≠ (demo.obj x).dirty →
        x = 3 ∨ Anc demo x 3 ∨ (demo.obj 1).parent = some x ∨
          ∃ A, (demo.obj 1).parent = some A ∧ Anc demo x A) ∧
      (∀ g, (s'.geo g).dirty ≠ (demo.geo g).dirty →
        g ∈ (demo.obj 3).geometry ∨
          ∃ A, (demo.obj 1).parent = some A ∧ g ∈ (demo.obj A).geometry) ∧
      ((demo.obj 1).parent ≠ some 3 →
        (∀ x, x = 3 ∨ Anc demo x 3 ∨ (demo.obj 1).parent = some x ∨
          (∃ A, (demo.obj 1).parent = some A ∧ Anc demo x A) → (s'.obj x).dirty = true) ∧
        (∀ g, g ∈ (demo.obj 3).geometry ∨
          (∃ A, (demo.obj 1).parent = some A ∧ g ∈ (demo.obj A).geometry) →
            (s'.geo g).dirty = true)) :=
  add_object_spares_subtree demo 3 1 3 3 demo_forest demo_geoOwned rfl (by decide)
    (demo_not_anc 1) rfl rfl (le_refl 3)

/-! ## The exact effect of `c3object_set_dirty(o, false)` -/

@[simp] theorem setDirtyFlags_obj (s : Scene M) (f : Nat → Bool) (x : Nat) :
    (setDirtyFlags s f).obj x = (s.obj x).withDirty (f x) := rfl

theorem setDirtyFlags_self (s : Scene M) : setDirtyFlags s (fun x => (s.obj x).dirty) = s := rfl

theorem setDirtyFlags_twice (s : Scene M) (f g : Nat → Bool) :
    setDirtyFlags (setDirtyFlags s f) g = setDirtyFlags s g := rfl

theorem setDirtyFlags_clear (s : Scene M) (f : Nat → Bool) (o : Nat) :
    (setDirtyFlags s f).modObj o (fun r => r.withDirty false)
      = setDirtyFlags s (fun x => if x = o then false else f x) := by
  simp only [setDirtyFlags, Scene.modObj]
  congr 1
  funext x
  by_cases hx : x = o
  · subst hx; simp [upd, c3object.withDirty]
  · simp [upd, hx]

theorem DirtyBelow.of_flags {s : Scene M} {f : Nat → Bool}
    (hf : ∀ x, f x = true → (s.obj x).dirty = true) {o d : Nat}
    (h : DirtyBelow (setDirtyFlags s f) o d) : DirtyBelow s o d := by
  induction h with
  | child hc hd => exact DirtyBelow.child hc (hf _ hd)
  | step hc hd _ ih => exact DirtyBelow.step hc (hf _ hd) ih

theorem Cleaned.same (s : Scene M) (R : Nat → Prop) :
    Cleaned s (fun x => (s.obj x).dirty) R :=
  ⟨fun _ h => h, fun _ _ h1 h2 _ => absurd (h1.symm.trans h2) (by decide),
    fun _ h1 h2 => absurd (h1.symm.trans h2) (by decide)⟩

/-- Clearing in two rounds. -/
theorem Cleaned.then {s : Scene M} {f g : Nat → Bool} {R1 R2 R : Nat → Prop}
    (h1 : Cleaned s f R1) (h2 : Cleaned (setDirtyFlags s f) g R2)
    (hR1 : ∀ x, R1 x → R x) (hR2 : ∀ x, R2 x → R x) : Cleaned s g R := by
  refine ⟨fun x hx => h1.mono x (h2.mono x hx), fun y z hy hg hz => ?_, fun x hx hg => ?_⟩
  · cases hfy : f y with
    | false =>
      have hfz := h1.closure y z hy hfy hz
      cases hgz : g z with
      | false => rfl
      | true =>
        have := h2.mono z hgz
        simp only [setDirtyFlags_obj, c3object.withDirty_dirty] at this
        rw [hfz] at this; cases this
    | true => exact h2.closure y z (by simpa using hfy) hg hz
  · cases hfx : f x with
    | false => exact hR1 x (h1.sound x hx hfx)
    | true => exact hR2 x (h2.sound x (by simpa using hfx) hg)

theorem iterM_cleaned {n : Nat}
    (ih : ∀ (s : Scene M) (o : Nat) (t : Scene M), cleanDown n s o = some t →
      ∃ f, t = setDirtyFlags s f ∧ Cleaned s f (fun x => x = o ∨ DirtyBelow s o x) ∧
        f o = false ∧ ∀ c ∈ (s.obj o).objects, f c = false)
    (cs : List Nat) :
    ∀ (s t : Scene M),
      iterM (fun s c => if (s.obj c).dirty = true then cleanDown n s c else some s) cs s
        = some t →
      ∃ f, t = setDirtyFlags s f ∧
        Cleaned s f (fun x => ∃ c ∈ cs, (s.obj c).dirty = true ∧ (x = c ∨ DirtyBelow s c x)) ∧
        ∀ c ∈ cs, f c = false := by
  induction cs with
  | nil =>
    intro s t h
    simp only [iterM, Option.some.injEq] at h
    subst h
    exact ⟨_, (setDirtyFlags_self s).symm, Cleaned.same s _, fun c hc => by simp at hc⟩
  | cons c cs ihcs =>
    intro s t h
    simp only [iterM] at h
    have first : ∀ u, (if (s.obj c).dirty = true then cleanDown n s c else some s) = some u →
        ∃ f, u = setDirtyFlags s f ∧
          Cleaned s f (fun x => (s.obj c).dirty = true ∧ (x = c ∨ DirtyBelow s c x)) ∧
          f c = false := by
      intro u hu
      by_cases hd : (s.obj c).dirty = true
      · rw [if_pos hd] at hu
        obtain ⟨f, e, hc, hfc, -⟩ := ih s c u hu
        exact ⟨f, e, ⟨hc.mono, hc.closure, fun x h1 h2 => ⟨hd, hc.sound x h1 h2⟩⟩, hfc⟩
      · rw [if_neg hd] at hu
        cases hu
        exact ⟨_, (setDirtyFlags_self s).symm, Cleaned.same s _, by simpa using hd⟩
    cases hb : (if (s.obj c).dirty = true then cleanDown n s c else some s) with
    | none => rw [hb] at h; cases h
    | some u =>
      rw [hb] at h
      obtain ⟨f1, e1, c1, hf1⟩ := first u hb
      subst e1
      obtain ⟨f2, e2, c2, hf2⟩ := ihcs _ t h
      rw [setDirtyFlags_twice] at e2
      refine ⟨f2, e2, Cleaned.then c1 c2 ?_ ?_, ?_⟩
      · rintro x ⟨hd, hx⟩
        exact ⟨c, List.mem_cons_self _ _, hd, hx⟩
      · rintro x ⟨c', hc', hd, hx⟩
        refine ⟨c', List.mem_cons_of_mem _ hc', c1.mono c' (by simpa using hd), ?_⟩
        rcases hx with hx | hx
        · exact Or.inl hx
        · exact Or.inr (DirtyBelow.of_flags c1.mono hx)
      · intro c' hc'
        rcases List.mem_cons.mp hc' with h1 | h1
        · subst h1
          cases hg : f2 c' with
          | false => rfl
          | true =>
            have := c2.mono c' hg
            simp only [setDirtyFlags_obj, c3object.withDirty_dirty] at this
            rw [hf1] at this; cases this
        · exact hf2 c' h1

/-- What `c3object_set_dirty(o, false)` does on any heap, if it returns: only dirty flags
change, none is raised, `o` and its children end up clean, the children of a cleared
object are clean, and a cleared object is `o` or is reached from `o` through dirty
objects. -/
theorem cleanDown_cleaned (n : Nat) :
    ∀ (s : Scene M) (o : Nat) (t : Scene M), cleanDown n s o = some t →
      ∃ f, t = setDirtyFlags s f ∧ Cleaned s f (fun x => x = o ∨ DirtyBelow s o x) ∧
        f o = false ∧ ∀ c ∈ (s.obj o).objects, f c = false := by
  induction n with
  | zero => intro s o t h; simp [cleanDown] at h
  | succ n ih =>
    intro s o t h
    simp only [cleanDown] at h
    cases h3 : iterM (fun s c => if (s.obj c).dirty = true then cleanDown n s c else some s)
        (s.obj o).objects s with
    | none => simp [h3] at h
    | some s3 =>
      simp only [h3, Option.some.injEq] at h
      obtain ⟨f, e, hc, hkids⟩ := iterM_cleaned ih _ s s3 h3
      subst e
      rw [setDirtyFlags_clear] at h
      refine ⟨_, h.symm, ⟨fun x hx => ?_, fun y z hy hg hz => ?_, fun x hx hg => ?_⟩,
        by simp, fun c hc' => ?_⟩
      · by_cases hxo : x = o
        · simp [hxo] at hx
        · simp only [hxo, if_false] at hx
          exact hc.mono x hx
      · by_cases hzo : z = o
        · simp [hzo]
        · simp only [hzo, if_false]
          by_cases hyo : y = o
          · subst hyo; exact hkids z hz
          · simp only [hyo, if_false] at hg
            exact hc.closure y z hy hg hz
      · by_cases hxo : x = o
        · exact Or.inl hxo
        · simp only [hxo, if_false] at hg
          obtain ⟨c, hcm, hd, hx'⟩ := hc.sound x hx hg
          rcases hx' with h1 | h1
          · subst h1; exact Or.inr (DirtyBelow.child hcm hd)
          · exact Or.inr (DirtyBelow.step hcm hd h1)
      · by_cases hco : c = o
        · simp [hco]
        · simp only [hco, if_false]
          exact hkids c hc'

/-- On an object of bounded depth `c3object_set_dirty(o, false)` returns. -/
theorem cleanDown_returns (n : Nat) :
    ∀ (fuel : Nat) (s : Scene M) (o : Nat), n ≤ fuel → depthWithin s n o = true →
      ∃ t, cleanDown fuel s o = some t := by
  induction n with
  | zero => intro fuel s o _ h; simp [depthWithin] at h
  | succ n ih =>
    intro fuel s o hfuel hdepth
    cases fuel with
    | zero => omega
    | succ fuel =>
      obtain ⟨s3, h3⟩ := iterM_returns
        (f := fun s c => if (s.obj c).dirty = true then cleanDown fuel s c else some s)
        (fun u c t h => by
          by_cases hd : (u.obj c).dirty = true
          · simp only [hd, if_true] at h
            exact (cleanDown_touched fuel u c t h).shape
          · simp only [if_neg hd] at h
            cases h; exact SameShape.refl_shape _)
        (s.obj o).objects s
        (fun c hc u hu => by
          by_cases hd : (u.obj c).dirty = true
          · simp only [hd, if_true]
            exact ih fuel u c (by omega)
              (by rw [hu.depthWithin]; exact depthWithin_child hdepth hc)
          · simp only [if_neg hd]
            exact ⟨u, rfl⟩)
      simp only [cleanDown, h3]
      exact ⟨_, rfl⟩

/-- Below a cleared dirty object everything reached through dirty objects is cleared. -/
theorem Cleaned.below {s : Scene M} {f : Nat → Bool} {R : Nat → Prop} (h : Cleaned s f R)
    {y d : Nat} (hd : DirtyBelow s y d) (hy : (s.obj y).dirty = true) (hfy : f y = false) :
    f d = false := by
  induction hd with
  | child hc _ => exact h.closure _ _ hy hfy hc
  | step hc hcd _ ih => exact ih hcd (h.closure _ _ hy hfy hc)

/-- With upward-closed dirtiness, the objects between an object and a dirty descendant are
dirty. -/
theorem dirtyBelow_of_desc {s : Scene M} (hF : Forest s) (hU : UpClosed s) {o d : Nat}
    (hlive : s.live o = true) (h : Desc s o d) (hd : (s.obj d).dirty = true) :
    o = d ∨ DirtyBelow s o d := by
  induction h with
  | refl => exact Or.inl rfl
  | @step o c d hc _ ih =>
    obtain ⟨hcl, hcp⟩ := hF.child o c hlive hc
    right
    rcases ih hcl hd with h1 | h1
    · subst h1; exact DirtyBelow.child hc hd
    · have hcd : (s.obj c).dirty = true := by
        cases h1 with
        | child hk hkd => exact hU _ _ (hF.child c _ hcl hk).1 (hF.child c _ hcl hk).2 hkd
        | step hk hkd _ => exact hU _ _ (hF.child c _ hcl hk).1 (hF.child c _ hcl hk).2 hkd
      exact DirtyBelow.step hc hcd h1

/-- C18. On an object `o` below which every path through `objects` arrays is finite,
`c3object_set_dirty(o, false)` returns; the heap afterwards is the heap before with
nothing but dirty flags of objects changed (so no geometry flag changes), and an object
is clean afterwards exactly if it was clean before, or is `o`, or is reached from `o`
through objects that were all dirty, `o` excluded and the object itself included.  In
particular a dirty object below a clean child stays dirty.  When the heap is a forest
with upward-closed dirtiness and `o` is live, no object of the subtree of `o` is dirty
afterwards. -/
theorem set_dirty_false_exact (s : Scene M) (o n fuel : Nat)
    (hdepth : depthWithin s n o = true) (hfuel : n ≤ fuel) :
    ∃ t, c3object_set_dirty fuel s o false = some t ∧
      t = setDirtyFlags s (fun x => (t.obj x).dirty) ∧
      t.geo = s.geo ∧
      (∀ x, (t.obj x).dirty = false ↔
        ((s.obj x).dirty = false ∨ x = o ∨ DirtyBelow s o x)) ∧
      (∀ x, (s.obj x).dirty = true → x ≠ o → ¬ DirtyBelow s o x → (t.obj x).dirty = true) ∧
      (Forest s → UpClosed s → s.live o = true →
        ∀ d, Desc s o d → (t.obj d).dirty = false) := by
  obtain ⟨t, ht⟩ := cleanDown_returns n fuel s o hfuel hdepth
  obtain ⟨f, e, hc, hfo, hkids⟩ := cleanDown_cleaned fuel s o t ht
  have hiff : ∀ x, f x = false ↔ ((s.obj x).dirty = false ∨ x = o ∨ DirtyBelow s o x) := by
    intro x
    constructor
    · intro hfx
      cases hd : (s.obj x).dirty with
      | false => exact Or.inl rfl
      | true => exact Or.inr (hc.sound x hd hfx)
    · rintro (h | h | h)
      · cases hfx : f x with
        | false => rfl
        | true => rw [hc.mono x hfx] at h; cases h
      · rw [h]; exact hfo
      · cases h with
        | child hm _ => exact hkids _ hm
        | step hm hd hb => exact hc.below hb hd (hkids _ hm)
  subst e
  refine ⟨setDirtyFlags s f, by simpa [c3object_set_dirty] using ht, rfl, rfl, ?_, ?_, ?_⟩
  · intro x
    simpa using hiff x
  · intro x hx hxo hb
    cases hfx : f x with
    | true => simp [hfx]
    | false =>
      rcases (hiff x).mp hfx with h | h | h
      · rw [hx] at h; cases h
      · exact absurd h hxo
      · exact absurd h hb
  · intro hF hU hlive d hd
    have : f d = false := by
      cases hdd : (s.obj d).dirty with
      | false => exact (hiff d).mpr (Or.inl hdd)
      | true =>
        rcases dirtyBelow_of_desc hF hU hlive hd hdd with h | h
        · exact (hiff d).mpr (Or.inr (Or.inl h.symm))
        · exact (hiff d).mpr (Or.inr (Or.inr h))
    simpa using this

theorem set_dirty_false_exact_witness :
    ∃ t, c3object_set_dirty 3 demo 0 false = some t ∧
      t = setDirtyFlags demo (fun x => (t.obj x).dirty) ∧
      t.geo = demo.geo ∧
      (∀ x, (t.obj x).dirty = false ↔
        ((demo.obj x).dirty = false ∨ x = 0 ∨ DirtyBelow demo 0 x)) ∧
      (∀ x, (demo.obj x).dirty = true → x ≠ 0 → ¬ DirtyBelow demo 0 x →
        (t.obj x).dirty = true) ∧
      (Forest demo → UpClosed demo → demo.live 0 = true →
        ∀ d, Desc demo 0 d → (t.obj d).dirty = false) :=
  set_dirty_false_exact demo 0 3 3 rfl (le_refl 3)

/-! ## The exact effect of `c3object_clear` and `c3object_dispose` on a tree -/

theorem clearTransforms_eq (s : Scene M) (ts : List Nat) :
    ts.foldl (fun s t => c3transform_dispose (s.modXf t (fun r => r.withObject none)) t) s =
      { s with
        xf := fun t => if t ∈ ts then (s.xf t).withObject none else s.xf t
        xfDisposed := s.xfDisposed ++ ts.map (fun t => (t, none)) } := by
  induction ts generalizing s with
  | nil => simp
  | cons t ts ih =>
    simp only [List.foldl]
    rw [ih]
    simp only [c3transform_dispose, Scene.modXf, List.append_assoc, List.singleton_append,
      List.map_cons, upd_same, c3transform.withObject_object]
    congr 1
    funext x
    by_cases hx : x = t
    · subst hx
      by_cases hm : x ∈ ts <;> simp [hm, upd, c3transform.withObject]
    · by_cases hm : x ∈ ts <;> simp [hm, hx, upd]

theorem clearGeometry_eq (s : Scene M) (gs : List Nat) :
    gs.foldl (fun s g => c3geometry_dispose (s.modGeo g (fun r => r.withObject none)) g) s =
      { s with
        geo := fun g => if g ∈ gs then (s.geo g).withObject none else s.geo g
        geoDisposed := s.geoDisposed ++ gs.map (fun g => (g, none)) } := by
  induction gs generalizing s with
  | nil => simp
  | cons g gs ih =>
    simp only [List.foldl]
    rw [ih]
    simp only [c3geometry_dispose, Scene.modGeo, List.append_assoc, List.singleton_append,
      List.map_cons, upd_same, c3geometry.withObject_object]
    congr 1
    funext x
    by_cases hx : x = g
    · subst hx
      by_cases hm : x ∈ gs <;> simp [hm, upd, c3geometry.withObject]
    · by_cases hm : x ∈ gs <;> simp [hm, hx, upd]

/-- The objects below `a` are the same in two heaps that agree on the `objects` arrays
below `a`. -/
theorem Desc.congr_region {s t : Scene M} {a : Nat}
    (h : ∀ y, Desc s a y → (t.obj y).objects = (s.obj y).objects) (x : Nat) :
    Desc t a x ↔ Desc s a x := by
  constructor
  · intro hd
    induction hd with
    | refl => exact Desc.refl _
    | @step o c d hc _ ih =>
      have hc' : c ∈ (s.obj o).objects := by rw [← h o (Desc.refl o)]; exact hc
      exact Desc.step hc' (ih (fun y hy => h y (Desc.step hc' hy)))
  · intro hd
    induction hd with
    | refl => exact Desc.refl _
    | @step o c d hc _ ih =>
      have hc' : c ∈ (t.obj o).objects := by rw [h o (Desc.refl o)]; exact hc
      exact Desc.step hc' (ih (fun y hy => h y (Desc.step hc hy)))

theorem depthWithin_congr_region {s t : Scene M} {n a : Nat}
    (h : ∀ y, Desc s a y → (t.obj y).objects = (s.obj y).objects)
    (hd : depthWithin s n a = true) : depthWithin t n a = true := by
  induction n generalizing a with
  | zero => simp [depthWithin] at hd
  | succ n ih =>
    simp only [depthWithin, List.all_eq_true] at hd ⊢
    intro c hc
    rw [h a (Desc.refl a)] at hc
    exact ih (fun y hy => h y (Desc.step hc hy)) (hd c hc)

theorem TreeBelow.of_forest {s : Scene M} {n c : Nat} (hF : Forest s)
    (hl : s.live c = true) (hd : depthWithin s n c = true) : TreeBelow s n c := by
  refine ⟨fun x hx => hF.desc_live hl hx, fun y k hy hk => hF.parent_of_desc hl hy hk,
    fun y hy => ?_, hd⟩
  rw [List.nodup_iff_count_le_one]
  intro k
  by_cases hk : k ∈ (s.obj y).objects
  · obtain ⟨hkl, hkp⟩ := hF.child y k (hF.desc_live hl hy) hk
    rw [(hF.parent k y hkl hkp).2]
  · rw [List.count_eq_zero_of_not_mem hk]
    exact Nat.zero_le 1

theorem TreeBelow.below_child {s : Scene M} {n c k : Nat} (h : TreeBelow s (n + 1) c)
    (hk : k ∈ (s.obj c).objects) : TreeBelow s n k :=
  ⟨fun x hx => h.live x (Desc.step hk hx),
    fun y j hy hj => h.par y j (Desc.step hk hy) hj,
    fun y hy => h.nodup y (Desc.step hk hy),
    depthWithin_child h.depth hk⟩

theorem TreeBelow.congr_tree {s t : Scene M} {n c : Nat} (h : TreeBelow s n c)
    (hobj : ∀ y, Desc s c y → (t.obj y).objects = (s.obj y).objects ∧ t.live y = s.live y)
    (hpar : ∀ y, Desc s c y → y ≠ c → (t.obj y).parent = (s.obj y).parent) :
    TreeBelow t n c := by
  have hd : ∀ x, Desc t c x ↔ Desc s c x := Desc.congr_region (fun y hy => (hobj y hy).1)
  refine ⟨fun x hx => ?_, fun y k hy hk => ?_, fun y hy => ?_,
    depthWithin_congr_region (fun y hy => (hobj y hy).1) h.depth⟩
  · rw [(hobj x ((hd x).mp hx)).2]
    exact h.live x ((hd x).mp hx)
  · have hy' := (hd y).mp hy
    rw [(hobj y hy').1] at hk
    have hkc : k ≠ c := by
      rintro rfl
      exact not_desc_of_child (depthWithin_desc h.depth hy') hk hy'
    rw [hpar k (hy'.trans_desc (Desc.child hk)) hkc]
    exact h.par y k hy' hk
  · rw [(hobj y ((hd y).mp hy)).1]
    exact h.nodup y ((hd y).mp hy)

theorem TreeBelow.disjoint {s : Scene M} {n o k1 k2 x : Nat} (h : TreeBelow s n o)
    (h1 : k1 ∈ (s.obj o).objects) (h2 : k2 ∈ (s.obj o).objects)
    (hx1 : Desc s k1 x) (hx2 : Desc s k2 x) : k1 = k2 :=
  siblings_disjoint h.par h.depth (Desc.refl o) h1 h2 hx1 hx2

/-- Below an object of bounded depth, the objects below the children are the proper
descendants. -/
theorem proper_desc_iff {s : Scene M} {n o : Nat} (h : depthWithin s n o = true) (x : Nat) :
    (∃ k ∈ (s.obj o).objects, Desc s k x) ↔ (Desc s o x ∧ x ≠ o) := by
  constructor
  · rintro ⟨k, hk, hx⟩
    refine ⟨Desc.step hk hx, ?_⟩
    rintro rfl
    exact not_desc_of_child h hk hx
  · rintro ⟨hd, hne⟩
    cases hd with
    | refl => exact absurd rfl hne
    | step hk hx => exact ⟨_, hk, hx⟩

theorem Swept.nil (s : Scene M) : Swept s s [] := by
  refine ⟨fun x => by simp, fun _ _ => rfl, fun x h => ?_, ⟨[], by simp⟩, ⟨[], by simp⟩,
    ⟨[], by simp⟩, fun _ h => h, fun _ h => h⟩
  obtain ⟨c, hc, _⟩ := h
  simp at hc

/-- Disposing of the tree below `c`, then of the trees below `cs`, which are disjoint from
it. -/
theorem Swept.cons_swept {u u1 t : Scene M} {c : Nat} {cs : List Nat}
    (h1 : Swept u u1 [c]) (h2 : Swept u1 t cs)
    (hdis : ∀ c' ∈ cs, ∀ x, Desc u c' x → ¬ Desc u c x) : Swept u t (c :: cs) := by
  have hout : ∀ x, ¬ Desc u c x → u1.obj x = u.obj x := by
    intro x hx
    apply h1.keep
    rintro ⟨c0, hc0, hx0⟩
    simp only [List.mem_singleton] at hc0
    subst hc0
    exact hx hx0
  have hd : ∀ c' ∈ cs, ∀ x, Desc u1 c' x ↔ Desc u c' x := by
    intro c' hc' x
    exact Desc.congr_region (fun y hy => by rw [hout y (hdis c' hc' y hy)]) x
  have hreg : ∀ x, (∃ c' ∈ cs, Desc u1 c' x) ↔ (∃ c' ∈ cs, Desc u c' x) := by
    intro x
    constructor
    · rintro ⟨c', hc', hx⟩; exact ⟨c', hc', (hd c' hc' x).mp hx⟩
    · rintro ⟨c', hc', hx⟩; exact ⟨c', hc', (hd c' hc' x).mpr hx⟩
  have hsplit : ∀ x, (∃ c0 ∈ c :: cs, Desc u c0 x) ↔ (Desc u c x ∨ ∃ c' ∈ cs, Desc u c' x) := by
    intro x
    simp only [List.mem_cons, exists_eq_or_imp]
  have h1reg : ∀ x, (∃ c0 ∈ [c], Desc u c0 x) ↔ Desc u c x := by
    intro x
    simp only [List.mem_singleton, exists_eq_left]
  refine ⟨fun x => ?_, fun x hx => ?_, fun x hx => ?_, ?_, ?_, ?_,
    fun g hg => h2.gnull g (h1.gnull g hg), fun g hg => h2.xnull g (h1.xnull g hg)⟩
  · rw [h2.live, h1.live, hreg, hsplit, h1reg]
    constructor
    · rintro ⟨⟨hl, k1⟩, k2⟩
      exact ⟨hl, fun k => k.elim k1 k2⟩
    · rintro ⟨hl, k⟩
      exact ⟨⟨hl, fun a => k (Or.inl a)⟩, fun a => k (Or.inr a)⟩
  · rw [hsplit, not_or] at hx
    rw [h2.keep x (by rw [hreg]; exact hx.2)]
    exact hout x hx.1
  · by_cases hx2 : ∃ c' ∈ cs, Desc u c' x
    · exact h2.parents x ((hreg x).mpr hx2)
    · rw [h2.keep x (by rw [hreg]; exact hx2)]
      apply h1.parents
      rw [h1reg]
      rcases (hsplit x).mp hx with h | h
      · exact h
      · exact absurd h hx2
  · obtain ⟨n1, e1, nd1, m1⟩ := h1.freed
    obtain ⟨n2, e2, nd2, m2⟩ := h2.freed
    refine ⟨n1 ++ n2, by rw [e2, e1, List.append_assoc], ?_, fun x => ?_⟩
    · refine List.Nodup.append nd1 nd2 ?_
      intro x hx1 hx2
      rw [m1, h1reg] at hx1
      rw [m2, hreg] at hx2
      obtain ⟨c', hc', hx'⟩ := hx2
      exact hdis c' hc' x hx' hx1
    · rw [List.mem_append, m1, m2, hreg, hsplit, h1reg]
  · obtain ⟨n1, e1, m1⟩ := h1.geoLog
    obtain ⟨n2, e2, m2⟩ := h2.geoLog
    refine ⟨n1 ++ n2, by rw [e2, e1, List.append_assoc], fun g hg => ?_⟩
    rcases List.mem_append.mp hg with hg | hg
    · obtain ⟨hn, c0, hc0, x, hx, hgx⟩ := m1 g hg
      simp only [List.mem_singleton] at hc0
      subst hc0
      exact ⟨hn, c0, List.mem_cons_self _ _, x, hx, hgx⟩
    · obtain ⟨hn, c', hc', x, hx, hgx⟩ := m2 g hg
      have hx' := (hd c' hc' x).mp hx
      rw [hout x (hdis c' hc' x hx')] at hgx
      exact ⟨hn, c', List.mem_cons_of_mem _ hc', x, hx', hgx⟩
  · obtain ⟨n1, e1, m1⟩ := h1.xfLog
    obtain ⟨n2, e2, m2⟩ := h2.xfLog
    refine ⟨n1 ++ n2, by rw [e2, e1, List.append_assoc], fun g hg => ?_⟩
    rcases List.mem_append.mp hg with hg | hg
    · obtain ⟨hn, c0, hc0, x, hx, hgx⟩ := m1 g hg
      simp only [List.mem_singleton] at hc0
      subst hc0
      exact ⟨hn, c0, List.mem_cons_self _ _, x, hx, hgx⟩
    · obtain ⟨hn, c', hc', x, hx, hgx⟩ := m2 g hg
      have hx' := (hd c' hc' x).mp hx
      rw [hout x (hdis c' hc' x hx')] at hgx
      exact ⟨hn, c', List.mem_cons_of_mem _ hc', x, hx', hgx⟩

/-- Clearing the parent of `c` and then disposing of the tree below it. -/
theorem Swept.detached_swept {s t : Scene M} {c : Nat}
    (h : Swept (s.modObj c (fun r => r.withParent none)) t [c]) : Swept s t [c] := by
  have hd : ∀ a x, Desc (s.modObj c (fun r => r.withParent none)) a x ↔ Desc s a x :=
    fun a x => Desc.congr_region (fun y _ => by simp) x
  have hreg : ∀ x, (∃ c0 ∈ [c], Desc (s.modObj c (fun r => r.withParent none)) c0 x)
      ↔ (∃ c0 ∈ [c], Desc s c0 x) := by
    intro x
    constructor
    · rintro ⟨c', hc', hx⟩; exact ⟨c', hc', (hd c' x).mp hx⟩
    · rintro ⟨c', hc', hx⟩; exact ⟨c', hc', (hd c' x).mpr hx⟩
  refine ⟨fun x => ?_, fun x hx => ?_, fun x hx => ?_, ?_, ?_, ?_, h.gnull, h.xnull⟩
  · rw [h.live, hreg]
    simp
  · rw [h.keep x (by rw [hreg]; exact hx)]
    have hxc : x ≠ c := by
      rintro rfl
      exact hx ⟨x, by simp, Desc.refl x⟩
    simp [hxc]
  · exact h.parents x ((hreg x).mpr hx)
  · obtain ⟨n1, e1, nd1, m1⟩ := h.freed
    exact ⟨n1, e1, nd1, fun x => by rw [m1, hreg]⟩
  · obtain ⟨n1, e1, m1⟩ := h.geoLog
    refine ⟨n1, e1, fun g hg => ?_⟩
    obtain ⟨hn, c0, hc0, x, hx, hgx⟩ := m1 g hg
    exact ⟨hn, c0, hc0, x, (hd c0 x).mp hx, by simpa using hgx⟩
  · obtain ⟨n1, e1, m1⟩ := h.xfLog
    refine ⟨n1, e1, fun g hg => ?_⟩
    obtain ⟨hn, c0, hc0, x, hx, hgx⟩ := m1 g hg
    exact ⟨hn, c0, hc0, x, (hd c0 x).mp hx, by simpa using hgx⟩

theorem TreeBelow.detached_tree {s : Scene M} {n c : Nat} (h : TreeBelow s n c) :
    TreeBelow (s.modObj c (fun r => r.withParent none)) n c :=
  h.congr_tree (fun y _ => ⟨by simp, rfl⟩) (fun y _ hy => by simp [hy])

/-- The loop of `_c3object_clear` over children that are roots of disjoint trees. -/
theorem iterM_swept {n : Nat} {disp : Scene M → Nat → Option (Scene M)}
    (hdisp : ∀ (s : Scene M) (c : Nat), TreeBelow s n c → (s.obj c).parent = none →
      ∃ t, disp s c = some t ∧ Swept s t [c])
    (cs : List Nat) :
    ∀ (u : Scene M), cs.Nodup → (∀ c ∈ cs, TreeBelow u n c) →
      (∀ c ∈ cs, ∀ c' ∈ cs, ∀ x, Desc u c x → Desc u c' x → c = c') →
      ∃ t, iterM (fun s c => disp (s.modObj c (fun r => r.withParent none)) c) cs u = some t ∧
        Swept u t cs := by
  induction cs with
  | nil => intro u _ _ _; exact ⟨u, rfl, Swept.nil u⟩
  | cons c cs ih =>
    intro u hnd htree hdis
    obtain ⟨u1, hu1, hs1⟩ :=
      hdisp _ c (htree c (List.mem_cons_self _ _)).detached_tree (by simp)
    have hs1' := hs1.detached_swept
    have hcc : c ∉ cs := (List.nodup_cons.mp hnd).1
    have hsep : ∀ c' ∈ cs, ∀ x, Desc u c' x → ¬ Desc u c x := by
      intro c' hc' x hx hcx
      have := hdis c (List.mem_cons_self _ _) c' (List.mem_cons_of_mem _ hc') x hcx hx
      exact hcc (this ▸ hc')
    have hout : ∀ c' ∈ cs, ∀ y, Desc u c' y → u1.obj y = u.obj y ∧ u1.live y = u.live y := by
      intro c' hc' y hy
      have hny : ¬ ∃ c0 ∈ [c], Desc u c0 y := by
        rintro ⟨c0, hc0, hy0⟩
        simp only [List.mem_singleton] at hc0
        subst hc0
        exact hsep c' hc' y hy hy0
      refine ⟨hs1'.keep y hny, ?_⟩
      have := hs1'.live y
      cases hl : u.live y with
      | false =>
        cases hl1 : u1.live y with
        | false => rfl
        | true => rw [hl1, hl] at this; simp at this
      | true => rw [hl] at this; exact this.mpr ⟨rfl, hny⟩
    have htree1 : ∀ c' ∈ cs, TreeBelow u1 n c' := by
      intro c' hc'
      refine (htree c' (List.mem_cons_of_mem _ hc')).congr_tree (fun y hy => ?_) (fun y hy _ => ?_)
      · obtain ⟨e1, e2⟩ := hout c' hc' y hy
        exact ⟨by rw [e1], e2⟩
      · rw [(hout c' hc' y hy).1]
    have hd1 : ∀ c' ∈ cs, ∀ x, Desc u1 c' x ↔ Desc u c' x := by
      intro c' hc' x
      exact Desc.congr_region (fun y hy => by rw [(hout c' hc' y hy).1]) x
    obtain ⟨t, ht, hs2⟩ := ih u1 (List.nodup_cons.mp hnd).2 htree1
      (fun a ha b hb x hxa hxb =>
        hdis a (List.mem_cons_of_mem _ ha) b (List.mem_cons_of_mem _ hb) x
          ((hd1 a ha x).mp hxa) ((hd1 b hb x).mp hxb))
    exact ⟨t, by simp only [iterM, hu1, ht], hs1'.cons_swept hs2 hsep⟩

/-- The heap of `_c3object_clear` at the start of the loop over the children. -/
theorem clear_enter (s : Scene M) (o : Nat) :
    ∃ s2, (s.obj o).geometry.foldl
        (fun s g => c3geometry_dispose (s.modGeo g (fun r => r.withObject none)) g)
        ((s.obj o).transform.foldl
          (fun s t => c3transform_dispose (s.modXf t (fun r => r.withObject none)) t) s) = s2 ∧
      s2.obj = s.obj ∧ s2.live = s.live ∧ s2.freed = s.freed ∧
      s2.geoDisposed = s.geoDisposed ++ (s.obj o).geometry.map (fun g => (g, none)) ∧
      s2.xfDisposed = s.xfDisposed ++ (s.obj o).transform.map (fun t => (t, none)) ∧
      (∀ g, (s.geo g).object = none ∨ g ∈ (s.obj o).geometry → (s2.geo g).object = none) ∧
      (∀ g, (s.xf g).object = none ∨ g ∈ (s.obj o).transform → (s2.xf g).object = none) := by
  refine ⟨_, rfl, ?_, ?_, ?_, ?_, ?_, ?_, ?_⟩
  all_goals rw [clearGeometry_eq, clearTransforms_eq]
  · intro g hg
    by_cases hm : g ∈ (s.obj o).geometry
    · simp [hm]
    · rcases hg with h | h
      · simp [hm, h]
      · exact absurd h hm
  · intro g hg
    by_cases hm : g ∈ (s.obj o).transform
    · simp [hm]
    · rcases hg with h | h
      · simp [hm, h]
      · exact absurd h hm

/-- On a tree `_c3object_clear` returns, with the effect `Cleared`, if the call it makes
for each child disposes of the tree below that child. -/
theorem clear_cleared {n : Nat} {disp : Scene M → Nat → Option (Scene M)}
    (hdisp : ∀ (s : Scene M) (c : Nat), TreeBelow s n c → (s.obj c).parent = none →
      ∃ t, disp s c = some t ∧ Swept s t [c])
    {s : Scene M} {o : Nat} (htree : TreeBelow s (n + 1) o) :
    ∃ u, _c3object_clear disp s o = some u ∧ Cleared s u o := by
  obtain ⟨s2, hs2, ho2, hl2, hf2, hg2, hx2, hgn2, hxn2⟩ := clear_enter s o
  have hd2 : ∀ a x, Desc s2 a x ↔ Desc s a x :=
    fun a x => Desc.congr_region (fun y _ => by rw [ho2]) x
  obtain ⟨s3, h3, hsw⟩ := iterM_swept hdisp (s.obj o).objects s2
    (htree.nodup o (Desc.refl o))
    (fun k hk => (htree.below_child hk).congr_tree (fun y _ => ⟨by rw [ho2], by rw [hl2]⟩)
      (fun y _ _ => by rw [ho2]))
    (fun a ha b hb x hxa hxb => htree.disjoint ha hb ((hd2 a x).mp hxa) ((hd2 b x).mp hxb))
  have hreg : ∀ x, (∃ k ∈ (s.obj o).objects, Desc s2 k x) ↔ (Desc s o x ∧ x ≠ o) := by
    intro x
    rw [← proper_desc_iff htree.depth]
    constructor
    · rintro ⟨k, hk, hx⟩; exact ⟨k, hk, (hd2 k x).mp hx⟩
    · rintro ⟨k, hk, hx⟩; exact ⟨k, hk, (hd2 k x).mpr hx⟩
  have hself : s3.obj o = s.obj o := by
    rw [hsw.keep o (by rw [hreg]; exact fun h => h.2 rfl), ho2]
  have hret : _c3object_clear disp s o = some (s3.modObj o
      (fun r => ((r.withObjects []).withGeometry []).withTransform [])) := by
    simp only [_c3object_clear, hs2, h3]
  refine ⟨_, hret, ?_⟩
  refine ⟨fun x => ?_, ?_, fun x hx => ?_, fun x hx hxo => ?_, ?_, ?_, ?_, fun g hg => ?_,
    fun g hg => ?_⟩
  · show s3.live x = true ↔ _
    rw [hsw.live, hreg, hl2]
  · simp [hself]
  · have hxo : x ≠ o := by rintro rfl; exact hx (Desc.refl x)
    rw [modObj_obj_ne _ _ hxo, hsw.keep x (by rw [hreg]; exact fun h => hx h.1), ho2]
  · rw [modObj_obj_ne _ _ hxo]
    exact hsw.parents x ((hreg x).mpr ⟨hx, hxo⟩)
  · obtain ⟨new, e, nd, m⟩ := hsw.freed
    exact ⟨new, by show s3.freed = _; rw [e, hf2], nd, fun x => by rw [m, hreg]⟩
  · obtain ⟨new, e, m⟩ := hsw.geoLog
    refine ⟨new, by show s3.geoDisposed = _; rw [e, hg2], fun g hg => ?_⟩
    obtain ⟨hn, k, hk, x, hx, hgx⟩ := m g hg
    have := (hreg x).mp ⟨k, hk, hx⟩
    exact ⟨hn, x, this.1, this.2, by rw [ho2] at hgx; exact hgx⟩
  · obtain ⟨new, e, m⟩ := hsw.xfLog
    refine ⟨new, by show s3.xfDisposed = _; rw [e, hx2], fun g hg => ?_⟩
    obtain ⟨hn, k, hk, x, hx, hgx⟩ := m g hg
    have := (hreg x).mp ⟨k, hk, hx⟩
    exact ⟨hn, x, this.1, this.2, by rw [ho2] at hgx; exact hgx⟩
  · exact hsw.gnull g (hgn2 g hg)
  · exact hsw.xnull g (hxn2 g hg)

/-- On a detached tree `c3object_dispose` returns, with the effect `Swept`. -/
theorem dispose_swept (n : Nat) :
    ∀ (fuel : Nat) (s : Scene M) (c : Nat), n ≤ fuel → TreeBelow s n c →
      (s.obj c).parent = none → ∃ t, c3object_dispose fuel s c = some t ∧ Swept s t [c] := by
  induction n with
  | zero => intro fuel s c _ h; have := h.depth; simp [depthWithin] at this
  | succ n ih =>
    intro fuel s c hfuel htree hpar
    cases fuel with
    | zero => omega
    | succ f =>
      obtain ⟨u, hu, hcl⟩ := clear_cleared
        (fun s c ht hp => ih f s c (by omega) ht hp) htree
      have hpu : (u.obj c).parent = none := by rw [hcl.self]; simpa using hpar
      have hreg : ∀ x, (∃ c0 ∈ [c], Desc s c0 x) ↔ Desc s c x := by
        intro x
        simp only [List.mem_singleton, exists_eq_left]
      have hret : c3object_dispose (f + 1) s c
          = some { u with live := upd u.live c false, freed := u.freed ++ [c] } := by
        simp only [c3object_dispose, hu, _c3object_dispose, detachObject, hpu]
      refine ⟨_, hret, ?_⟩
      refine ⟨fun x => ?_, fun x hx => ?_, fun x hx => ?_, ?_, ?_, ?_,
        fun g hg => hcl.gnull g (Or.inl hg), fun g hg => hcl.xnull g (Or.inl hg)⟩
      · rw [hreg]
        show upd u.live c false x = true ↔ _
        by_cases hxc : x = c
        · subst hxc
          simp [Desc.refl]
        · rw [upd_ne _ _ hxc, hcl.live]
          simp [hxc]
      · rw [hreg] at hx
        exact hcl.keep x hx
      · rw [hreg] at hx
        by_cases hxc : x = c
        · subst hxc; exact hpu
        · exact hcl.parents x hx hxc
      · obtain ⟨new, e, nd, m⟩ := hcl.freed
        refine ⟨new ++ [c], by show u.freed ++ [c] = _; rw [e, List.append_assoc], ?_,
          fun x => ?_⟩
        · refine List.Nodup.append nd (List.nodup_singleton c) ?_
          intro x hx1 hx2
          simp only [List.mem_singleton] at hx2
          exact ((m x).mp hx1).2 hx2
        · rw [hreg, List.mem_append, m, List.mem_singleton]
          constructor
          · rintro (h | h)
            · exact h.1
            · rw [h]; exact Desc.refl c
          · intro h
            by_cases hxc : x = c
            · exact Or.inr hxc
            · exact Or.inl ⟨h, hxc⟩
      · obtain ⟨new, e, m⟩ := hcl.geoLog
        refine ⟨(s.obj c).geometry.map (fun g => (g, none)) ++ new,
          by show u.geoDisposed = _; rw [e, List.append_assoc], fun g hg => ?_⟩
        rcases List.mem_append.mp hg with hg | hg
        · obtain ⟨g0, hg0, rfl⟩ := List.mem_map.mp hg
          exact ⟨rfl, c, by simp, c, Desc.refl c, hg0⟩
        · obtain ⟨hn, x, hx, _, hgx⟩ := m g hg
          exact ⟨hn, c, by simp, x, hx, hgx⟩
      · obtain ⟨new, e, m⟩ := hcl.xfLog
        refine ⟨(s.obj c).transform.map (fun t => (t, none)) ++ new,
          by show u.xfDisposed = _; rw [e, List.append_assoc], fun g hg => ?_⟩
        rcases List.mem_append.mp hg with hg | hg
        · obtain ⟨g0, hg0, rfl⟩ := List.mem_map.mp hg
          exact ⟨rfl, c, by simp, c, Desc.refl c, hg0⟩
        · obtain ⟨hn, x, hx, _, hgx⟩ := m g hg
          exact ⟨hn, c, by simp, x, hx, hgx⟩

theorem Forest.desc_of_anc {s : Scene M} (hF : Forest s) {a x : Nat} (hl : s.live x = true)
    (h : Anc s a x) : Desc s a x ∧ s.live a = true := by
  induction h with
  | @parent x hp =>
    obtain ⟨hla, hcnt⟩ := hF.parent x a hl hp
    exact ⟨Desc.child (List.count_pos_iff.mp (by rw [hcnt]; exact Nat.one_pos)), hla⟩
  | @step p x hp _ ih =>
    obtain ⟨hlp, hcnt⟩ := hF.parent x p hl hp
    obtain ⟨hd, hla⟩ := ih hlp
    exact ⟨hd.trans_desc (Desc.child (List.count_pos_iff.mp (by rw [hcnt]; exact Nat.one_pos))),
      hla⟩

/-- In a forest, no ancestor of a live object of bounded depth lies below it. -/
theorem Forest.anc_not_below {s : Scene M} (hF : Forest s) {n o a : Nat}
    (hl : s.live o = true) (hd : depthWithin s n o = true) (h : Anc s a o) :
    ¬ Desc s o a := by
  intro hoa
  cases h with
  | parent hp =>
    have hm : o ∈ (s.obj a).objects :=
      List.count_pos_iff.mp (by rw [(hF.parent o a hl hp).2]; exact Nat.one_pos)
    exact not_desc_of_child (depthWithin_desc hd hoa) hm hoa
  | @step p _ hp h' =>
    obtain ⟨hlp, hcnt⟩ := hF.parent o p hl hp
    have hm : o ∈ (s.obj p).objects := List.count_pos_iff.mp (by rw [hcnt]; exact Nat.one_pos)
    have hop : Desc s o p := hoa.trans_desc (hF.desc_of_anc hlp h').1
    exact not_desc_of_child (depthWithin_desc hd hop) hm hop

theorem demo_xfOwned : XfOwned demo := by
  constructor
  · intro p t ht
    rcases p with _ | _ | _ | _ | p <;> simp [demo, demoObj] at ht ⊢
    · subst ht; rfl
    · subst ht; rfl
  · intro t p ht
    rcases t with _ | _ | t <;> simp [demo, demoXf] at ht ⊢
    · subst ht; decide
    · subst ht; decide

/-- C12. In a forest with owned geometries and transforms, for a live object `o` below which
every path through `objects` arrays is finite, `c3object_clear(o)` returns.  Afterwards
the three arrays of `o` are empty; every proper descendant of `o` is dead, has been
passed to `free` exactly once, and has a null parent; `c3geometry_dispose` has been
called exactly once for every geometry of `o` and `c3transform_dispose` exactly once for
every transform of `o`; every call to `c3geometry_dispose` and to `c3transform_dispose`
made during the clear was on a geometry or transform whose back-reference was already
null when the call was made, and these back-references are null afterwards; `o` is
live, with the parent, the dirty flag and every other field but the three arrays as
before; and every
other live object has the record it had, among them the parent of `o` (so `o` keeps
its position in the `objects` of its parent) and the ancestors of `o` (so their dirty
flags are unchanged). -/
theorem clear_empties_in_place (s : Scene M) (o n fuel : Nat)
    (hF : Forest s) (hG : GeoOwned s) (hX : XfOwned s) (hlive : s.live o = true)
    (hdepth : depthWithin s (n + 1) o = true) (hfuel : n ≤ fuel) :
    ∃ u newF newG newX, c3object_clear fuel s o = some u ∧
      (u.obj o).objects = [] ∧ (u.obj o).geometry = [] ∧ (u.obj o).transform = [] ∧
      u.freed = s.freed ++ newF ∧ u.geoDisposed = s.geoDisposed ++ newG ∧
      u.xfDisposed = s.xfDisposed ++ newX ∧
      (∀ d, Desc s o d → d ≠ o →
        u.live d = false ∧ newF.count d = 1 ∧ (u.obj d).parent = none) ∧
      (∀ x, x ∈ newF → Desc s o x ∧ x ≠ o) ∧
      (∀ e ∈ newG, e.2 = none) ∧ (∀ e ∈ newX, e.2 = none) ∧
      (∀ g ∈ (s.obj o).geometry,
        (newG.map Prod.fst).count g = 1 ∧ (g, none) ∈ newG ∧ (u.geo g).object = none) ∧
      (∀ t ∈ (s.obj o).transform,
        (newX.map Prod.fst).count t = 1 ∧ (t, none) ∈ newX ∧ (u.xf t).object = none) ∧
      u.live o = true ∧
      u.obj o = (((s.obj o).withObjects []).withGeometry []).withTransform [] ∧
      (u.obj o).parent = (s.obj o).parent ∧ (u.obj o).dirty = (s.obj o).dirty ∧
      (∀ x, x ≠ o → u.live x = true → s.live x = true ∧ u.obj x = s.obj x) ∧
      (∀ P, (s.obj o).parent = some P →
        u.live P = true ∧ (u.obj P).objects = (s.obj P).objects) ∧
      (∀ a, Anc s a o → u.live a = true ∧ (u.obj a).dirty = (s.obj a).dirty) := by
  have htree : TreeBelow s (n + 1) o := TreeBelow.of_forest hF hlive hdepth
  obtain ⟨u, hu, hcl⟩ := @clear_cleared _ n (c3object_dispose fuel)
    (fun s c ht hp => dispose_swept n fuel s c hfuel ht hp) s o htree
  obtain ⟨newF, eF, ndF, mF⟩ := hcl.freed
  obtain ⟨newG, eG, mG⟩ := hcl.geoLog
  obtain ⟨newX, eX, mX⟩ := hcl.xfLog
  have hanc : ∀ a, Anc s a o → u.live a = true ∧ u.obj a = s.obj a := by
    intro a ha
    have hnb := hF.anc_not_below hlive hdepth ha
    exact ⟨(hcl.live a).mpr ⟨(hF.desc_of_anc hlive ha).2, fun h => hnb h.1⟩, hcl.keep a hnb⟩
  refine ⟨u, newF, (s.obj o).geometry.map (fun g => (g, none)) ++ newG,
    (s.obj o).transform.map (fun t => (t, none)) ++ newX, hu,
    by rw [hcl.self]; rfl, by rw [hcl.self]; rfl, by rw [hcl.self]; rfl, eF,
    by rw [eG, List.append_assoc], by rw [eX, List.append_assoc], ?_, fun x hx => (mF x).mp hx,
    ?_, ?_, ?_, ?_, ?_, hcl.self, by rw [hcl.self]; rfl, by rw [hcl.self]; rfl, ?_, ?_, ?_⟩
  · intro d hd hdo
    refine ⟨?_, List.count_eq_one_of_mem ndF ((mF d).mpr ⟨hd, hdo⟩), hcl.parents d hd hdo⟩
    cases hl : u.live d with
    | false => rfl
    | true => exact absurd ⟨hd, hdo⟩ ((hcl.live d).mp hl).2
  · intro e he
    rcases List.mem_append.mp he with h | h
    · obtain ⟨g, _, rfl⟩ := List.mem_map.mp h
      rfl
    · exact (mG e h).1
  · intro e he
    rcases List.mem_append.mp he with h | h
    · obtain ⟨t, _, rfl⟩ := List.mem_map.mp h
      rfl
    · exact (mX e h).1
  · intro g hg
    refine ⟨?_, List.mem_append_left _ (List.mem_map.mpr ⟨g, hg, rfl⟩),
      hcl.gnull g (Or.inr hg)⟩
    have hown := hG.owner o g hg
    have hnot : g ∉ newG.map Prod.fst := by
      intro hm
      obtain ⟨e, he, rfl⟩ := List.mem_map.mp hm
      obtain ⟨-, x, _, hxo, hgx⟩ := mG e he
      have := hG.owner x e.1 hgx
      rw [hown] at this
      exact hxo (Option.some.inj this).symm
    rw [List.map_append, List.map_map, List.count_append, List.count_eq_zero_of_not_mem hnot]
    have : (Prod.fst ∘ fun g => ((g, none) : Nat × Option Nat)) = id := rfl
    rw [this, List.map_id, hG.member g o hown]
  · intro t ht
    refine ⟨?_, List.mem_append_left _ (List.mem_map.mpr ⟨t, ht, rfl⟩),
      hcl.xnull t (Or.inr ht)⟩
    have hown := hX.owner o t ht
    have hnot : t ∉ newX.map Prod.fst := by
      intro hm
      obtain ⟨e, he, rfl⟩ := List.mem_map.mp hm
      obtain ⟨-, x, _, hxo, htx⟩ := mX e he
      have := hX.owner x e.1 htx
      rw [hown] at this
      exact hxo (Option.some.inj this).symm
    rw [List.map_append, List.map_map, List.count_append, List.count_eq_zero_of_not_mem hnot]
    have : (Prod.fst ∘ fun t => ((t, none) : Nat × Option Nat)) = id := rfl
    rw [this, List.map_id, hX.member t o hown]
  · exact (hcl.live o).mpr ⟨hlive, fun h => h.2 rfl⟩
  · intro x hxo hx
    obtain ⟨hs, hn⟩ := (hcl.live x).mp hx
    exact ⟨hs, hcl.keep x (fun hd => hn ⟨hd, hxo⟩)⟩
  · intro P hP
    obtain ⟨h1, h2⟩ := hanc P (Anc.parent hP)
    exact ⟨h1, by rw [h2]⟩
  · intro a ha
    obtain ⟨h1, h2⟩ := hanc a ha
    exact ⟨h1, by rw [h2]⟩

theorem clear_empties_in_place_witness :
    ∃ u newF newG newX, c3object_clear 1 demo 1 = some u ∧
      (u.obj 1).objects = [] ∧ (u.obj 1).geometry = [] ∧ (u.obj 1).transform = [] ∧
      u.freed = demo.freed ++ newF ∧ u.geoDisposed = demo.geoDisposed ++ newG ∧
      u.xfDisposed = demo.xfDisposed ++ newX ∧
      (∀ d, Desc demo 1 d → d ≠ 1 →
        u.live d = false ∧ newF.count d = 1 ∧ (u.obj d).parent = none) ∧
      (∀ x, x ∈ newF → Desc demo 1 x ∧ x ≠ 1) ∧
      (∀ e ∈ newG, e.2 = none) ∧ (∀ e ∈ newX, e.2 = none) ∧
      (∀ g ∈ (demo.obj 1).geometry,
        (newG.map Prod.fst).count g = 1 ∧ (g, none) ∈ newG ∧ (u.geo g).object = none) ∧
      (∀ t ∈ (demo.obj 1).transform,
        (newX.map Prod.fst).count t = 1 ∧ (t, none) ∈ newX ∧ (u.xf t).object = none) ∧
      u.live 1 = true ∧
      u.obj 1 = (((demo.obj 1).withObjects []).withGeometry []).withTransform [] ∧
      (u.obj 1).parent = (demo.obj 1).parent ∧ (u.obj 1).dirty = (demo.obj 1).dirty ∧
      (∀ x, x ≠ 1 → u.live x = true → demo.live x = true ∧ u.obj x = demo.obj x) ∧
      (∀ P, (demo.obj 1).parent = some P →
        u.live P = true ∧ (u.obj P).objects = (demo.obj P).objects) ∧
      (∀ a, Anc demo a 1 → u.live a = true ∧ (u.obj a).dirty = (demo.obj a).dirty) :=
  clear_empties_in_place demo 1 1 1 demo_forest demo_geoOwned demo_xfOwned rfl rfl (le_refl 1)

/-- The parent chain is the same in two heaps that agree on the parents of its objects. -/
theorem chain_congr_on {s t : Scene M} (n : Nat) (o : Option Nat)
    (h : ∀ x ∈ chain s n o, (t.obj x).parent = (s.obj x).parent) :
    chain t n o = chain s n o ∧ reachesRoot t n o = reachesRoot s n o := by
  induction n generalizing o with
  | zero => cases o <;> exact ⟨rfl, rfl⟩
  | succ n ih =>
    cases o with
    | none => exact ⟨rfl, rfl⟩
    | some o =>
      have ho := h o (by simp [chain])
      obtain ⟨h1, h2⟩ := ih (s.obj o).parent (fun x hx => h x (by simp [chain, hx]))
      simp only [chain, reachesRoot, ho]
      exact ⟨by rw [h1], h2⟩

/-- C11. In a forest, for a live object `o` below which every path through `objects` arrays is
finite and whose parent chain reaches a null parent, `c3object_dispose(o)` returns, and
afterwards the live objects are those that were live and are not `o` or one of its
descendants.  When `o` has the parent `P`: `P.objects` is its previous value with the
one occurrence of `o` erased (the other children keep their order), `P` and every
ancestor of `P` are live and dirty, every surviving object other than `P` keeps its
`objects`, and every surviving object that is neither `P` nor an ancestor of `P` keeps
its whole record.  When `o` has no parent, every surviving object keeps its record. -/
theorem dispose_removes_subtree (s : Scene M) (o n fuel : Nat)
    (hF : Forest s) (hlive : s.live o = true)
    (hdepth : depthWithin s n o = true) (hchain : reachesRoot s n (some o) = true)
    (hfuel : n ≤ fuel) :
    ∃ t, c3object_dispose fuel s o = some t ∧
      (∀ x, t.live x = true ↔ (s.live x = true ∧ ¬ Desc s o x)) ∧
      (∀ P, (s.obj o).parent = some P →
        t.live P = true ∧ (s.obj P).objects.count o = 1 ∧
        (t.obj P).objects = (s.obj P).objects.erase o ∧
        (t.obj P).dirty = true ∧
        (∀ a, Anc s a P → t.live a = true ∧ (t.obj a).dirty = true) ∧
        (∀ x, t.live x = true → x ≠ P → (t.obj x).objects = (s.obj x).objects) ∧
        (∀ x, t.live x = true → x ≠ P → ¬ Anc s x P → t.obj x = s.obj x)) ∧
      ((s.obj o).parent = none → ∀ x, t.live x = true → t.obj x = s.obj x) := by
  cases n with
  | zero => simp [depthWithin] at hdepth
  | succ n =>
  cases fuel with
  | zero => omega
  | succ f =>
  have htree : TreeBelow s (n + 1) o := TreeBelow.of_forest hF hlive hdepth
  cases hp : (s.obj o).parent with
  | none =>
    obtain ⟨t, ht, hsw⟩ := dispose_swept (n + 1) (f + 1) s o hfuel htree hp
    have hreg : ∀ x, (∃ c0 ∈ [o], Desc s c0 x) ↔ Desc s o x := by
      intro x
      simp only [List.mem_singleton, exists_eq_left]
    refine ⟨t, ht, fun x => (by rw [hsw.live, hreg]), fun P hP => (by cases hP), fun _ x hx => ?_⟩
    exact hsw.keep x ((hsw.live x).mp hx).2
  | some P =>
    obtain ⟨u, hu, hcl⟩ := @clear_cleared _ n (c3object_dispose f)
      (fun s c ht hp => dispose_swept n f s c (by omega) ht hp) s o htree
    obtain ⟨hPl, hcnt⟩ := hF.parent o P hlive hp
    have hm : o ∈ (s.obj P).objects := List.count_pos_iff.mp (by rw [hcnt]; exact Nat.one_pos)
    have hup : ∀ a, Anc s a o → u.obj a = s.obj a ∧ u.live a = true ∧ a ≠ o := by
      intro a ha
      have hnb := hF.anc_not_below hlive hdepth ha
      refine ⟨hcl.keep a hnb, (hcl.live a).mpr ⟨(hF.desc_of_anc hlive ha).2, fun h => hnb h.1⟩, ?_⟩
      rintro rfl
      exact hnb (Desc.refl _)
    obtain ⟨hPu, hPul, hPo⟩ := hup P (Anc.parent hp)
    have hpu : (u.obj o).parent = some P := by rw [hcl.self]; simpa using hp
    have hmu : o ∈ (u.obj P).objects := by rw [hPu]; exact hm
    have hrP : reachesRoot s (f + 1) (some P) = true := by
      have h1 : reachesRoot s (n + 1) (some o) = true := hchain
      simp only [reachesRoot, hp] at h1
      exact reachesRoot_mono (by omega) h1
    have hmemch : ∀ x, x ∈ chain s (f + 1) (some P) ↔ (x = P ∨ Anc s x P) := mem_chain_iff hrP
    have hchu := chain_congr_on (t := u) (f + 1) (some P) (fun x hx => by
      rcases (hmemch x).mp hx with h | h
      · rw [h, hPu]
      · rw [(hup x (Anc.step hp h)).1])
    generalize hX : (markAll (markGeometry
        (u.modObj P (fun r => r.withObjects (r.objects.erase o)))
        (u.obj P).geometry) (chain s (f + 1) (some P))).modObj o
          (fun r => r.withParent none) = X
    have hXl : X.live = u.live := by subst hX; simp
    have hret : c3object_dispose (f + 1) s o = some
        { X with live := upd X.live o false, freed := X.freed ++ [o] } := by
      simp only [c3object_dispose, hu, _c3object_dispose, detachObject_eq (f + 1) u o P hpu hmu,
        hchu.1, hchu.2, hrP, if_true, hX]
    refine ⟨_, hret, fun x => ?_, fun P' hP' => ?_, fun h => (by cases h)⟩
    · show upd X.live o false x = true ↔ _
      rw [hXl]
      by_cases hxo : x = o
      · subst hxo
        simp [Desc.refl]
      · rw [upd_ne _ _ hxo, hcl.live]
        simp [hxo]
    · cases hP'
      have hlv : ∀ x, upd X.live o false x = true → x ≠ o ∧ ¬ Desc s o x := by
        intro x hx
        rw [hXl] at hx
        by_cases hxo : x = o
        · subst hxo; simp at hx
        · rw [upd_ne _ _ hxo, hcl.live] at hx
          exact ⟨hxo, fun hd => hx.2 ⟨hd, hxo⟩⟩
      refine ⟨?_, hcnt, ?_, ?_, fun a ha => ⟨?_, ?_⟩, fun x hx hxP => ?_, fun x hx hxP hxa => ?_⟩
      · show upd X.live o false P = true
        rw [hXl, upd_ne _ _ hPo]; exact hPul
      · show (X.obj P).objects = _
        subst hX
        simp [hPo, hPu]
      · have : P ∈ chain s (f + 1) (some P) := (hmemch P).mpr (Or.inl rfl)
        show (X.obj P).dirty = true
        subst hX
        simp [hPo, this]
      · show upd X.live o false a = true
        obtain ⟨_, h2, h3⟩ := hup a (Anc.step hp ha)
        rw [hXl, upd_ne _ _ h3]; exact h2
      · have : a ∈ chain s (f + 1) (some P) := (hmemch a).mpr (Or.inr ha)
        obtain ⟨_, _, h3⟩ := hup a (Anc.step hp ha)
        show (X.obj a).dirty = true
        subst hX
        simp [h3, this]
      · obtain ⟨hxo, hnd⟩ := hlv x hx
        show (X.obj x).objects = _
        subst hX
        simp [hxo, hxP, hcl.keep x hnd]
      · obtain ⟨hxo, hnd⟩ := hlv x hx
        have hnc : x ∉ chain s (f + 1) (some P) := by
          rw [hmemch]
          rintro (h | h)
          · exact hxP h
          · exact hxa h
        show X.obj x = _
        subst hX
        simp [hxo, hxP, hnc, hcl.keep x hnd]
        rfl

theorem dispose_removes_subtree_witness :
    ∃ t, c3object_dispose 2 demo 1 = some t ∧
      (∀ x, t.live x = true ↔ (demo.live x = true ∧ ¬ Desc demo 1 x)) ∧
      (∀ P, (demo.obj 1).parent = some P →
        t.live P = true ∧ (demo.obj P).objects.count 1 = 1 ∧
        (t.obj P).objects = (demo.obj P).objects.erase 1 ∧
        (t.obj P).dirty = true ∧
        (∀ a, Anc demo a P → t.live a = true ∧ (t.obj a).dirty = true) ∧
        (∀ x, t.live x = true → x ≠ P → (t.obj x).objects = (demo.obj x).objects) ∧
        (∀ x, t.live x = true → x ≠ P → ¬ Anc demo x P → t.obj x = demo.obj x)) ∧
      ((demo.obj 1).parent = none → ∀ x, t.live x = true → t.obj x = demo.obj x) :=
  dispose_removes_subtree demo 1 2 2 demo_forest rfl rfl rfl (le_refl 2)

/-- The logs of `c3object_clear(1)` on `demo`: the transform of object 1, then the transform
and the geometry of its child 2, each found with a null back-reference, and then
`free(2)`. -/
theorem clear_demo_logs :
    ∃ u, c3object_clear 1 demo 1 = some u ∧
      u.xfDisposed = [(0, none), (1, none)] ∧ u.geoDisposed = [(0, none)] ∧ u.freed = [2] :=
  ⟨_, rfl, rfl, rfl, rfl⟩

/-- The log tells the order of the two statements of the loop body: a call of
`c3geometry_dispose` on geometry 0 of `demo` before `g->object = NULL` records the
owner 2. -/
theorem dispose_before_null_recorded :
    (c3geometry_dispose demo 0).geoDisposed = [(0, some 2)] ∧
    (c3geometry_dispose (demo.modGeo 0 (fun r => r.withObject none)) 0).geoDisposed
      = [(0, none)] :=
  ⟨rfl, rfl⟩

end LibC3
